import Mathlib

/-!
# Verification of the crypto-exchange order book core (`orderbook/orderbook.go`)

Shallow embedding of the order book data model and operations.

Modelling conventions:
* Go `float64` prices/sizes are modelled as exact rationals (`ℚ`): the code
  performs only additions, subtractions and comparisons on them, and every
  property checked here is about that exact bookkeeping, not about rounding.
* Go pointers to `Order` values are modelled as references (`Ref := Nat`) into
  an explicit heap `Heap := Ref → Order`; mutation of an order through any
  alias becomes a heap update.  The `Order.Limit` back-pointer is modelled as
  `limitPrice : Option ℚ` (`none` = nil pointer); together with the order's
  `bid` flag this identifies the unique price level the pointer refers to in
  any book satisfying the representation invariant.
* A Go `panic` (the source panics on insufficient market-order volume, on the
  out-of-range trade-history access in `PlaceMarketOrder`, and on the nil
  `o.Limit` dereference in `CancelOrder`) is modelled as a `panicked` result
  carrying the book state at the moment of the panic.
* The two per-side containers of the Go book (the `map[float64]*Limit` and the
  unordered `[]*Limit` slice, which always hold the same levels) are modelled
  as a single list of levels per side.  The slice's internal element order is
  unobservable through the API (every read either sorts or sums), so the model
  keeps levels in insertion/sorted order where Go's swap-removals scramble it.
* `sort.Sort` (not stability-guaranteed in Go) is modelled as a stable
  insertion sort; the two can differ only on orders with equal timestamps,
  resp. levels with equal prices (the latter cannot occur on one side).
-/

/- `Rat.add`/`Rat.sub`/`Rat.mul` are `@[irreducible]` in Batteries, which
blocks `decide` from evaluating the model on concrete books; the model only
ever adds, subtracts and compares exact rationals, so unsealing them locally
is sound and lets concrete runs reduce in the kernel. -/
attribute [local semireducible] Rat.add Rat.sub Rat.mul

namespace CryptoExchange

/-- A reference to an order: the model of a Go `*Order` pointer. -/
abbrev Ref := Nat

/-- `Order` from orderbook.go: ID, UserID, Size, Bid, Limit back-pointer,
Timestamp. -/
structure Order where
  id : Int
  userID : Int
  size : ℚ
  bid : Bool
  limitPrice : Option ℚ
  timestamp : Int
deriving DecidableEq, Repr

instance : Inhabited Order :=
  ⟨{ id := 0, userID := 0, size := 0, bid := false, limitPrice := none, timestamp := 0 }⟩

/-- The order heap: model of the Go memory holding all `Order` values. -/
abbrev Heap := Ref → Order

/-- Heap update: writing through an order pointer. -/
def hupd (h : Heap) (r : Ref) (o : Order) : Heap :=
  fun x => if x = r then o else h x

/-- `Match` from orderbook.go (ask, bid, size filled, price). -/
structure Matched where
  ask : Ref
  bid : Ref
  sizeFilled : ℚ
  price : ℚ
deriving DecidableEq, Repr

/-- `Trade` from orderbook.go. -/
structure Trade where
  price : ℚ
  size : ℚ
  bid : Bool
  timestamp : Int
deriving DecidableEq, Repr

/-- `Limit` from orderbook.go: a price level holding resident orders and a
cached total volume. -/
structure Limit where
  price : ℚ
  orders : List Ref
  totalVolume : ℚ
deriving DecidableEq, Repr

/-- `Order.IsFilled`: `o.Size == 0.0`. -/
def Order.isFilled (o : Order) : Bool := o.size == 0

/-- `NewLimit(price)`. -/
def NewLimit (price : ℚ) : Limit :=
  { price := price, orders := [], totalVolume := 0 }

/-- `Limit.AddOrder`: set the back-pointer, append, add the size to the cached
volume. -/
def Limit.addOrder (l : Limit) (h : Heap) (r : Ref) : Limit × Heap :=
  let o := h r
  ({ l with orders := l.orders ++ [r], totalVolume := l.totalVolume + o.size },
   hupd h r { o with limitPrice := some l.price })

/-- The removal loop of `Limit.DeleteOrder`: scan with index `i`, swap the last
element into each position holding `o` and truncate.  The loop advances `i` by
one per iteration and the list never grows, so `rs.length + 1 - i` iterations
always suffice; the explicit fuel only makes the recursion structural. -/
def goRemoveF : Nat → List Ref → Ref → Nat → List Ref
  | 0, rs, _, _ => rs
  | fuel + 1, rs, r, i =>
      if hlt : i < rs.length then
        if rs.get ⟨i, hlt⟩ = r then
          goRemoveF fuel ((rs.set i (rs.getLast?.getD r)).dropLast) r (i + 1)
        else
          goRemoveF fuel rs r (i + 1)
      else rs

def goRemove (rs : List Ref) (r : Ref) (i : Nat) : List Ref :=
  goRemoveF (rs.length + 1 - i) rs r i

/-- Insert a ref into a timestamp-sorted list of refs (stable). -/
def insertByTs (h : Heap) (r : Ref) : List Ref → List Ref
  | [] => [r]
  | x :: xs =>
      if (h r).timestamp ≤ (h x).timestamp then r :: x :: xs
      else x :: insertByTs h r xs

/-- Model of `sort.Sort(l.Orders)` with `Less` comparing timestamps. -/
def sortByTs (h : Heap) (rs : List Ref) : List Ref :=
  rs.foldr (insertByTs h) []

/-- `Limit.DeleteOrder`: swap-remove scan, nil the back-pointer, subtract the
order's (current) size from the cached volume, re-sort by timestamp. -/
def Limit.deleteOrder (l : Limit) (h : Heap) (r : Ref) : Limit × Heap :=
  let rs := goRemove l.orders r 0
  let o := h r
  let h1 := hupd h r { o with limitPrice := none }
  ({ l with orders := sortByTs h1 rs, totalVolume := l.totalVolume - o.size }, h1)

/-- `Limit.fillOrder(a, b)`: `a` is the resident order, `b` the incoming one.
Roles are assigned from `a`'s side; the smaller size is filled; the match is
priced at the level's price. -/
def fillOrderAt (price : ℚ) (h : Heap) (ra rb : Ref) : Heap × Matched :=
  let a := h ra
  let b := h rb
  let bidR := if a.bid then ra else rb
  let askR := if a.bid then rb else ra
  if b.size ≤ a.size then
    let h1 := hupd h ra { a with size := a.size - b.size }
    let sf := (h1 rb).size
    let h2 := hupd h1 rb { h1 rb with size := 0 }
    (h2, { ask := askR, bid := bidR, sizeFilled := sf, price := price })
  else
    let h1 := hupd h rb { b with size := b.size - a.size }
    let sf := (h1 ra).size
    let h2 := hupd h1 ra { h1 ra with size := 0 }
    (h2, { ask := askR, bid := bidR, sizeFilled := sf, price := price })

/-- The scan loop of `Limit.Fill`: iterate residents in order, stop when the
incoming order is filled, record a match per resident processed, decrement the
cached volume by each filled size, and collect the residents that became
filled.  Returns (heap, volume, matches, residents to delete). -/
def fillScan (price : ℚ) (inc : Ref) :
    List Ref → Heap → ℚ → Heap × ℚ × List Matched × List Ref
  | [], h, tv => (h, tv, [], [])
  | r :: rs, h, tv =>
      if (h inc).isFilled then (h, tv, [], [])
      else
        let p := fillOrderAt price h r inc
        let tv1 := tv - p.2.sizeFilled
        let rest := fillScan price inc rs p.1 tv1
        (rest.1, rest.2.1, p.2 :: rest.2.2.1,
          (if (p.1 r).isFilled then [r] else []) ++ rest.2.2.2)

/-- `Limit.Fill`: scan, then batch-delete the residents that became filled. -/
def Limit.fill (l : Limit) (h : Heap) (inc : Ref) : Limit × Heap × List Matched :=
  let s := fillScan l.price inc l.orders h l.totalVolume
  let d := s.2.2.2.foldl (fun p r => Limit.deleteOrder p.1 p.2 r)
    ({ l with totalVolume := s.2.1 }, s.1)
  (d.1, d.2, s.2.2.1)

/-- Insert a level into a list sorted ascending by price (`ByBestAsk`). -/
def insertAsk (l : Limit) : List Limit → List Limit
  | [] => [l]
  | x :: xs => if l.price ≤ x.price then l :: x :: xs else x :: insertAsk l xs

/-- Insert a level into a list sorted descending by price (`ByBestBid`). -/
def insertBid (l : Limit) : List Limit → List Limit
  | [] => [l]
  | x :: xs => if x.price ≤ l.price then l :: x :: xs else x :: insertBid l xs

/-- `Orderbook.Asks()`: the ask levels sorted best (lowest) price first. -/
def sortAsks (ls : List Limit) : List Limit := ls.foldr insertAsk []

/-- `Orderbook.Bids()`: the bid levels sorted best (highest) price first. -/
def sortBids (ls : List Limit) : List Limit := ls.foldr insertBid []

/-- `Orderbook`: both sides' levels (each side's map and slice hold the same
levels, modelled as one list), the trade history, and the id index. -/
structure Orderbook where
  heap : Heap
  asks : List Limit
  bids : List Limit
  trades : List Trade
  ordersIdx : List (Int × Ref)

/-- `NewOrderbook()`. -/
def newOrderbook : Orderbook :=
  { heap := fun _ => default, asks := [], bids := [], trades := [], ordersIdx := [] }

/-- `Orderbook.AskTotalVolume`: sum of the ask levels' cached volumes. -/
def Orderbook.askTotalVolume (ob : Orderbook) : ℚ :=
  (ob.asks.map Limit.totalVolume).sum

/-- `Orderbook.BidTotalVolume`: sum of the bid levels' cached volumes. -/
def Orderbook.bidTotalVolume (ob : Orderbook) : ℚ :=
  (ob.bids.map Limit.totalVolume).sum

/-- Go map write `m[k] = v`: replace the binding for `k` or append one. -/
def setAssoc (m : List (Int × Ref)) (k : Int) (v : Ref) : List (Int × Ref) :=
  if m.any (fun p => p.1 == k) then
    m.map (fun p => if p.1 == k then (k, v) else p)
  else m ++ [(k, v)]

/-- Go map delete `delete(m, k)`. -/
def delAssoc (m : List (Int × Ref)) (k : Int) : List (Int × Ref) :=
  m.filter (fun p => !(p.1 == k))

/-- Replace the (unique) level at `price` in a side list. -/
def replaceLevel : List Limit → ℚ → Limit → List Limit
  | [], _, _ => []
  | l :: ls, p, l1 => if l.price = p then l1 :: ls else l :: replaceLevel ls p l1

/-- `Orderbook.clearLimit` restricted to one side: evict the level at `price`
from the side's indices. -/
def removeLevel (ls : List Limit) (price : ℚ) : List Limit :=
  ls.filter (fun l => !(l.price == price))

/-- `Orderbook.PlaceLimitOrder(price, o)`: find or create the level at `price`
on the order's side, register the order in the id index, append it to the
level.  No matching is attempted. -/
def Orderbook.placeLimitOrder (ob : Orderbook) (price : ℚ) (r : Ref) : Orderbook :=
  let o := ob.heap r
  if o.bid then
    match ob.bids.find? (fun l => l.price == price) with
    | some l =>
        let p := l.addOrder ob.heap r
        { ob with bids := replaceLevel ob.bids price p.1, heap := p.2,
                  ordersIdx := setAssoc ob.ordersIdx o.id r }
    | none =>
        let p := (NewLimit price).addOrder ob.heap r
        { ob with bids := ob.bids ++ [p.1], heap := p.2,
                  ordersIdx := setAssoc ob.ordersIdx o.id r }
  else
    match ob.asks.find? (fun l => l.price == price) with
    | some l =>
        let p := l.addOrder ob.heap r
        { ob with asks := replaceLevel ob.asks price p.1, heap := p.2,
                  ordersIdx := setAssoc ob.ordersIdx o.id r }
    | none =>
        let p := (NewLimit price).addOrder ob.heap r
        { ob with asks := ob.asks ++ [p.1], heap := p.2,
                  ordersIdx := setAssoc ob.ordersIdx o.id r }

/-- The two panics `PlaceMarketOrder` can raise: the explicit
"not enough volume" panic, and the out-of-range `ob.Trades[len-1]` access in
its logging step. -/
inductive PanicKind where
  | insufficientVolume
  | indexOutOfRange
deriving DecidableEq, Repr

/-- Outcome of `PlaceMarketOrder`: normal return with the matches, or a panic
(process termination) carrying the book state at the moment of the panic. -/
inductive MResult where
  | ok (ms : List Matched) (ob : Orderbook)
  | panicked (kind : PanicKind) (ob : Orderbook)

/-- The sweep loop of `PlaceMarketOrder`: fill each level of the (sorted)
opposite side in turn; a level emptied by its fill is evicted. -/
def marketSweep (inc : Ref) : List Limit → Heap → Heap × List Limit × List Matched
  | [], h => (h, [], [])
  | l :: ls, h =>
      let f := l.fill h inc
      let rest := marketSweep inc ls f.2.1
      if f.1.orders.isEmpty then (rest.1, rest.2.1, f.2.2 ++ rest.2.2)
      else (rest.1, f.1 :: rest.2.1, f.2.2 ++ rest.2.2)

/-- `Orderbook.PlaceMarketOrder(o)`: panic when the order's size exceeds the
opposite side's total volume; otherwise sweep the opposite side best price
first, record one trade per match, and finally read
`ob.Trades[len(ob.Trades)-1]` for logging - a panic when the history is
empty. -/
def Orderbook.placeMarketOrder (ob : Orderbook) (r : Ref) (now : Int) : MResult :=
  let o := ob.heap r
  if o.bid then
    if ob.askTotalVolume < o.size then .panicked .insufficientVolume ob
    else
      let s := marketSweep r (sortAsks ob.asks) ob.heap
      let trades1 := ob.trades ++ s.2.2.map (fun m =>
        { price := m.price, size := m.sizeFilled, bid := o.bid, timestamp := now })
      let ob1 := { ob with heap := s.1, asks := s.2.1, trades := trades1 }
      if trades1.isEmpty then .panicked .indexOutOfRange ob1
      else .ok s.2.2 ob1
  else
    if ob.bidTotalVolume < o.size then .panicked .insufficientVolume ob
    else
      let s := marketSweep r (sortBids ob.bids) ob.heap
      let trades1 := ob.trades ++ s.2.2.map (fun m =>
        { price := m.price, size := m.sizeFilled, bid := o.bid, timestamp := now })
      let ob1 := { ob with heap := s.1, bids := s.2.1, trades := trades1 }
      if trades1.isEmpty then .panicked .indexOutOfRange ob1
      else .ok s.2.2 ob1

/-- Outcome of `CancelOrder`: normal return, or the nil-pointer-dereference
panic on `o.Limit.DeleteOrder(o)` when the back-pointer is nil. -/
inductive CResult where
  | ok (ob : Orderbook)
  | panicked (ob : Orderbook)

/-- `Orderbook.CancelOrder(o)`: follow the order's `Limit` back-pointer (a nil
pointer panics), delete the order from that level, delete its id binding, and
evict the level if it became empty.  The inner `none` branch (a non-nil
back-pointer to a level absent from the side's indices) is unreachable for
books satisfying the representation invariant; it is modelled as the same
dereference fault. -/
def Orderbook.cancelOrder (ob : Orderbook) (r : Ref) : CResult :=
  let o := ob.heap r
  match o.limitPrice with
  | none => .panicked ob
  | some price =>
      let side := if o.bid then ob.bids else ob.asks
      match side.find? (fun l => l.price == price) with
      | none => .panicked ob
      | some l =>
          let p := l.deleteOrder ob.heap r
          let idx1 := delAssoc ob.ordersIdx o.id
          if p.1.orders.isEmpty then
            if o.bid then
              .ok { ob with heap := p.2, ordersIdx := idx1,
                            bids := removeLevel ob.bids price }
            else
              .ok { ob with heap := p.2, ordersIdx := idx1,
                            asks := removeLevel ob.asks price }
          else
            if o.bid then
              .ok { ob with heap := p.2, ordersIdx := idx1,
                            bids := replaceLevel ob.bids price p.1 }
            else
              .ok { ob with heap := p.2, ordersIdx := idx1,
                            asks := replaceLevel ob.asks price p.1 }

/-! ## Operation traces

A trace is a list of API calls against one book, starting from
`NewOrderbook()`.  Each placement call constructs a fresh order (`NewOrder`
allocates a new `*Order`); its ID, user, timestamp and the wall-clock time of
the call are trace parameters.  An operation that panics terminates the
process, hence the trace. -/

/-- One API call. -/
inductive Op where
  | limitOp (bid : Bool) (size : ℚ) (price : ℚ) (oid uid ts : Int)
  | marketOp (bid : Bool) (size : ℚ) (oid uid ts now : Int)
  | cancelOp (r : Ref)

/-- Book plus the next fresh order reference. -/
structure ExchState where
  ob : Orderbook
  nextRef : Ref

/-- `NewOrder`: a fresh order, back-pointer nil. -/
def newOrderAt (bid : Bool) (size : ℚ) (oid uid ts : Int) : Order :=
  { id := oid, userID := uid, size := size, bid := bid,
    limitPrice := none, timestamp := ts }

def initState : ExchState := { ob := newOrderbook, nextRef := 0 }

/-- One trace step; `none` when the operation panics. -/
def step (s : ExchState) : Op → Option ExchState
  | .limitOp bid size price oid uid ts =>
      let r := s.nextRef
      let ob1 := { s.ob with heap := hupd s.ob.heap r (newOrderAt bid size oid uid ts) }
      some { ob := ob1.placeLimitOrder price r, nextRef := r + 1 }
  | .marketOp bid size oid uid ts now =>
      let r := s.nextRef
      let ob1 := { s.ob with heap := hupd s.ob.heap r (newOrderAt bid size oid uid ts) }
      match ob1.placeMarketOrder r now with
      | .ok _ ob2 => some { ob := ob2, nextRef := r + 1 }
      | .panicked _ _ => none
  | .cancelOp r =>
      match s.ob.cancelOrder r with
      | .ok ob2 => some { ob := ob2, nextRef := s.nextRef }
      | .panicked _ => none

/-- Run a trace from the fresh book. -/
def runOps (ops : List Op) : Option ExchState :=
  ops.foldl (fun acc op => acc.bind (fun s => step s op)) (some initState)

/-! ## Derived observations -/

/-- Sum of the remaining sizes of the orders resident in a level. -/
def levelSum (h : Heap) (l : Limit) : ℚ :=
  (l.orders.map (fun r => (h r).size)).sum

/-- All refs resident in some level of the book (asks then bids). -/
def residentRefs (ob : Orderbook) : List Ref :=
  ((ob.asks ++ ob.bids).map Limit.orders).flatten

/-- The resident party of a match produced by filling `inc` into a level. -/
def matchResident (inc : Ref) (m : Matched) : Ref :=
  if m.ask = inc then m.bid else m.ask

/-- `Limit.fillOrder(a, b)` as a method of the level, pricing at the level's
price. -/
def Limit.fillOrder (l : Limit) (h : Heap) (ra rb : Ref) : Heap × Matched :=
  fillOrderAt l.price h ra rb

/-- Sum of the sizes of a list of orders. -/
def sumSizes (h : Heap) (rs : List Ref) : ℚ :=
  (rs.map (fun r => (h r).size)).sum

/-- All refs resident in any of a list of levels. -/
def allOrders (ls : List Limit) : List Ref :=
  (ls.map Limit.orders).flatten

/-- Discriminators for market-order outcomes. -/
def MResult.isOk : MResult → Bool
  | .ok _ _ => true
  | .panicked _ _ => false

def MResult.isIndexPanic : MResult → Bool
  | .panicked .indexOutOfRange _ => true
  | _ => false

/-- The book state carried by a market-order outcome. -/
def MResult.stateOf : MResult → Orderbook
  | .ok _ ob => ob
  | .panicked _ ob => ob

/-- The matches of a normal market-order outcome. -/
def MResult.msOf : MResult → List Matched
  | .ok ms _ => ms
  | .panicked _ _ => []

def CResult.isPanic : CResult → Bool
  | .panicked _ => true
  | .ok _ => false

/-! ## Basic lemmas -/

theorem hupd_same (h : Heap) (r : Ref) (o : Order) : hupd h r o r = o := by
  simp [hupd]

theorem hupd_other (h : Heap) (r : Ref) (o : Order) (x : Ref) (hx : x ≠ r) :
    hupd h r o x = h x := by
  simp [hupd, hx]

theorem sumSizes_congr {h1 h2 : Heap} {rs : List Ref}
    (hc : ∀ r ∈ rs, (h1 r).size = (h2 r).size) :
    sumSizes h1 rs = sumSizes h2 rs := by
  unfold sumSizes
  induction rs with
  | nil => rfl
  | cons a t ih =>
      simp only [List.map_cons, List.sum_cons]
      rw [hc a (by simp), ih (fun r hr => hc r (by simp [hr]))]

theorem sumSizes_cons (h : Heap) (a : Ref) (rs : List Ref) :
    sumSizes h (a :: rs) = (h a).size + sumSizes h rs := by
  simp [sumSizes]

theorem sumSizes_perm (h : Heap) {rs1 rs2 : List Ref} (hp : rs1.Perm rs2) :
    sumSizes h rs1 = sumSizes h rs2 :=
  List.Perm.sum_eq (hp.map _)

theorem sumSizes_erase (h : Heap) {rs : List Ref} {r : Ref} (hr : r ∈ rs) :
    sumSizes h (rs.erase r) = sumSizes h rs - (h r).size := by
  induction rs with
  | nil => cases hr
  | cons a t ih =>
      by_cases ha : a = r
      · subst ha
        simp [List.erase_cons_head, sumSizes_cons]
      · rw [List.erase_cons_tail (by simpa using ha)]
        rcases List.mem_cons.mp hr with h1 | h1
        · exact absurd h1.symm ha
        · rw [sumSizes_cons, sumSizes_cons, ih h1]; ring

theorem levelSum_eq_sumSizes (h : Heap) (l : Limit) :
    levelSum h l = sumSizes h l.orders := rfl

/-! ### Sorting refs by timestamp -/

theorem insertByTs_perm (h : Heap) (r : Ref) (rs : List Ref) :
    (insertByTs h r rs).Perm (r :: rs) := by
  induction rs with
  | nil => simp [insertByTs]
  | cons a t ih =>
      by_cases hc : (h r).timestamp ≤ (h a).timestamp
      · simp [insertByTs, hc]
      · simp only [insertByTs, if_neg hc]
        exact ((ih.cons a).trans (List.Perm.swap r a t))

theorem sortByTs_perm (h : Heap) (rs : List Ref) : (sortByTs h rs).Perm rs := by
  induction rs with
  | nil => simp [sortByTs]
  | cons a t ih =>
      have : sortByTs h (a :: t) = insertByTs h a (sortByTs h t) := rfl
      rw [this]
      exact (insertByTs_perm h a (sortByTs h t)).trans (ih.cons a)

/-- The timestamp order used by `sort.Sort(l.Orders)`. -/
def tsLE (h : Heap) (a b : Ref) : Prop := (h a).timestamp ≤ (h b).timestamp

instance (h : Heap) : DecidableRel (tsLE h) := fun a b =>
  inferInstanceAs (Decidable ((h a).timestamp ≤ (h b).timestamp))

theorem insertByTs_sorted (h : Heap) (r : Ref) {rs : List Ref}
    (hs : rs.Pairwise (tsLE h)) :
    (insertByTs h r rs).Pairwise (tsLE h) := by
  induction rs with
  | nil => simp [insertByTs, tsLE]
  | cons a t ih =>
      by_cases hc : (h r).timestamp ≤ (h a).timestamp
      · simp only [insertByTs, if_pos hc]
        refine List.Pairwise.cons ?_ hs
        intro b hb
        rcases List.mem_cons.mp hb with hb | hb
        · subst hb; exact hc
        · exact le_trans hc ((List.pairwise_cons.mp hs).1 b hb)
      · simp only [insertByTs, if_neg hc]
        have hs' := List.pairwise_cons.mp hs
        refine List.Pairwise.cons ?_ (ih hs'.2)
        intro b hb
        have hb' := (insertByTs_perm h r t).mem_iff.mp hb
        rcases List.mem_cons.mp hb' with hb' | hb'
        · subst hb'; exact le_of_not_le hc
        · exact hs'.1 b hb'

theorem sortByTs_sorted (h : Heap) (rs : List Ref) :
    (sortByTs h rs).Pairwise (tsLE h) := by
  induction rs with
  | nil => simp [sortByTs]
  | cons a t ih => exact insertByTs_sorted h a ih

theorem sortByTs_eq_of_sorted (h : Heap) {rs : List Ref}
    (hs : rs.Pairwise (tsLE h)) : sortByTs h rs = rs := by
  induction rs with
  | nil => rfl
  | cons a t ih =>
      have hs' := List.pairwise_cons.mp hs
      have : sortByTs h (a :: t) = insertByTs h a (sortByTs h t) := rfl
      rw [this, ih hs'.2]
      cases t with
      | nil => rfl
      | cons b u =>
          have hab : (h a).timestamp ≤ (h b).timestamp := hs'.1 b (by simp)
          simp only [insertByTs, if_pos hab]

/-! ### Sorting levels by price -/

theorem insertAsk_perm (l : Limit) (ls : List Limit) :
    (insertAsk l ls).Perm (l :: ls) := by
  induction ls with
  | nil => simp [insertAsk]
  | cons a t ih =>
      by_cases hc : l.price ≤ a.price
      · simp [insertAsk, hc]
      · simp only [insertAsk, if_neg hc]
        exact ((ih.cons a).trans (List.Perm.swap l a t))

theorem sortAsks_perm (ls : List Limit) : (sortAsks ls).Perm ls := by
  induction ls with
  | nil => simp [sortAsks]
  | cons a t ih =>
      have : sortAsks (a :: t) = insertAsk a (sortAsks t) := rfl
      rw [this]
      exact (insertAsk_perm a (sortAsks t)).trans (ih.cons a)

theorem insertBid_perm (l : Limit) (ls : List Limit) :
    (insertBid l ls).Perm (l :: ls) := by
  induction ls with
  | nil => simp [insertBid]
  | cons a t ih =>
      by_cases hc : a.price ≤ l.price
      · simp [insertBid, hc]
      · simp only [insertBid, if_neg hc]
        exact ((ih.cons a).trans (List.Perm.swap l a t))

theorem sortBids_perm (ls : List Limit) : (sortBids ls).Perm ls := by
  induction ls with
  | nil => simp [sortBids]
  | cons a t ih =>
      have : sortBids (a :: t) = insertBid a (sortBids t) := rfl
      rw [this]
      exact (insertBid_perm a (sortBids t)).trans (ih.cons a)

/-- Price order of the best-ask view. -/
def priceLE (a b : Limit) : Prop := a.price ≤ b.price

/-- Price order of the best-bid view. -/
def priceGE (a b : Limit) : Prop := b.price ≤ a.price

theorem insertAsk_sorted (l : Limit) {ls : List Limit}
    (hs : ls.Pairwise priceLE) : (insertAsk l ls).Pairwise priceLE := by
  induction ls with
  | nil => simp [insertAsk, priceLE]
  | cons a t ih =>
      by_cases hc : l.price ≤ a.price
      · simp only [insertAsk, if_pos hc]
        refine List.Pairwise.cons ?_ hs
        intro b hb
        rcases List.mem_cons.mp hb with hb | hb
        · subst hb; exact hc
        · exact le_trans hc ((List.pairwise_cons.mp hs).1 b hb)
      · simp only [insertAsk, if_neg hc]
        have hs' := List.pairwise_cons.mp hs
        refine List.Pairwise.cons ?_ (ih hs'.2)
        intro b hb
        have hb' := (insertAsk_perm l t).mem_iff.mp hb
        rcases List.mem_cons.mp hb' with hb' | hb'
        · subst hb'; exact le_of_not_le hc
        · exact hs'.1 b hb'

theorem sortAsks_sorted (ls : List Limit) : (sortAsks ls).Pairwise priceLE := by
  induction ls with
  | nil => simp [sortAsks]
  | cons a t ih => exact insertAsk_sorted a ih

theorem insertBid_sorted (l : Limit) {ls : List Limit}
    (hs : ls.Pairwise priceGE) : (insertBid l ls).Pairwise priceGE := by
  induction ls with
  | nil => simp [insertBid, priceGE]
  | cons a t ih =>
      by_cases hc : a.price ≤ l.price
      · simp only [insertBid, if_pos hc]
        refine List.Pairwise.cons ?_ hs
        intro b hb
        rcases List.mem_cons.mp hb with hb | hb
        · subst hb; exact hc
        · exact le_trans ((List.pairwise_cons.mp hs).1 b hb) hc
      · simp only [insertBid, if_neg hc]
        have hs' := List.pairwise_cons.mp hs
        refine List.Pairwise.cons ?_ (ih hs'.2)
        intro b hb
        have hb' := (insertBid_perm l t).mem_iff.mp hb
        rcases List.mem_cons.mp hb' with hb' | hb'
        · subst hb'; exact le_of_not_le hc
        · exact hs'.1 b hb'

theorem sortBids_sorted (ls : List Limit) : (sortBids ls).Pairwise priceGE := by
  induction ls with
  | nil => simp [sortBids]
  | cons a t ih => exact insertBid_sorted a ih

/-! ### The swap-remove scan of `DeleteOrder` -/

theorem goRemoveF_stop (fuel : Nat) (rs : List Ref) (r : Ref) (i : Nat)
    (hge : rs.length ≤ i) : goRemoveF fuel rs r i = rs := by
  cases fuel with
  | zero => rfl
  | succ f =>
      simp only [goRemoveF]
      rw [dif_neg (by omega)]

theorem goRemoveF_fuel (f1 : Nat) (rs : List Ref) (r : Ref) (i f2 : Nat)
    (h1 : rs.length + 1 - i ≤ f1) (h2 : rs.length + 1 - i ≤ f2) :
    goRemoveF f1 rs r i = goRemoveF f2 rs r i := by
  induction f1 generalizing rs i f2 with
  | zero =>
      have hge : rs.length ≤ i := by omega
      rw [goRemoveF_stop 0 rs r i hge, goRemoveF_stop f2 rs r i hge]
  | succ a ih =>
      by_cases hlt : i < rs.length
      · cases f2 with
        | zero => omega
        | succ b =>
            simp only [goRemoveF]
            rw [dif_pos hlt, dif_pos hlt]
            by_cases hget : rs.get ⟨i, hlt⟩ = r
            · rw [if_pos hget, if_pos hget]
              exact ih _ _ _
                (by simp only [List.length_dropLast, List.length_set]; omega)
                (by simp only [List.length_dropLast, List.length_set]; omega)
            · rw [if_neg hget, if_neg hget]
              exact ih _ _ _ (by omega) (by omega)
      · rw [goRemoveF_stop _ rs r i (by omega), goRemoveF_stop _ rs r i (by omega)]

/-- The recursion equation of the removal loop. -/
theorem goRemove_eq (rs : List Ref) (r : Ref) (i : Nat) :
    goRemove rs r i =
      if hlt : i < rs.length then
        if rs.get ⟨i, hlt⟩ = r then
          goRemove ((rs.set i (rs.getLast?.getD r)).dropLast) r (i + 1)
        else
          goRemove rs r (i + 1)
      else rs := by
  by_cases hlt : i < rs.length
  · rw [dif_pos hlt]
    have hfuel : rs.length + 1 - i = (rs.length - i) + 1 := by omega
    unfold goRemove
    rw [hfuel]
    simp only [goRemoveF]
    rw [dif_pos hlt]
    by_cases hget : rs.get ⟨i, hlt⟩ = r
    · rw [if_pos hget, if_pos hget]
      exact goRemoveF_fuel _ _ _ _ _
        (by simp only [List.length_dropLast, List.length_set]; omega)
        (by simp only [List.length_dropLast, List.length_set]; omega)
    · rw [if_neg hget, if_neg hget]
      exact goRemoveF_fuel _ _ _ _ _ (by omega) (by omega)
  · rw [dif_neg hlt]
    exact goRemoveF_stop _ rs r i (by omega)

theorem goRemove_of_forall (rs : List Ref) (r : Ref) (i : Nat)
    (hnot : ∀ x ∈ rs.drop i, x ≠ r) : goRemove rs r i = rs := by
  rw [goRemove_eq]
  split
  next hlt =>
    have hdec : rs.drop i = rs.get ⟨i, hlt⟩ :: rs.drop (i + 1) :=
      List.drop_eq_getElem_cons hlt
    rw [if_neg (hnot _ (by rw [hdec]; exact List.mem_cons_self _ _))]
    exact goRemove_of_forall rs r (i + 1)
      (fun x hx => hnot x (by rw [hdec]; exact List.mem_cons_of_mem _ hx))
  next => rfl
termination_by rs.length - i

theorem goRemove_shift (rs : List Ref) (r : Ref) (i : Nat) (hi : i < rs.length)
    (hne : rs.get ⟨i, hi⟩ ≠ r) : goRemove rs r i = goRemove rs r (i + 1) := by
  rw [goRemove_eq]
  rw [dif_pos hi, if_neg hne]

theorem goRemove_start (rs : List Ref) (r : Ref) (i : Nat) (hi : i ≤ rs.length)
    (hpre : ∀ j, j < i → ∀ hj2 : j < rs.length, rs.get ⟨j, hj2⟩ ≠ r) :
    goRemove rs r 0 = goRemove rs r i := by
  induction i with
  | zero => rfl
  | succ n ih =>
      have hn : n < rs.length := Nat.lt_of_succ_le hi
      rw [ih (le_of_lt hn) (fun j hj => hpre j (Nat.lt_succ_of_lt hj)),
        goRemove_shift rs r n hn (hpre n (Nat.lt_succ_self n) hn)]

theorem set_append_len (A B : List Ref) (r v : Ref) :
    (A ++ r :: B).set A.length v = A ++ v :: B := by
  induction A with
  | nil => simp
  | cons a t ih => simp [ih]

theorem goRemove_found (A B : List Ref) (r : Ref) (hA : r ∉ A) (hB : r ∉ B) :
    (goRemove (A ++ r :: B) r A.length).Perm (A ++ B) := by
  have hlen : A.length < (A ++ r :: B).length := by simp
  have hget : (A ++ r :: B).get ⟨A.length, hlen⟩ = r := by
    simp [List.getElem_append_right]
  rw [goRemove_eq, dif_pos hlen, if_pos hget]
  rcases List.eq_nil_or_concat B with hBe | ⟨B1, b, hBd⟩
  · subst hBe
    have hlast : (A ++ r :: ([] : List Ref)).getLast?.getD r = r := by
      have : A ++ r :: ([] : List Ref) = A ++ [r] := rfl
      rw [this, List.getLast?_concat]
      rfl
    rw [hlast, set_append_len]
    have hdrop : (A ++ r :: ([] : List Ref)).dropLast = A := by
      simp [List.dropLast_concat]
    rw [hdrop]
    rw [goRemove_of_forall A r (A.length + 1) (by
      intro x hx hxr
      rw [hxr] at hx
      exact hA (List.drop_subset _ _ hx))]
    simp
  · rw [List.concat_eq_append] at hBd
    subst hBd
    have hassoc : A ++ r :: (B1 ++ [b]) = (A ++ r :: B1) ++ [b] := by simp
    have hlast : (A ++ r :: (B1 ++ [b])).getLast?.getD r = b := by
      rw [hassoc, List.getLast?_concat]
      rfl
    rw [hlast, set_append_len]
    have hassoc2 : A ++ b :: (B1 ++ [b]) = (A ++ b :: B1) ++ [b] := by simp
    have hdrop : (A ++ b :: (B1 ++ [b])).dropLast = A ++ b :: B1 := by
      rw [hassoc2]
      rw [List.dropLast_concat]
    rw [hdrop]
    have hrb : r ≠ b := by
      intro hrb; exact hB (by simp [hrb])
    have hrB1 : r ∉ B1 := fun hmem => hB (by simp [hmem])
    rw [goRemove_of_forall (A ++ b :: B1) r (A.length + 1) (by
      intro x hx hxr
      rw [hxr] at hx
      have : r ∈ A ++ b :: B1 := List.drop_subset _ _ hx
      rcases List.mem_append.mp this with hmem | hmem
      · exact hA hmem
      · rcases List.mem_cons.mp hmem with hmem | hmem
        · exact hrb hmem
        · exact hrB1 hmem)]
    exact List.Perm.append_left A (List.perm_append_singleton b B1).symm

theorem goRemove_perm (rs : List Ref) (r : Ref) (hnd : rs.Nodup) :
    (goRemove rs r 0).Perm (rs.erase r) := by
  by_cases hr : r ∈ rs
  · obtain ⟨A, B, rfl⟩ := List.append_of_mem hr
    have hmid : (r :: (A ++ B)).Nodup := List.nodup_middle.mp hnd
    have hrAB : r ∉ A ++ B := (List.nodup_cons.mp hmid).1
    have hA : r ∉ A := fun hmem => hrAB (List.mem_append.mpr (Or.inl hmem))
    have hB : r ∉ B := fun hmem => hrAB (List.mem_append.mpr (Or.inr hmem))
    have hstart : goRemove (A ++ r :: B) r 0 = goRemove (A ++ r :: B) r A.length := by
      refine goRemove_start _ r A.length (by simp) ?_
      intro j hj hj2 hjr
      have hget : (A ++ r :: B).get ⟨j, hj2⟩ = A.get ⟨j, hj⟩ := by
        simp [List.get_eq_getElem, List.getElem_append_left hj]
      rw [hget] at hjr
      exact hA (hjr ▸ List.get_mem A j hj)
    rw [hstart, List.erase_append_right _ hA, List.erase_cons_head]
    exact goRemove_found A B r hA hB
  · rw [goRemove_of_forall rs r 0 (by
      intro x hx hxr
      rw [hxr] at hx
      exact hr (by simpa using hx)),
      List.erase_of_not_mem hr]

/-! ### Specification of `DeleteOrder` -/

theorem deleteOrder_orders_perm (l : Limit) (h : Heap) (r : Ref)
    (hnd : l.orders.Nodup) :
    ((l.deleteOrder h r).1.orders).Perm (l.orders.erase r) := by
  unfold Limit.deleteOrder
  exact (sortByTs_perm _ _).trans (goRemove_perm l.orders r hnd)

theorem deleteOrder_totalVolume (l : Limit) (h : Heap) (r : Ref) :
    (l.deleteOrder h r).1.totalVolume = l.totalVolume - (h r).size := rfl

theorem deleteOrder_price (l : Limit) (h : Heap) (r : Ref) :
    (l.deleteOrder h r).1.price = l.price := rfl

theorem deleteOrder_heap (l : Limit) (h : Heap) (r : Ref) :
    (l.deleteOrder h r).2 = hupd h r { h r with limitPrice := none } := rfl

theorem deleteOrder_heap_other (l : Limit) (h : Heap) (r x : Ref) (hx : x ≠ r) :
    (l.deleteOrder h r).2 x = h x := by
  rw [deleteOrder_heap]; exact hupd_other _ _ _ _ hx

theorem deleteOrder_heap_size (l : Limit) (h : Heap) (r x : Ref) :
    ((l.deleteOrder h r).2 x).size = (h x).size := by
  rw [deleteOrder_heap]
  by_cases hx : x = r
  · subst hx; rw [hupd_same]
  · rw [hupd_other _ _ _ _ hx]

theorem deleteOrder_heap_fields (l : Limit) (h : Heap) (r x : Ref) :
    ((l.deleteOrder h r).2 x).bid = (h x).bid ∧
    ((l.deleteOrder h r).2 x).timestamp = (h x).timestamp ∧
    ((l.deleteOrder h r).2 x).id = (h x).id ∧
    ((l.deleteOrder h r).2 x).userID = (h x).userID := by
  rw [deleteOrder_heap]
  by_cases hx : x = r
  · subst hx; rw [hupd_same]; exact ⟨rfl, rfl, rfl, rfl⟩
  · rw [hupd_other _ _ _ _ hx]; exact ⟨rfl, rfl, rfl, rfl⟩

theorem deleteOrder_heap_limitPrice_self (l : Limit) (h : Heap) (r : Ref) :
    ((l.deleteOrder h r).2 r).limitPrice = none := by
  rw [deleteOrder_heap, hupd_same]

/-- Batch deletion at the end of `Limit.Fill`. -/
theorem foldDelete_spec (dels : List Ref) (l : Limit) (h : Heap)
    (hnd : l.orders.Nodup) (hdnd : dels.Nodup) (hsub : ∀ x ∈ dels, x ∈ l.orders) :
    (((dels.foldl (fun p r => Limit.deleteOrder p.1 p.2 r) (l, h)).1.orders).Perm
        (l.orders.diff dels)) ∧
    (dels.foldl (fun p r => Limit.deleteOrder p.1 p.2 r) (l, h)).1.price = l.price ∧
    (dels.foldl (fun p r => Limit.deleteOrder p.1 p.2 r) (l, h)).1.totalVolume
      = l.totalVolume - sumSizes h dels ∧
    (∀ x, ((dels.foldl (fun p r => Limit.deleteOrder p.1 p.2 r) (l, h)).2 x).size
      = (h x).size) ∧
    (∀ x, ((dels.foldl (fun p r => Limit.deleteOrder p.1 p.2 r) (l, h)).2 x).bid = (h x).bid ∧
      ((dels.foldl (fun p r => Limit.deleteOrder p.1 p.2 r) (l, h)).2 x).timestamp = (h x).timestamp ∧
      ((dels.foldl (fun p r => Limit.deleteOrder p.1 p.2 r) (l, h)).2 x).id = (h x).id ∧
      ((dels.foldl (fun p r => Limit.deleteOrder p.1 p.2 r) (l, h)).2 x).userID = (h x).userID) ∧
    (∀ x, x ∉ dels →
      ((dels.foldl (fun p r => Limit.deleteOrder p.1 p.2 r) (l, h)).2 x).limitPrice
        = (h x).limitPrice) ∧
    (∀ x ∈ dels,
      ((dels.foldl (fun p r => Limit.deleteOrder p.1 p.2 r) (l, h)).2 x).limitPrice = none) := by
  induction dels generalizing l h with
  | nil =>
      refine ⟨by simp, rfl, by simp [sumSizes], fun x => rfl, fun x => ⟨rfl, rfl, rfl, rfl⟩,
        fun x _ => rfl, fun x hx => absurd hx (List.not_mem_nil x)⟩
  | cons d ds ih =>
      have hdmem : d ∈ l.orders := hsub d (by simp)
      have hds : ds.Nodup := (List.nodup_cons.mp hdnd).2
      have hdns : d ∉ ds := (List.nodup_cons.mp hdnd).1
      set l1 := (l.deleteOrder h d).1 with hl1
      set h1 := (l.deleteOrder h d).2 with hh1
      have hfold : (d :: ds).foldl (fun p r => Limit.deleteOrder p.1 p.2 r) (l, h)
          = ds.foldl (fun p r => Limit.deleteOrder p.1 p.2 r) (l1, h1) := rfl
      have hnd1 : l1.orders.Nodup :=
        ((deleteOrder_orders_perm l h d hnd).nodup_iff).mpr (hnd.erase d)
      have hsub1 : ∀ x ∈ ds, x ∈ l1.orders := by
        intro x hx
        have hxl : x ∈ l.orders := hsub x (by simp [hx])
        have hxd : x ≠ d := fun he => hdns (he ▸ hx)
        exact (deleteOrder_orders_perm l h d hnd).mem_iff.mpr
          (List.mem_erase_of_ne hxd |>.mpr hxl)
      obtain ⟨ihperm, ihprice, ihvol, ihsize, ihfields, ihlpKeep, ihlpDel⟩ :=
        ih l1 h1 hnd1 hds hsub1
      rw [hfold]
      refine ⟨?_, ?_, ?_, ?_, ?_, ?_, ?_⟩
      · refine ihperm.trans ?_
        rw [List.diff_cons]
        exact ((deleteOrder_orders_perm l h d hnd).diff_right ds)
      · rw [ihprice, hl1, deleteOrder_price]
      · rw [ihvol, hl1, hh1, deleteOrder_totalVolume, sumSizes_cons]
        have hcongr : sumSizes (l.deleteOrder h d).2 ds = sumSizes h ds :=
          sumSizes_congr (fun r _ => deleteOrder_heap_size l h d r)
        rw [hcongr]; ring
      · intro x; rw [ihsize x, hh1, deleteOrder_heap_size]
      · intro x
        obtain ⟨hb, ht, hi, hu⟩ := ihfields x
        obtain ⟨hb2, ht2, hi2, hu2⟩ := deleteOrder_heap_fields l h d x
        exact ⟨hb.trans hb2, ht.trans ht2, hi.trans hi2, hu.trans hu2⟩
      · intro x hx
        have hxd : x ≠ d := fun he => hx (by simp [he])
        have hxds : x ∉ ds := fun he => hx (by simp [he])
        rw [ihlpKeep x hxds, hh1, deleteOrder_heap, hupd_other _ _ _ _ hxd]
      · intro x hx
        rcases List.mem_cons.mp hx with he | hxs
        · subst he
          by_cases hxds : x ∈ ds
          · exact ihlpDel x hxds
          · rw [ihlpKeep x hxds, hh1]
            exact deleteOrder_heap_limitPrice_self l h x
        · exact ihlpDel x hxs

/-! ### Specification of `fillOrder` -/

theorem fillOrderAt_sizeFilled (price : ℚ) (h : Heap) (ra rb : Ref)
    (hne : ra ≠ rb) :
    ((fillOrderAt price h ra rb).2).sizeFilled = min (h ra).size (h rb).size := by
  unfold fillOrderAt
  by_cases hc : (h rb).size ≤ (h ra).size
  · simp only [if_pos hc]
    rw [hupd_other _ _ _ rb (Ne.symm hne)]
    exact (min_eq_right hc).symm
  · simp only [if_neg hc]
    rw [hupd_other _ _ _ ra hne]
    exact (min_eq_left (le_of_not_le hc)).symm

theorem fillOrderAt_price (price : ℚ) (h : Heap) (ra rb : Ref) :
    ((fillOrderAt price h ra rb).2).price = price := by
  unfold fillOrderAt
  by_cases hc : (h rb).size ≤ (h ra).size
  · simp only [if_pos hc]
  · simp only [if_neg hc]

theorem fillOrderAt_size_ra (price : ℚ) (h : Heap) (ra rb : Ref) (hne : ra ≠ rb) :
    (((fillOrderAt price h ra rb).1) ra).size
      = (h ra).size - min (h ra).size (h rb).size := by
  unfold fillOrderAt
  by_cases hc : (h rb).size ≤ (h ra).size
  · simp only [if_pos hc]
    rw [hupd_other _ _ _ ra hne, hupd_same, min_eq_right hc]
  · simp only [if_neg hc]
    rw [hupd_same]
    simp [min_eq_left (le_of_not_le hc)]

theorem fillOrderAt_size_rb (price : ℚ) (h : Heap) (ra rb : Ref) (hne : ra ≠ rb) :
    (((fillOrderAt price h ra rb).1) rb).size
      = (h rb).size - min (h ra).size (h rb).size := by
  unfold fillOrderAt
  by_cases hc : (h rb).size ≤ (h ra).size
  · simp only [if_pos hc]
    rw [hupd_same]
    simp [min_eq_right hc]
  · simp only [if_neg hc]
    rw [hupd_other _ _ _ rb (Ne.symm hne), hupd_same, min_eq_left (le_of_not_le hc)]

theorem fillOrderAt_heap_other (price : ℚ) (h : Heap) (ra rb x : Ref)
    (hxa : x ≠ ra) (hxb : x ≠ rb) : ((fillOrderAt price h ra rb).1) x = h x := by
  unfold fillOrderAt
  by_cases hc : (h rb).size ≤ (h ra).size
  · simp only [if_pos hc]
    rw [hupd_other _ _ _ x hxb, hupd_other _ _ _ x hxa]
  · simp only [if_neg hc]
    rw [hupd_other _ _ _ x hxa, hupd_other _ _ _ x hxb]

theorem fillOrderAt_fields (price : ℚ) (h : Heap) (ra rb x : Ref) :
    (((fillOrderAt price h ra rb).1) x).bid = (h x).bid ∧
    (((fillOrderAt price h ra rb).1) x).limitPrice = (h x).limitPrice ∧
    (((fillOrderAt price h ra rb).1) x).timestamp = (h x).timestamp ∧
    (((fillOrderAt price h ra rb).1) x).id = (h x).id ∧
    (((fillOrderAt price h ra rb).1) x).userID = (h x).userID := by
  unfold fillOrderAt
  by_cases hc : (h rb).size ≤ (h ra).size
  · simp only [if_pos hc]
    simp only [hupd]
    by_cases hxb : x = rb
    · subst hxb
      simp only [if_pos rfl]
      by_cases hxa : x = ra <;> simp [hxa]
    · simp only [if_neg hxb]
      by_cases hxa : x = ra <;> simp [hxa]
  · simp only [if_neg hc]
    simp only [hupd]
    by_cases hxa : x = ra
    · subst hxa
      simp only [if_pos rfl]
      by_cases hxb : x = rb <;> simp [hxb]
    · simp only [if_neg hxa]
      by_cases hxb : x = rb <;> simp [hxb]

theorem fillOrderAt_refs (price : ℚ) (h : Heap) (ra rb : Ref) :
    (if (h ra).bid then ((fillOrderAt price h ra rb).2).bid = ra ∧
        ((fillOrderAt price h ra rb).2).ask = rb
      else ((fillOrderAt price h ra rb).2).bid = rb ∧
        ((fillOrderAt price h ra rb).2).ask = ra) := by
  unfold fillOrderAt
  by_cases hb : (h ra).bid <;>
    by_cases hc : (h rb).size ≤ (h ra).size <;>
      simp [hb, hc]

theorem fillOrderAt_matchResident (price : ℚ) (h : Heap) (ra rb : Ref)
    (hne : ra ≠ rb) : matchResident rb ((fillOrderAt price h ra rb).2) = ra := by
  have hrefs := fillOrderAt_refs price h ra rb
  unfold matchResident
  by_cases hb : (h ra).bid
  · rw [if_pos hb] at hrefs
    rw [hrefs.2, if_pos rfl, hrefs.1]
  · rw [if_neg hb] at hrefs
    rw [hrefs.2, if_neg hne]

/-- One of the two orders is completely consumed; if the incoming order is not,
the resident one is. -/
theorem fillOrderAt_zero (price : ℚ) (h : Heap) (ra rb : Ref) (hne : ra ≠ rb) :
    (((fillOrderAt price h ra rb).1) ra).size = 0 ∨
    (((fillOrderAt price h ra rb).1) rb).size = 0 := by
  unfold fillOrderAt
  by_cases hc : (h rb).size ≤ (h ra).size
  · right
    simp only [if_pos hc]
    rw [hupd_same]
  · left
    simp only [if_neg hc]
    rw [hupd_other _ _ _ ra hne, hupd_same]

/-! ### Specification of the scan loop of `Limit.Fill` -/

theorem fillScan_heap_other (price : ℚ) (inc : Ref) (rs : List Ref) (h : Heap) (tv : ℚ)
    (x : Ref) (hxi : x ≠ inc) (hxr : x ∉ rs) :
    ((fillScan price inc rs h tv).1) x = h x := by
  induction rs generalizing h tv with
  | nil => rfl
  | cons r t ih =>
      by_cases hf : (h inc).isFilled = true
      · simp [fillScan, hf]
      · simp only [fillScan, if_neg hf]
        have hxt : x ∉ t := fun hm => hxr (by simp [hm])
        have hxrr : x ≠ r := fun he => hxr (by simp [he])
        rw [ih _ _ hxt]
        exact fillOrderAt_heap_other price h r inc x hxrr hxi

theorem fillScan_fields (price : ℚ) (inc : Ref) (rs : List Ref) (h : Heap) (tv : ℚ)
    (x : Ref) :
    (((fillScan price inc rs h tv).1) x).bid = (h x).bid ∧
    (((fillScan price inc rs h tv).1) x).limitPrice = (h x).limitPrice ∧
    (((fillScan price inc rs h tv).1) x).timestamp = (h x).timestamp ∧
    (((fillScan price inc rs h tv).1) x).id = (h x).id ∧
    (((fillScan price inc rs h tv).1) x).userID = (h x).userID := by
  induction rs generalizing h tv with
  | nil => exact ⟨rfl, rfl, rfl, rfl, rfl⟩
  | cons r t ih =>
      by_cases hf : (h inc).isFilled = true
      · simp [fillScan, hf]
      · simp only [fillScan, if_neg hf]
        obtain ⟨i1, i2, i3, i4, i5⟩ := ih (fillOrderAt price h r inc).1
          (tv - ((fillOrderAt price h r inc).2).sizeFilled)
        obtain ⟨f1, f2, f3, f4, f5⟩ := fillOrderAt_fields price h r inc x
        exact ⟨i1.trans f1, i2.trans f2, i3.trans f3, i4.trans f4, i5.trans f5⟩

theorem fillScan_prices (price : ℚ) (inc : Ref) (rs : List Ref) (h : Heap) (tv : ℚ) :
    ∀ m ∈ (fillScan price inc rs h tv).2.2.1, m.price = price := by
  induction rs generalizing h tv with
  | nil => intro m hm; cases hm
  | cons r t ih =>
      by_cases hf : (h inc).isFilled = true
      · simp [fillScan, hf]
      · simp only [fillScan, if_neg hf]
        intro m hm
        rcases List.mem_cons.mp hm with he | hm2
        · subst he; exact fillOrderAt_price price h r inc
        · exact ih _ _ m hm2

theorem fillScan_dels (price : ℚ) (inc : Ref) (rs : List Ref) (h : Heap) (tv : ℚ)
    (hinc : inc ∉ rs) (hnd : rs.Nodup) :
    (∀ x ∈ (fillScan price inc rs h tv).2.2.2, x ∈ rs) ∧
    ((fillScan price inc rs h tv).2.2.2).Nodup ∧
    (∀ x ∈ (fillScan price inc rs h tv).2.2.2,
      (((fillScan price inc rs h tv).1) x).size = 0) := by
  induction rs generalizing h tv with
  | nil => exact ⟨fun x hx => absurd hx (List.not_mem_nil x), List.nodup_nil,
      fun x hx => absurd hx (List.not_mem_nil x)⟩
  | cons r t ih =>
      by_cases hf : (h inc).isFilled = true
      · simp [fillScan, hf]
      · simp only [fillScan, if_neg hf]
        have hinct : inc ∉ t := fun hm => hinc (by simp [hm])
        have hincr : inc ≠ r := fun he => hinc (by simp [he])
        have hndt : t.Nodup := (List.nodup_cons.mp hnd).2
        have hrt : r ∉ t := (List.nodup_cons.mp hnd).1
        obtain ⟨isub, ind, isz⟩ := ih (fillOrderAt price h r inc).1
          (tv - ((fillOrderAt price h r inc).2).sizeFilled) hinct hndt
        refine ⟨?_, ?_, ?_⟩
        · intro x hx
          rcases List.mem_append.mp hx with hx1 | hx2
          · have hxr : x = r := by
              by_cases hd : ((((fillOrderAt price h r inc).1) r).isFilled = true)
              · simp [hd] at hx1; exact hx1
              · simp [hd] at hx1
            exact hxr ▸ List.mem_cons_self _ _
          · exact List.mem_cons_of_mem _ (isub x hx2)
        · by_cases hd : ((((fillOrderAt price h r inc).1) r).isFilled = true)
          · simp only [if_pos hd, List.singleton_append]
            exact List.nodup_cons.mpr ⟨fun hm => hrt (isub r hm), ind⟩
          · simp only [if_neg hd, List.nil_append]
            exact ind
        · intro x hx
          rcases List.mem_append.mp hx with hx1 | hx2
          · have hxr : x = r := by
              by_cases hd : ((((fillOrderAt price h r inc).1) r).isFilled = true) <;>
                simp [hd] at hx1
              · exact hx1
            subst hxr
            have hfill : (((fillOrderAt price h x inc).1) x).isFilled = true := by
              by_cases hd : ((((fillOrderAt price h x inc).1) x).isFilled = true)
              · exact hd
              · simp [hd] at hx1
            have hframe : ((fillScan price inc t (fillOrderAt price h x inc).1
                (tv - ((fillOrderAt price h x inc).2).sizeFilled)).1) x
                = ((fillOrderAt price h x inc).1) x :=
              fillScan_heap_other _ _ _ _ _ x hincr.symm hrt
            rw [hframe]
            simpa [Order.isFilled] using hfill
          · exact isz x hx2

theorem fillScan_filled (price : ℚ) (inc : Ref) (rs : List Ref) (h : Heap) (tv : ℚ)
    (hf : (h inc).isFilled = true) : fillScan price inc rs h tv = (h, tv, [], []) := by
  cases rs with
  | nil => rfl
  | cons r t => simp [fillScan, hf]

theorem fillScan_nonempty (price : ℚ) (inc r : Ref) (t : List Ref) (h : Heap) (tv : ℚ)
    (hf : ¬(h inc).isFilled = true) :
    (fillScan price inc (r :: t) h tv).2.2.1 ≠ [] := by
  simp [fillScan, hf]

theorem sumSizes_nonneg (h : Heap) (rs : List Ref)
    (hnn : ∀ x ∈ rs, 0 ≤ (h x).size) : 0 ≤ sumSizes h rs := by
  unfold sumSizes
  refine List.sum_nonneg ?_
  intro q hq
  obtain ⟨x, hx, rfl⟩ := List.mem_map.mp hq
  exact hnn x hx

theorem fillScan_tv (price : ℚ) (inc : Ref) (rs : List Ref) (h : Heap) (tv : ℚ)
    (hinc : inc ∉ rs) (hnd : rs.Nodup) :
    (fillScan price inc rs h tv).2.1
      = tv - (sumSizes h rs - sumSizes ((fillScan price inc rs h tv).1) rs) := by
  induction rs generalizing h tv with
  | nil => simp [fillScan, sumSizes]
  | cons r t ih =>
      by_cases hf : (h inc).isFilled = true
      · rw [fillScan_filled _ _ _ _ _ hf]; ring
      · simp only [fillScan, if_neg hf]
        have hinct : inc ∉ t := fun hm => hinc (by simp [hm])
        have hincr : inc ≠ r := fun he => hinc (by simp [he])
        have hndt : t.Nodup := (List.nodup_cons.mp hnd).2
        have hrt : r ∉ t := (List.nodup_cons.mp hnd).1
        rw [ih _ _ hinct hndt, sumSizes_cons, sumSizes_cons]
        have hS : sumSizes ((fillOrderAt price h r inc).1) t = sumSizes h t := by
          refine sumSizes_congr ?_
          intro x hx
          have hxr : x ≠ r := fun he => hrt (he ▸ hx)
          have hxi : x ≠ inc := fun he => hinct (he ▸ hx)
          rw [fillOrderAt_heap_other price h r inc x hxr hxi]
        have hframe : ((fillScan price inc t ((fillOrderAt price h r inc).1)
            (tv - ((fillOrderAt price h r inc).2).sizeFilled)).1) r
            = ((fillOrderAt price h r inc).1) r :=
          fillScan_heap_other _ _ _ _ _ r hincr.symm hrt
        rw [hframe, hS,
          fillOrderAt_size_ra price h r inc (fun he => hincr he.symm),
          fillOrderAt_sizeFilled price h r inc (fun he => hincr he.symm)]
        ring

theorem fillScan_priority (price : ℚ) (inc : Ref) (rs : List Ref) (h : Heap) (tv : ℚ)
    (hinc : inc ∉ rs) (hnd : rs.Nodup) :
    ((fillScan price inc rs h tv).2.2.1).map (matchResident inc)
      = rs.take ((fillScan price inc rs h tv).2.2.1).length ∧
    (∀ x ∈ rs.take (((fillScan price inc rs h tv).2.2.1).length - 1),
      (((fillScan price inc rs h tv).1) x).size = 0) := by
  induction rs generalizing h tv with
  | nil => simp [fillScan]
  | cons r t ih =>
      by_cases hf : (h inc).isFilled = true
      · rw [fillScan_filled _ _ _ _ _ hf]
        simp
      · simp only [fillScan, if_neg hf]
        have hinct : inc ∉ t := fun hm => hinc (by simp [hm])
        have hincr : inc ≠ r := fun he => hinc (by simp [he])
        have hner : r ≠ inc := fun he => hincr he.symm
        have hndt : t.Nodup := (List.nodup_cons.mp hnd).2
        have hrt : r ∉ t := (List.nodup_cons.mp hnd).1
        obtain ⟨ih1, ih2⟩ := ih ((fillOrderAt price h r inc).1)
          (tv - ((fillOrderAt price h r inc).2).sizeFilled) hinct hndt
        constructor
        · simp only [List.map_cons, List.length_cons]
          rw [fillOrderAt_matchResident price h r inc hner, ih1, List.take_succ_cons]
        · intro x hx
          simp only [List.length_cons, Nat.add_sub_cancel] at hx
          cases hms : (fillScan price inc t ((fillOrderAt price h r inc).1)
              (tv - ((fillOrderAt price h r inc).2).sizeFilled)).2.2.1 with
          | nil =>
              rw [hms] at hx
              simp at hx
          | cons m ms2 =>
              rw [hms] at hx
              simp only [List.length_cons, List.take_succ_cons] at hx
              have hnotfilled : ¬(((fillOrderAt price h r inc).1) inc).isFilled = true := by
                intro hfil
                have := fillScan_filled price inc t ((fillOrderAt price h r inc).1)
                  (tv - ((fillOrderAt price h r inc).2).sizeFilled) hfil
                rw [this] at hms
                cases hms
              rcases List.mem_cons.mp hx with he | hx2
              · subst he
                have hzero : (((fillOrderAt price h x inc).1) x).size = 0 := by
                  rcases fillOrderAt_zero price h x inc (fun he2 => hincr he2.symm) with hz | hz
                  · exact hz
                  · exact absurd (by simp [Order.isFilled, hz]) hnotfilled
                have hframe : ((fillScan price inc t ((fillOrderAt price h x inc).1)
                    (tv - ((fillOrderAt price h x inc).2).sizeFilled)).1) x
                    = ((fillOrderAt price h x inc).1) x :=
                  fillScan_heap_other _ _ _ _ _ x hincr.symm hrt
                rw [hframe, hzero]
              · have := ih2 x (by rw [hms]; simpa using hx2)
                exact this

theorem fillScan_consume (price : ℚ) (inc : Ref) (rs : List Ref) (h : Heap) (tv : ℚ)
    (hinc : inc ∉ rs) (hnd : rs.Nodup)
    (hnn : ∀ x ∈ rs, 0 ≤ (h x).size) (hinn : 0 ≤ (h inc).size) :
    (((fillScan price inc rs h tv).1) inc).size
      = max ((h inc).size - sumSizes h rs) 0 := by
  induction rs generalizing h tv with
  | nil =>
      simp only [fillScan, sumSizes, List.map_nil, List.sum_nil, sub_zero]
      exact (max_eq_left hinn).symm
  | cons r t ih =>
      by_cases hf : (h inc).isFilled = true
      · rw [fillScan_filled _ _ _ _ _ hf]
        have hz : (h inc).size = 0 := by simpa [Order.isFilled] using hf
        have hS : 0 ≤ sumSizes h (r :: t) := sumSizes_nonneg h _ hnn
        rw [hz]
        rw [max_eq_right (by linarith)]
      · simp only [fillScan, if_neg hf]
        have hinct : inc ∉ t := fun hm => hinc (by simp [hm])
        have hincr : inc ≠ r := fun he => hinc (by simp [he])
        have hner : r ≠ inc := fun he => hincr he.symm
        have hndt : t.Nodup := (List.nodup_cons.mp hnd).2
        have hrt : r ∉ t := (List.nodup_cons.mp hnd).1
        have hnewinc : (((fillOrderAt price h r inc).1) inc).size
            = (h inc).size - min (h r).size (h inc).size :=
          fillOrderAt_size_rb price h r inc hner
        have hnnt : ∀ x ∈ t, 0 ≤ (((fillOrderAt price h r inc).1) x).size := by
          intro x hx
          have hxr : x ≠ r := fun he => hrt (he ▸ hx)
          have hxi : x ≠ inc := fun he => hinct (he ▸ hx)
          rw [fillOrderAt_heap_other price h r inc x hxr hxi]
          exact hnn x (by simp [hx])
        have hinn2 : 0 ≤ (((fillOrderAt price h r inc).1) inc).size := by
          rw [hnewinc]
          have := min_le_right (h r).size (h inc).size
          linarith
        rw [ih _ _ hinct hndt hnnt hinn2, hnewinc]
        have hS : sumSizes ((fillOrderAt price h r inc).1) t = sumSizes h t := by
          refine sumSizes_congr ?_
          intro x hx
          have hxr : x ≠ r := fun he => hrt (he ▸ hx)
          have hxi : x ≠ inc := fun he => hinct (he ▸ hx)
          rw [fillOrderAt_heap_other price h r inc x hxr hxi]
        rw [hS, sumSizes_cons]
        have hSt : 0 ≤ sumSizes h t :=
          sumSizes_nonneg h t (fun x hx => hnn x (by simp [hx]))
        have hra : 0 ≤ (h r).size := hnn r (by simp)
        rcases le_total (h r).size (h inc).size with hc | hc
        · rw [min_eq_left hc]
          congr 1
          ring
        · rw [min_eq_right hc]
          have h1 : max ((h inc).size - (h inc).size - sumSizes h t) 0 = 0 :=
            max_eq_right (by linarith)
          have h2 : max ((h inc).size - ((h r).size + sumSizes h t)) 0 = 0 :=
            max_eq_right (by linarith)
          rw [h1, h2]

theorem foldDelete_heap_other (dels : List Ref) (l : Limit) (h : Heap) (x : Ref)
    (hx : x ∉ dels) :
    ((dels.foldl (fun p r => Limit.deleteOrder p.1 p.2 r) (l, h)).2) x = h x := by
  induction dels generalizing l h with
  | nil => rfl
  | cons d ds ih =>
      have hxd : x ≠ d := fun he => hx (by simp [he])
      have hxds : x ∉ ds := fun hm => hx (by simp [hm])
      have hfold : (d :: ds).foldl (fun p r => Limit.deleteOrder p.1 p.2 r) (l, h)
          = ds.foldl (fun p r => Limit.deleteOrder p.1 p.2 r)
            ((l.deleteOrder h d).1, (l.deleteOrder h d).2) := rfl
      rw [hfold, ih _ _ hxds, deleteOrder_heap_other _ _ _ _ hxd]

theorem sumSizes_zero (h : Heap) (rs : List Ref)
    (hz : ∀ x ∈ rs, (h x).size = 0) : sumSizes h rs = 0 := by
  induction rs with
  | nil => rfl
  | cons a t ih =>
      rw [sumSizes_cons, hz a (by simp), ih (fun x hx => hz x (by simp [hx]))]
      ring

theorem sumSizes_diff (h : Heap) (rs dels : List Ref) (hdnd : dels.Nodup)
    (hsub : ∀ x ∈ dels, x ∈ rs) :
    sumSizes h (rs.diff dels) = sumSizes h rs - sumSizes h dels := by
  induction dels generalizing rs with
  | nil => simp [sumSizes]
  | cons d ds ih =>
      rw [List.diff_cons, sumSizes_cons]
      have hd : d ∈ rs := hsub d (by simp)
      have hds : ds.Nodup := (List.nodup_cons.mp hdnd).2
      have hdnds : d ∉ ds := (List.nodup_cons.mp hdnd).1
      have hsub2 : ∀ x ∈ ds, x ∈ rs.erase d := by
        intro x hx
        have hxd : x ≠ d := fun he => hdnds (he ▸ hx)
        exact (List.mem_erase_of_ne hxd).mpr (hsub x (by simp [hx]))
      rw [ih (rs.erase d) hds hsub2, sumSizes_erase h hd]
      ring

theorem mem_diff_iff_of_nodup {rs dels : List Ref} (hnd : rs.Nodup) (x : Ref) :
    x ∈ rs.diff dels ↔ x ∈ rs ∧ x ∉ dels := by
  induction dels generalizing rs with
  | nil => simp
  | cons d ds ih =>
      rw [List.diff_cons, ih (hnd.erase d), hnd.mem_erase_iff]
      constructor
      · rintro ⟨⟨hxd, hxr⟩, hxds⟩
        exact ⟨hxr, by simp [hxd, hxds]⟩
      · rintro ⟨hxr, hxm⟩
        have hxd : x ≠ d := fun he => hxm (by simp [he])
        have hxds : x ∉ ds := fun hm => hxm (by simp [hm])
        exact ⟨⟨hxd, hxr⟩, hxds⟩

/-- Full specification of `Limit.Fill` needed by the book-level proofs. -/
theorem fill_spec (l : Limit) (h : Heap) (inc : Ref)
    (hinc : inc ∉ l.orders) (hnd : l.orders.Nodup)
    (htv : l.totalVolume = levelSum h l) :
    (l.fill h inc).1.price = l.price ∧
    (l.fill h inc).1.orders.Nodup ∧
    (∀ x ∈ (l.fill h inc).1.orders, x ∈ l.orders) ∧
    (l.fill h inc).1.totalVolume = levelSum (l.fill h inc).2.1 (l.fill h inc).1 ∧
    (∀ x, x ≠ inc → x ∉ l.orders → (l.fill h inc).2.1 x = h x) ∧
    (∀ x, ((l.fill h inc).2.1 x).bid = (h x).bid ∧
      ((l.fill h inc).2.1 x).timestamp = (h x).timestamp ∧
      ((l.fill h inc).2.1 x).id = (h x).id ∧
      ((l.fill h inc).2.1 x).userID = (h x).userID) ∧
    (∀ x ∈ (l.fill h inc).1.orders, ((l.fill h inc).2.1 x).limitPrice = (h x).limitPrice) ∧
    (∀ x ∈ l.orders, x ∉ (l.fill h inc).1.orders →
      ((l.fill h inc).2.1 x).limitPrice = none ∧ ((l.fill h inc).2.1 x).size = 0) ∧
    ((l.fill h inc).2.1 inc).limitPrice = (h inc).limitPrice ∧
    (∀ m ∈ (l.fill h inc).2.2, m.price = l.price) := by
  obtain ⟨hdsub, hdnd, hdz⟩ :=
    fillScan_dels l.price inc l.orders h l.totalVolume hinc hnd
  have hperm0 :
      ((fillScan l.price inc l.orders h l.totalVolume).2.2.2.foldl
        (fun p r => Limit.deleteOrder p.1 p.2 r)
        ({ l with totalVolume := (fillScan l.price inc l.orders h l.totalVolume).2.1 },
          (fillScan l.price inc l.orders h l.totalVolume).1)).1.orders.Perm
        (l.orders.diff (fillScan l.price inc l.orders h l.totalVolume).2.2.2) :=
    (foldDelete_spec (fillScan l.price inc l.orders h l.totalVolume).2.2.2
      { l with totalVolume := (fillScan l.price inc l.orders h l.totalVolume).2.1 }
      (fillScan l.price inc l.orders h l.totalVolume).1 hnd hdnd hdsub).1
  obtain ⟨_, hfprice, hfvol, hfsize, hffields, hflpKeep, hflpDel⟩ :=
    foldDelete_spec (fillScan l.price inc l.orders h l.totalVolume).2.2.2
      { l with totalVolume := (fillScan l.price inc l.orders h l.totalVolume).2.1 }
      (fillScan l.price inc l.orders h l.totalVolume).1 hnd hdnd hdsub
  have hfill1 : (l.fill h inc).1 =
      ((fillScan l.price inc l.orders h l.totalVolume).2.2.2.foldl
        (fun p r => Limit.deleteOrder p.1 p.2 r)
        ({ l with totalVolume := (fillScan l.price inc l.orders h l.totalVolume).2.1 },
          (fillScan l.price inc l.orders h l.totalVolume).1)).1 := rfl
  have hfill2 : (l.fill h inc).2.1 =
      ((fillScan l.price inc l.orders h l.totalVolume).2.2.2.foldl
        (fun p r => Limit.deleteOrder p.1 p.2 r)
        ({ l with totalVolume := (fillScan l.price inc l.orders h l.totalVolume).2.1 },
          (fillScan l.price inc l.orders h l.totalVolume).1)).2 := rfl
  have hfill3 : (l.fill h inc).2.2
      = (fillScan l.price inc l.orders h l.totalVolume).2.2.1 := rfl
  have hincdels : inc ∉ (fillScan l.price inc l.orders h l.totalVolume).2.2.2 :=
    fun hm => hinc (hdsub inc hm)
  refine ⟨?_, ?_, ?_, ?_, ?_, ?_, ?_, ?_, ?_, ?_⟩
  · rw [hfill1, hfprice]
  · rw [hfill1]
    exact hperm0.nodup_iff.mpr
      ((List.diff_sublist l.orders
        (fillScan l.price inc l.orders h l.totalVolume).2.2.2).nodup hnd)
  · intro x hx
    rw [hfill1] at hx
    have := hperm0.mem_iff.mp hx
    exact ((mem_diff_iff_of_nodup hnd x).mp this).1
  · rw [hfill1, hfill2, hfvol]
    have htv1 := fillScan_tv l.price inc l.orders h l.totalVolume hinc hnd
    have hdz0 : sumSizes (fillScan l.price inc l.orders h l.totalVolume).1
        (fillScan l.price inc l.orders h l.totalVolume).2.2.2 = 0 :=
      sumSizes_zero _ _ hdz
    have hdz0' : sumSizes (fillScan l.price inc l.orders h l.totalVolume).1
        (fillScan l.price inc l.orders h l.totalVolume).2.2.2
        = sumSizes h (fillScan l.price inc l.orders h l.totalVolume).2.2.2 → True :=
      fun _ => trivial
    clear hdz0'
    have hsum : levelSum
        ((fillScan l.price inc l.orders h l.totalVolume).2.2.2.foldl
          (fun p r => Limit.deleteOrder p.1 p.2 r)
          ({ l with totalVolume := (fillScan l.price inc l.orders h l.totalVolume).2.1 },
            (fillScan l.price inc l.orders h l.totalVolume).1)).2
        ((fillScan l.price inc l.orders h l.totalVolume).2.2.2.foldl
          (fun p r => Limit.deleteOrder p.1 p.2 r)
          ({ l with totalVolume := (fillScan l.price inc l.orders h l.totalVolume).2.1 },
            (fillScan l.price inc l.orders h l.totalVolume).1)).1
        = sumSizes (fillScan l.price inc l.orders h l.totalVolume).1
          (l.orders.diff (fillScan l.price inc l.orders h l.totalVolume).2.2.2) := by
      rw [levelSum_eq_sumSizes]
      rw [sumSizes_congr (fun r _ => hfsize r)]
      exact sumSizes_perm _ hperm0
    rw [hsum, sumSizes_diff _ _ _ hdnd hdsub, hdz0, htv1, htv, levelSum_eq_sumSizes]
    ring
  · intro x hxi hxo
    rw [hfill2, foldDelete_heap_other _ _ _ x (fun hm => hxo (hdsub x hm)),
      fillScan_heap_other _ _ _ _ _ x hxi hxo]
  · intro x
    rw [hfill2]
    obtain ⟨d1, d2, d3, d4⟩ := hffields x
    obtain ⟨s1, _, s3, s4, s5⟩ := fillScan_fields l.price inc l.orders h l.totalVolume x
    exact ⟨d1.trans s1, d2.trans s3, d3.trans s4, d4.trans s5⟩
  · intro x hx
    rw [hfill1] at hx
    have hxdiff := hperm0.mem_iff.mp hx
    have hxnd : x ∉ (fillScan l.price inc l.orders h l.totalVolume).2.2.2 :=
      ((mem_diff_iff_of_nodup hnd x).mp hxdiff).2
    rw [hfill2, hflpKeep x hxnd]
    exact (fillScan_fields l.price inc l.orders h l.totalVolume x).2.1
  · intro x hxo hxf
    rw [hfill1] at hxf
    have hxdels : x ∈ (fillScan l.price inc l.orders h l.totalVolume).2.2.2 := by
      by_contra hxn
      exact hxf (hperm0.mem_iff.mpr ((mem_diff_iff_of_nodup hnd x).mpr ⟨hxo, hxn⟩))
    constructor
    · rw [hfill2]
      exact hflpDel x hxdels
    · rw [hfill2, hfsize x]
      exact hdz x hxdels
  · rw [hfill2, hflpKeep inc hincdels]
    exact (fillScan_fields l.price inc l.orders h l.totalVolume inc).2.1
  · rw [hfill3]
    exact fillScan_prices l.price inc l.orders h l.totalVolume

theorem fill_priority (l : Limit) (h : Heap) (inc : Ref)
    (hinc : inc ∉ l.orders) (hnd : l.orders.Nodup) :
    ((l.fill h inc).2.2).map (matchResident inc)
      = l.orders.take ((l.fill h inc).2.2).length ∧
    (∀ x ∈ l.orders.take (((l.fill h inc).2.2).length - 1),
      (((l.fill h inc).2.1) x).size = 0) := by
  obtain ⟨hdsub, hdnd, hdz⟩ :=
    fillScan_dels l.price inc l.orders h l.totalVolume hinc hnd
  obtain ⟨_, _, _, hfsize, _, _, _⟩ :=
    foldDelete_spec (fillScan l.price inc l.orders h l.totalVolume).2.2.2
      { l with totalVolume := (fillScan l.price inc l.orders h l.totalVolume).2.1 }
      (fillScan l.price inc l.orders h l.totalVolume).1 hnd hdnd hdsub
  obtain ⟨hp1, hp2⟩ :=
    fillScan_priority l.price inc l.orders h l.totalVolume hinc hnd
  exact ⟨hp1, fun x hx => (hfsize x).trans (hp2 x hx)⟩

theorem fill_consume (l : Limit) (h : Heap) (inc : Ref)
    (hinc : inc ∉ l.orders) (hnd : l.orders.Nodup)
    (hnn : ∀ x ∈ l.orders, 0 ≤ (h x).size) (hinn : 0 ≤ (h inc).size) :
    (((l.fill h inc).2.1) inc).size
      = max ((h inc).size - sumSizes h l.orders) 0 := by
  obtain ⟨hdsub, hdnd, hdz⟩ :=
    fillScan_dels l.price inc l.orders h l.totalVolume hinc hnd
  obtain ⟨_, _, _, hfsize, _, _, _⟩ :=
    foldDelete_spec (fillScan l.price inc l.orders h l.totalVolume).2.2.2
      { l with totalVolume := (fillScan l.price inc l.orders h l.totalVolume).2.1 }
      (fillScan l.price inc l.orders h l.totalVolume).1 hnd hdnd hdsub
  exact (hfsize inc).trans
    (fillScan_consume l.price inc l.orders h l.totalVolume hinc hnd hnn hinn)

theorem fill_ms_nonempty (l : Limit) (h : Heap) (inc : Ref)
    (hne : l.orders ≠ []) (hf : ¬(h inc).isFilled = true) :
    (l.fill h inc).2.2 ≠ [] := by
  have : (l.fill h inc).2.2 = (fillScan l.price inc l.orders h l.totalVolume).2.2.1 := rfl
  rw [this]
  cases hcase : l.orders with
  | nil => exact absurd hcase hne
  | cons r t => exact fillScan_nonempty l.price inc r t h l.totalVolume hf

/-! ### Specification of the market-order sweep -/

/-- Levels with pairwise disjoint resident order lists. -/
def DisjLevels (ls : List Limit) : Prop :=
  ls.Pairwise (fun l1 l2 => ∀ r, r ∈ l1.orders → r ∉ l2.orders)

theorem allOrders_cons (l : Limit) (ls : List Limit) :
    allOrders (l :: ls) = l.orders ++ allOrders ls := by
  simp [allOrders]

theorem mem_allOrders {x : Ref} {ls : List Limit} :
    x ∈ allOrders ls ↔ ∃ l ∈ ls, x ∈ l.orders := by
  simp [allOrders, List.mem_flatten]

theorem marketSweep_spec (inc : Ref) (ls : List Limit) (h : Heap)
    (hinc : ∀ l ∈ ls, inc ∉ l.orders)
    (hnd : ∀ l ∈ ls, l.orders.Nodup)
    (hdisj : DisjLevels ls)
    (htv : ∀ l ∈ ls, l.totalVolume = levelSum h l) :
    (∀ l1 ∈ (marketSweep inc ls h).2.1, l1.orders ≠ []) ∧
    (∀ l1 ∈ (marketSweep inc ls h).2.1,
      l1.totalVolume = levelSum (marketSweep inc ls h).1 l1) ∧
    (∀ l1 ∈ (marketSweep inc ls h).2.1, l1.orders.Nodup) ∧
    (∀ l1 ∈ (marketSweep inc ls h).2.1, ∃ l0 ∈ ls, l1.price = l0.price ∧
      ∀ x ∈ l1.orders, x ∈ l0.orders) ∧
    (((marketSweep inc ls h).2.1.map Limit.price).Sublist (ls.map Limit.price)) ∧
    (∀ x, x ≠ inc → x ∉ allOrders ls → (marketSweep inc ls h).1 x = h x) ∧
    (∀ x, (((marketSweep inc ls h).1) x).bid = (h x).bid ∧
      (((marketSweep inc ls h).1) x).timestamp = (h x).timestamp ∧
      (((marketSweep inc ls h).1) x).id = (h x).id ∧
      (((marketSweep inc ls h).1) x).userID = (h x).userID) ∧
    (∀ l1 ∈ (marketSweep inc ls h).2.1, ∀ x ∈ l1.orders,
      (((marketSweep inc ls h).1) x).limitPrice = (h x).limitPrice) ∧
    (∀ x ∈ allOrders ls, x ∉ allOrders (marketSweep inc ls h).2.1 →
      (((marketSweep inc ls h).1) x).limitPrice = none ∧
      (((marketSweep inc ls h).1) x).size = 0) ∧
    (((marketSweep inc ls h).1) inc).limitPrice = (h inc).limitPrice ∧
    (∀ m ∈ (marketSweep inc ls h).2.2, m.price ∈ ls.map Limit.price) := by
  induction ls generalizing h with
  | nil =>
      refine ⟨?_, ?_, ?_, ?_, ?_, ?_, ?_, ?_, ?_, ?_, ?_⟩ <;>
        simp [marketSweep, allOrders]
  | cons l ls2 ih =>
      have hincl : inc ∉ l.orders := hinc l (by simp)
      have hndl : l.orders.Nodup := hnd l (by simp)
      have htvl : l.totalVolume = levelSum h l := htv l (by simp)
      have hdisjl : ∀ l2 ∈ ls2, ∀ r, r ∈ l.orders → r ∉ l2.orders :=
        fun l2 h2 => (List.pairwise_cons.mp hdisj).1 l2 h2
      have hdisj2 : DisjLevels ls2 := (List.pairwise_cons.mp hdisj).2
      obtain ⟨f1, f2, f3, f4, f5, f6, f7, f8, f9, f10⟩ := fill_spec l h inc hincl hndl htvl
      -- the heap after filling the head level
      have hmid : ∀ l2 ∈ ls2, l2.totalVolume = levelSum (l.fill h inc).2.1 l2 := by
        intro l2 h2
        rw [htv l2 (by simp [h2]), levelSum_eq_sumSizes, levelSum_eq_sumSizes]
        refine sumSizes_congr ?_
        intro x hx
        rw [f5 x (fun he => hinc l2 (by simp [h2]) (he ▸ hx))
          (fun hm => hdisjl l2 h2 x hm hx)]
      have hinc2 : ∀ l2 ∈ ls2, inc ∉ l2.orders := fun l2 h2 => hinc l2 (by simp [h2])
      have hnd2 : ∀ l2 ∈ ls2, l2.orders.Nodup := fun l2 h2 => hnd l2 (by simp [h2])
      obtain ⟨i1, i2, i3, i4, i5, i6, i7, i8, i9, i10, i11⟩ :=
        ih (l.fill h inc).2.1 hinc2 hnd2 hdisj2 hmid
      have hsweep : marketSweep inc (l :: ls2) h =
          (if (l.fill h inc).1.orders.isEmpty then
            ((marketSweep inc ls2 (l.fill h inc).2.1).1,
              (marketSweep inc ls2 (l.fill h inc).2.1).2.1,
              (l.fill h inc).2.2 ++ (marketSweep inc ls2 (l.fill h inc).2.1).2.2)
          else
            ((marketSweep inc ls2 (l.fill h inc).2.1).1,
              (l.fill h inc).1 :: (marketSweep inc ls2 (l.fill h inc).2.1).2.1,
              (l.fill h inc).2.2 ++ (marketSweep inc ls2 (l.fill h inc).2.1).2.2)) := by
        by_cases hemp : (l.fill h inc).1.orders.isEmpty
        · simp only [marketSweep, if_pos hemp]
        · simp only [marketSweep, if_neg hemp]
      have hF1disj : ∀ x ∈ (l.fill h inc).1.orders, x ∉ allOrders ls2 := by
        intro x hx hmem
        obtain ⟨l2, h2, hx2⟩ := mem_allOrders.mp hmem
        exact hdisjl l2 h2 x (f3 x hx) hx2
      have hF1inc : ∀ x ∈ (l.fill h inc).1.orders, x ≠ inc :=
        fun x hx he => hincl (he ▸ f3 x hx)
      have hlinc : ∀ x ∈ l.orders, x ≠ inc := fun x hx he => hincl (he ▸ hx)
      have hldisj : ∀ x ∈ l.orders, x ∉ allOrders ls2 := by
        intro x hx hmem
        obtain ⟨l2, h2, hx2⟩ := mem_allOrders.mp hmem
        exact hdisjl l2 h2 x hx hx2
      have hls2l : ∀ x ∈ allOrders ls2, x ∉ l.orders := by
        intro x hmem hx
        exact hldisj x hx hmem
      have hls2inc : ∀ x ∈ allOrders ls2, x ≠ inc := by
        intro x hmem he
        obtain ⟨l2, h2, hx2⟩ := mem_allOrders.mp hmem
        exact hinc2 l2 h2 (he ▸ hx2)
      rw [hsweep]
      by_cases hemp : (l.fill h inc).1.orders.isEmpty
      · rw [if_pos hemp]
        have hF1nil : (l.fill h inc).1.orders = [] := by
          simpa using hemp
        refine ⟨i1, i2, i3, ?_, ?_, ?_, ?_, ?_, ?_, ?_, ?_⟩
        · intro l1 h1
          obtain ⟨l0, h0, hp, hsub⟩ := i4 l1 h1
          exact ⟨l0, by simp [h0], hp, hsub⟩
        · exact i5.cons l.price
        · intro x hxi hxa
          rw [allOrders_cons] at hxa
          have hxl : x ∉ l.orders := fun hm => hxa (List.mem_append.mpr (Or.inl hm))
          have hxl2 : x ∉ allOrders ls2 := fun hm => hxa (List.mem_append.mpr (Or.inr hm))
          rw [i6 x hxi hxl2, f5 x hxi hxl]
        · intro x
          obtain ⟨a1, a2, a3, a4⟩ := i7 x
          obtain ⟨b1, b2, b3, b4⟩ := f6 x
          exact ⟨a1.trans b1, a2.trans b2, a3.trans b3, a4.trans b4⟩
        · intro l1 h1 x hx
          obtain ⟨l0, h0, _, hsub⟩ := i4 l1 h1
          have hxls2 : x ∈ allOrders ls2 := mem_allOrders.mpr ⟨l0, h0, hsub x hx⟩
          rw [i8 l1 h1 x hx, f5 x (hls2inc x hxls2) (hls2l x hxls2)]
        · intro x hxa hxs
          rw [allOrders_cons] at hxa
          rcases List.mem_append.mp hxa with hxl | hxl2
          · have hxF1 : x ∉ (l.fill h inc).1.orders := by rw [hF1nil]; simp
            obtain ⟨hlp, hsz⟩ := f8 x hxl hxF1
            have hxinc : x ≠ inc := hlinc x hxl
            have hxa2 : x ∉ allOrders ls2 := hldisj x hxl
            rw [i6 x hxinc hxa2]
            exact ⟨hlp, hsz⟩
          · exact i9 x hxl2 hxs
        · exact i10.trans f9
        · intro m hm
          rcases List.mem_append.mp hm with hm1 | hm2
          · rw [f10 m hm1]
            simp
          · have := i11 m hm2
            simp only [List.map_cons, List.mem_cons]
            exact Or.inr this
      · rw [if_neg hemp]
        have hF1ne : (l.fill h inc).1.orders ≠ [] := by
          intro hnil
          exact hemp (by simp [hnil])
        refine ⟨?_, ?_, ?_, ?_, ?_, ?_, ?_, ?_, ?_, ?_, ?_⟩
        · intro l1 h1
          rcases List.mem_cons.mp h1 with he | h1'
          · subst he; exact hF1ne
          · exact i1 l1 h1'
        · intro l1 h1
          rcases List.mem_cons.mp h1 with he | h1'
          · subst he
            rw [f4, levelSum_eq_sumSizes, levelSum_eq_sumSizes]
            refine (sumSizes_congr ?_).symm
            intro x hx
            rw [i6 x (hF1inc x hx) (hF1disj x hx)]
          · exact i2 l1 h1'
        · intro l1 h1
          rcases List.mem_cons.mp h1 with he | h1'
          · subst he; exact f2
          · exact i3 l1 h1'
        · intro l1 h1
          rcases List.mem_cons.mp h1 with he | h1'
          · subst he
            exact ⟨l, by simp, f1, f3⟩
          · obtain ⟨l0, h0, hp, hsub⟩ := i4 l1 h1'
            exact ⟨l0, by simp [h0], hp, hsub⟩
        · simp only [List.map_cons]
          rw [f1]
          exact i5.cons₂ l.price
        · intro x hxi hxa
          rw [allOrders_cons] at hxa
          have hxl : x ∉ l.orders := fun hm => hxa (List.mem_append.mpr (Or.inl hm))
          have hxl2 : x ∉ allOrders ls2 := fun hm => hxa (List.mem_append.mpr (Or.inr hm))
          rw [i6 x hxi hxl2, f5 x hxi hxl]
        · intro x
          obtain ⟨a1, a2, a3, a4⟩ := i7 x
          obtain ⟨b1, b2, b3, b4⟩ := f6 x
          exact ⟨a1.trans b1, a2.trans b2, a3.trans b3, a4.trans b4⟩
        · intro l1 h1 x hx
          rcases List.mem_cons.mp h1 with he | h1'
          · subst he
            rw [i6 x (hF1inc x hx) (hF1disj x hx)]
            exact f7 x hx
          · obtain ⟨l0, h0, _, hsub⟩ := i4 l1 h1'
            have hxls2 : x ∈ allOrders ls2 := mem_allOrders.mpr ⟨l0, h0, hsub x hx⟩
            rw [i8 l1 h1' x hx, f5 x (hls2inc x hxls2) (hls2l x hxls2)]
        · intro x hxa hxs
          rw [allOrders_cons] at hxa
          rw [allOrders_cons] at hxs
          have hxF1 : x ∉ (l.fill h inc).1.orders :=
            fun hm => hxs (List.mem_append.mpr (Or.inl hm))
          have hxS : x ∉ allOrders (marketSweep inc ls2 (l.fill h inc).2.1).2.1 :=
            fun hm => hxs (List.mem_append.mpr (Or.inr hm))
          rcases List.mem_append.mp hxa with hxl | hxl2
          · obtain ⟨hlp, hsz⟩ := f8 x hxl hxF1
            rw [i6 x (hlinc x hxl) (hldisj x hxl)]
            exact ⟨hlp, hsz⟩
          · exact i9 x hxl2 hxS
        · exact i10.trans f9
        · intro m hm
          rcases List.mem_append.mp hm with hm1 | hm2
          · rw [f10 m hm1]
            simp
          · have := i11 m hm2
            simp only [List.map_cons, List.mem_cons]
            exact Or.inr this

theorem fill_prices (l : Limit) (h : Heap) (inc : Ref) :
    ∀ m ∈ (l.fill h inc).2.2, m.price = l.price :=
  fillScan_prices l.price inc l.orders h l.totalVolume

theorem marketSweep_ms (inc : Ref) (l : Limit) (ls : List Limit) (h : Heap) :
    (marketSweep inc (l :: ls) h).2.2
      = (l.fill h inc).2.2 ++ (marketSweep inc ls (l.fill h inc).2.1).2.2 := by
  by_cases hemp : (l.fill h inc).1.orders.isEmpty
  · simp only [marketSweep, if_pos hemp]
  · simp only [marketSweep, if_neg hemp]

theorem marketSweep_ms_nonempty (inc : Ref) (l : Limit) (ls : List Limit) (h : Heap)
    (hne : l.orders ≠ []) (hf : ¬(h inc).isFilled = true) :
    (marketSweep inc (l :: ls) h).2.2 ≠ [] := by
  rw [marketSweep_ms]
  intro hnil
  exact fill_ms_nonempty l h inc hne hf (List.append_eq_nil.mp hnil).1

theorem marketSweep_ms_price_mem (inc : Ref) (ls : List Limit) (h : Heap) :
    ∀ m ∈ (marketSweep inc ls h).2.2, m.price ∈ ls.map Limit.price := by
  induction ls generalizing h with
  | nil => intro m hm; simp [marketSweep] at hm
  | cons l ls2 ih =>
      intro m hm
      rw [marketSweep_ms] at hm
      rcases List.mem_append.mp hm with hmm | hmm
      · rw [fill_prices l h inc m hmm]
        simp
      · simp only [List.map_cons, List.mem_cons]
        exact Or.inr (ih _ m hmm)

theorem marketSweep_prices_chain (inc : Ref) (ls : List Limit) (h : Heap)
    (R : ℚ → ℚ → Prop) (hrefl : ∀ a, R a a)
    (hpair : (ls.map Limit.price).Pairwise R) :
    (((marketSweep inc ls h).2.2).map Matched.price).Pairwise R := by
  induction ls generalizing h with
  | nil => simp [marketSweep]
  | cons l ls2 ih =>
      rw [marketSweep_ms, List.map_append, List.pairwise_append]
      simp only [List.map_cons, List.pairwise_cons] at hpair
      refine ⟨?_, ih _ hpair.2, ?_⟩
      · refine List.pairwise_of_forall_mem_list ?_
        intro a ha b hb
        obtain ⟨m1, hm1, rfl⟩ := List.mem_map.mp ha
        obtain ⟨m2, hm2, rfl⟩ := List.mem_map.mp hb
        rw [fill_prices l h inc m1 hm1, fill_prices l h inc m2 hm2]
        exact hrefl l.price
      · intro a ha b hb
        obtain ⟨m1, hm1, rfl⟩ := List.mem_map.mp ha
        obtain ⟨m2, hm2, rfl⟩ := List.mem_map.mp hb
        rw [fill_prices l h inc m1 hm1]
        have hmem : m2.price ∈ ls2.map Limit.price :=
          marketSweep_ms_price_mem inc ls2 _ m2 hm2
        obtain ⟨l2, hl2, hpl2⟩ := List.mem_map.mp hmem
        rw [← hpl2]
        exact hpair.1 l2.price (List.mem_map.mpr ⟨l2, hl2, rfl⟩)

theorem fillScan_dels_sub (price : ℚ) (inc : Ref) (rs : List Ref) (h : Heap) (tv : ℚ) :
    ∀ x ∈ (fillScan price inc rs h tv).2.2.2, x ∈ rs := by
  induction rs generalizing h tv with
  | nil => intro x hx; cases hx
  | cons r t ih =>
      by_cases hf : (h inc).isFilled = true
      · simp [fillScan, hf]
      · simp only [fillScan, if_neg hf]
        intro x hx
        rcases List.mem_append.mp hx with hx1 | hx2
        · have hxr : x = r := by
            by_cases hd : ((((fillOrderAt price h r inc).1) r).isFilled = true)
            · simp [hd] at hx1; exact hx1
            · simp [hd] at hx1
          exact hxr ▸ List.mem_cons_self _ _
        · exact List.mem_cons_of_mem _ (ih _ _ x hx2)

/-- Unconditional heap frame for `Limit.Fill`: orders outside the level other
than the incoming one are untouched. -/
theorem fill_heap_frame (l : Limit) (h : Heap) (inc x : Ref)
    (hxi : x ≠ inc) (hxo : x ∉ l.orders) : (l.fill h inc).2.1 x = h x := by
  have hdef : (l.fill h inc).2.1 =
      ((fillScan l.price inc l.orders h l.totalVolume).2.2.2.foldl
        (fun p r => Limit.deleteOrder p.1 p.2 r)
        ({ l with totalVolume := (fillScan l.price inc l.orders h l.totalVolume).2.1 },
          (fillScan l.price inc l.orders h l.totalVolume).1)).2 := rfl
  rw [hdef,
    foldDelete_heap_other _ _ _ x
      (fun hm => hxo (fillScan_dels_sub l.price inc l.orders h l.totalVolume x hm)),
    fillScan_heap_other _ _ _ _ _ x hxi hxo]

theorem marketSweep_consume (inc : Ref) (ls : List Limit) (h : Heap)
    (hinc : ∀ l ∈ ls, inc ∉ l.orders) (hnd : ∀ l ∈ ls, l.orders.Nodup)
    (hdisj : DisjLevels ls)
    (hnn : ∀ l ∈ ls, ∀ x ∈ l.orders, 0 ≤ (h x).size) (hinn : 0 ≤ (h inc).size) :
    (((marketSweep inc ls h).1) inc).size
      = max ((h inc).size - (ls.map (fun l => sumSizes h l.orders)).sum) 0 := by
  induction ls generalizing h with
  | nil =>
      simp only [marketSweep, List.map_nil, List.sum_nil, sub_zero]
      exact (max_eq_left hinn).symm
  | cons l ls2 ih =>
      have hincl : inc ∉ l.orders := hinc l (by simp)
      have hndl : l.orders.Nodup := hnd l (by simp)
      have hdisjl : ∀ l2 ∈ ls2, ∀ r, r ∈ l.orders → r ∉ l2.orders :=
        fun l2 h2 => (List.pairwise_cons.mp hdisj).1 l2 h2
      have hdisj2 : DisjLevels ls2 := (List.pairwise_cons.mp hdisj).2
      have hfc := fill_consume l h inc hincl hndl
        (fun x hx => hnn l (by simp) x hx) hinn
      have hheapeq : ((marketSweep inc (l :: ls2) h).1)
          = ((marketSweep inc ls2 (l.fill h inc).2.1).1) := by
        by_cases hemp : (l.fill h inc).1.orders.isEmpty
        · simp only [marketSweep, if_pos hemp]
        · simp only [marketSweep, if_neg hemp]
      have hframe2 : ∀ l2 ∈ ls2, ∀ x ∈ l2.orders,
          ((l.fill h inc).2.1 x) = h x := by
        intro l2 h2 x hx
        exact fill_heap_frame l h inc x
          (fun he => hinc l2 (by simp [h2]) (he ▸ hx))
          (fun hm => hdisjl l2 h2 x hm hx)
      have hinc2 : ∀ l2 ∈ ls2, inc ∉ l2.orders := fun l2 h2 => hinc l2 (by simp [h2])
      have hnd2 : ∀ l2 ∈ ls2, l2.orders.Nodup := fun l2 h2 => hnd l2 (by simp [h2])
      have hnn2 : ∀ l2 ∈ ls2, ∀ x ∈ l2.orders, 0 ≤ ((l.fill h inc).2.1 x).size := by
        intro l2 h2 x hx
        rw [hframe2 l2 h2 x hx]
        exact hnn l2 (by simp [h2]) x hx
      have hinn2 : 0 ≤ (((l.fill h inc).2.1) inc).size := by
        rw [hfc]; exact le_max_right _ _
      have hsum2 : (ls2.map (fun l2 => sumSizes ((l.fill h inc).2.1) l2.orders)).sum
          = (ls2.map (fun l2 => sumSizes h l2.orders)).sum := by
        congr 1
        refine List.map_congr_left ?_
        intro l2 h2
        exact sumSizes_congr (fun x hx => congrArg Order.size (hframe2 l2 h2 x hx))
      rw [hheapeq, ih ((l.fill h inc).2.1) hinc2 hnd2 hdisj2 hnn2 hinn2, hfc, hsum2]
      have hSl : 0 ≤ sumSizes h l.orders :=
        sumSizes_nonneg h l.orders (fun x hx => hnn l (by simp) x hx)
      have hS2 : 0 ≤ (ls2.map (fun l2 => sumSizes h l2.orders)).sum := by
        refine List.sum_nonneg ?_
        intro q hq
        obtain ⟨l2, h2, rfl⟩ := List.mem_map.mp hq
        exact sumSizes_nonneg h l2.orders (fun x hx => hnn l2 (by simp [h2]) x hx)
      rw [List.map_cons, List.sum_cons]
      rcases le_total (sumSizes h l.orders) ((h inc).size) with hc | hc
      · have hin : ((h inc).size - sumSizes h l.orders) ⊔ (0 : ℚ)
            = (h inc).size - sumSizes h l.orders := max_eq_left (by linarith)
        rw [hin]
        have harith : (h inc).size - sumSizes h l.orders
              - (ls2.map (fun l2 => sumSizes h l2.orders)).sum
            = (h inc).size - (sumSizes h l.orders
              + (ls2.map (fun l2 => sumSizes h l2.orders)).sum) := by ring
        rw [harith]
      · have h1 : ((h inc).size - sumSizes h l.orders) ⊔ (0 : ℚ) = 0 :=
          max_eq_right (by linarith)
        rw [h1]
        have h2 : ((0 : ℚ) - (ls2.map (fun l2 => sumSizes h l2.orders)).sum) ⊔ (0 : ℚ)
            = 0 := max_eq_right (by linarith)
        have h3 : ((h inc).size - (sumSizes h l.orders
            + (ls2.map (fun l2 => sumSizes h l2.orders)).sum)) ⊔ (0 : ℚ) = 0 :=
          max_eq_right (by linarith)
        rw [h2, h3]

/-! ### Helper lemmas for level replacement -/

theorem mem_replaceLevel_of_ne (ls : List Limit) (p : ℚ) (l1 x : Limit)
    (hx : x ∈ ls) (hne : x.price ≠ p) : x ∈ replaceLevel ls p l1 := by
  induction ls with
  | nil => cases hx
  | cons a t ih =>
      by_cases ha : a.price = p
      · simp only [replaceLevel, if_pos ha]
        rcases List.mem_cons.mp hx with he | hx2
        · exact absurd (he ▸ ha) hne
        · exact List.mem_cons_of_mem _ hx2
      · simp only [replaceLevel, if_neg ha]
        rcases List.mem_cons.mp hx with he | hx2
        · exact he ▸ List.mem_cons_self _ _
        · exact List.mem_cons_of_mem _ (ih hx2)

theorem replaceLevel_mem_self (ls : List Limit) (p : ℚ) (l1 : Limit)
    (hex : ∃ l ∈ ls, l.price = p) : l1 ∈ replaceLevel ls p l1 := by
  induction ls with
  | nil => obtain ⟨l, hl, _⟩ := hex; cases hl
  | cons a t ih =>
      by_cases ha : a.price = p
      · simp only [replaceLevel, if_pos ha]
        exact List.mem_cons_self _ _
      · simp only [replaceLevel, if_neg ha]
        obtain ⟨l, hl, hp⟩ := hex
        rcases List.mem_cons.mp hl with he | hl2
        · exact absurd (he ▸ hp : a.price = p) ha
        · exact List.mem_cons_of_mem _ (ih ⟨l, hl2, hp⟩)

/-! ## The claims -/

/-- C1: for a market order whose size strictly exceeds the opposite side's
total resting volume, the source does detect the condition and fails
atomically — the book state carried out is exactly the pre-call state and no
trade is recorded — but it fails by `panic` (process termination with
"not enough volume"), not by returning a recoverable InsufficientLiquidity
error, so the claim's error contract is a defect of the code acknowledged by
the spec. -/
theorem claim_C1_market_insufficient_panics (ob : Orderbook) (r : Ref) (now : Int)
    (hex : ((ob.heap r).bid = true ∧ ob.askTotalVolume < (ob.heap r).size) ∨
           ((ob.heap r).bid = false ∧ ob.bidTotalVolume < (ob.heap r).size)) :
    ob.placeMarketOrder r now = .panicked .insufficientVolume ob := by
  unfold Orderbook.placeMarketOrder
  rcases hex with ⟨hb, hv⟩ | ⟨hb, hv⟩
  · simp only [hb, if_pos hv]
    rfl
  · simp only [hb, if_pos hv]
    rfl

def obC1 : Orderbook :=
  { newOrderbook with heap := hupd newOrderbook.heap 0 (newOrderAt true 1 5 0 1) }

theorem claim_C1_witness :
    ((obC1.heap 0).bid = true ∧ obC1.askTotalVolume < (obC1.heap 0).size) ∧
    obC1.placeMarketOrder 0 7 = .panicked .insufficientVolume obC1 :=
  ⟨⟨by decide, by decide⟩,
   claim_C1_market_insufficient_panics obC1 0 7 (Or.inl ⟨by decide, by decide⟩)⟩

/-- C5: one fill step pairs the resident order `ra` with the incoming order
`rb`: the filled size is the minimum of the two remaining sizes, both sizes
are decremented by exactly that amount (one reaches zero, neither goes
negative), and the match is priced at the level's price regardless of the
incoming order. -/
theorem claim_C5_fill_step (l : Limit) (h : Heap) (ra rb : Ref)
    (hne : ra ≠ rb) (_ha : 0 ≤ (h ra).size) (_hb : 0 ≤ (h rb).size) :
    ((l.fillOrder h ra rb).2).sizeFilled = min (h ra).size (h rb).size ∧
    (((l.fillOrder h ra rb).1) ra).size
      = (h ra).size - ((l.fillOrder h ra rb).2).sizeFilled ∧
    (((l.fillOrder h ra rb).1) rb).size
      = (h rb).size - ((l.fillOrder h ra rb).2).sizeFilled ∧
    ((((l.fillOrder h ra rb).1) ra).size = 0 ∨ (((l.fillOrder h ra rb).1) rb).size = 0) ∧
    0 ≤ (((l.fillOrder h ra rb).1) ra).size ∧
    0 ≤ (((l.fillOrder h ra rb).1) rb).size ∧
    ((l.fillOrder h ra rb).2).price = l.price := by
  have he : l.fillOrder h ra rb = fillOrderAt l.price h ra rb := rfl
  rw [he]
  have hmin1 := min_le_left (h ra).size (h rb).size
  have hmin2 := min_le_right (h ra).size (h rb).size
  refine ⟨fillOrderAt_sizeFilled l.price h ra rb hne, ?_, ?_, ?_, ?_, ?_,
    fillOrderAt_price l.price h ra rb⟩
  · rw [fillOrderAt_size_ra l.price h ra rb hne,
      fillOrderAt_sizeFilled l.price h ra rb hne]
  · rw [fillOrderAt_size_rb l.price h ra rb hne,
      fillOrderAt_sizeFilled l.price h ra rb hne]
  · exact fillOrderAt_zero l.price h ra rb hne
  · rw [fillOrderAt_size_ra l.price h ra rb hne]; linarith
  · rw [fillOrderAt_size_rb l.price h ra rb hne]; linarith

def hC5 : Heap :=
  hupd (hupd (fun _ => default) 0 (newOrderAt false 5 7 0 1)) 1 (newOrderAt true 3 8 0 2)

def lC5 : Limit := { price := 250, orders := [0], totalVolume := 5 }

theorem claim_C5_witness :
    ((0 : Ref) ≠ 1 ∧ 0 ≤ (hC5 0).size ∧ 0 ≤ (hC5 1).size) ∧
    ((lC5.fillOrder hC5 0 1).2.sizeFilled = min (hC5 0).size (hC5 1).size ∧
      ((lC5.fillOrder hC5 0 1).2).price = lC5.price) :=
  ⟨⟨by decide, by decide, by decide⟩,
   ⟨(claim_C5_fill_step lC5 hC5 0 1 (by decide) (by decide) (by decide)).1,
    (claim_C5_fill_step lC5 hC5 0 1 (by decide) (by decide) (by decide)).2.2.2.2.2.2⟩⟩

/-- C7: the source has no OrderNotFound error: `CancelOrder` dereferences the
order's `Limit` back-pointer unconditionally, so cancelling an order that is
not resident (already cancelled or already fully filled — its back-pointer is
nil) panics with a nil-pointer dereference; the book state at the panic is
untouched, but the failure is a crash, not a recoverable error. -/
theorem claim_C7_cancel_nil_panics (ob : Orderbook) (r : Ref)
    (hnil : (ob.heap r).limitPrice = none) :
    ob.cancelOrder r = .panicked ob := by
  unfold Orderbook.cancelOrder
  simp only [hnil]

def opsC7 : List Op := [ .limitOp false 4 10000 1 0 1, .cancelOp 0 ]

theorem claim_C7_witness :
    ((((runOps opsC7).getD initState).ob.heap 0).limitPrice = none) ∧
    (((runOps opsC7).getD initState).ob.cancelOrder 0
      = .panicked ((runOps opsC7).getD initState).ob) :=
  ⟨by decide, claim_C7_cancel_nil_panics _ 0 (by decide)⟩

def hC8 : Heap :=
  hupd (hupd (fun _ => default) 0 (newOrderAt true 2 7 0 1)) 1 (newOrderAt true 5 8 0 2)

def lC8 : Limit := { price := 100, orders := [0], totalVolume := 2 }

/-- C8 counterexample: `DeleteOrder` on a level holding one resident order of
size 2, called with a non-resident order of size 5, leaves the resident
sequence unchanged and signals nothing, but it changes the level's TotalVolume
from 2 to -3 and is therefore not the claimed no-op. -/
theorem claim_C8_counterexample :
    (1 : Ref) ∉ lC8.orders ∧
    (lC8.deleteOrder hC8 1).1.orders = lC8.orders ∧
    (lC8.deleteOrder hC8 1).1.totalVolume ≠ lC8.totalVolume := by
  decide

/-- C8 amended: `DeleteOrder` on an order that is not resident in the level
is silent (no error signal) and leaves the resident order sequence unchanged
(the final re-sort is the identity on a time-sorted level), but it still
subtracts the absent order's current size from the level's TotalVolume and
clears that order's level back-reference; no other order is affected. -/
theorem claim_C8_amended (l : Limit) (h : Heap) (r : Ref)
    (hnr : r ∉ l.orders) (hsorted : l.orders.Pairwise (tsLE h)) :
    (l.deleteOrder h r).1.orders = l.orders ∧
    (l.deleteOrder h r).1.totalVolume = l.totalVolume - (h r).size ∧
    ((l.deleteOrder h r).2 r).limitPrice = none ∧
    ((l.deleteOrder h r).2 r).size = (h r).size ∧
    (∀ x, x ≠ r → (l.deleteOrder h r).2 x = h x) := by
  have hts : ∀ a b : Ref,
      tsLE (hupd h r { h r with limitPrice := none }) a b ↔ tsLE h a b := by
    intro a b
    unfold tsLE hupd
    by_cases hae : a = r <;> by_cases hbe : b = r <;>
      simp [hae, hbe]
  have hgo : goRemove l.orders r 0 = l.orders :=
    goRemove_of_forall l.orders r 0
      (by
        intro x hx hxr
        rw [hxr] at hx
        exact hnr (by simpa using hx))
  have hsorted2 : l.orders.Pairwise (tsLE (hupd h r { h r with limitPrice := none })) :=
    hsorted.imp_of_mem (fun {a b} _ _ hab => (hts a b).mpr hab)
  refine ⟨?_, deleteOrder_totalVolume l h r, deleteOrder_heap_limitPrice_self l h r,
    deleteOrder_heap_size l h r r, fun x hx => deleteOrder_heap_other l h r x hx⟩
  have : (l.deleteOrder h r).1.orders
      = sortByTs (hupd h r { h r with limitPrice := none }) (goRemove l.orders r 0) := rfl
  rw [this, hgo, sortByTs_eq_of_sorted _ hsorted2]

theorem claim_C8_witness :
    ((1 : Ref) ∉ lC8.orders ∧ lC8.orders.Pairwise (tsLE hC8)) ∧
    ((lC8.deleteOrder hC8 1).1.orders = lC8.orders ∧
      (lC8.deleteOrder hC8 1).1.totalVolume = lC8.totalVolume - (hC8 1).size) :=
  ⟨⟨by decide, by decide⟩,
   ⟨(claim_C8_amended lC8 hC8 1 (by decide) (by decide)).1,
    (claim_C8_amended lC8 hC8 1 (by decide) (by decide)).2.1⟩⟩

/-- C9: `PlaceLimitOrder` performs no matching, even for a limit price that
crosses the spread: the trade history is untouched, no other order's remaining
size changes (the placed order's own size is also unchanged, only its level
back-reference is set), the order is registered in the id index, the opposite
side is untouched, levels at other prices on the order's side are preserved,
and the order is appended to the level at its price, which is created (with
exactly this order) when absent. -/
theorem claim_C9_limit_no_matching (ob : Orderbook) (price : ℚ) (r : Ref) :
    (ob.placeLimitOrder price r).trades = ob.trades ∧
    (∀ x, x ≠ r → (ob.placeLimitOrder price r).heap x = ob.heap x) ∧
    ((ob.placeLimitOrder price r).heap r).size = (ob.heap r).size ∧
    ((ob.placeLimitOrder price r).heap r).limitPrice = some price ∧
    (ob.placeLimitOrder price r).ordersIdx = setAssoc ob.ordersIdx (ob.heap r).id r ∧
    ((ob.heap r).bid = true → (ob.placeLimitOrder price r).asks = ob.asks) ∧
    ((ob.heap r).bid = false → (ob.placeLimitOrder price r).bids = ob.bids) ∧
    ((ob.heap r).bid = true →
      (∀ l ∈ ob.bids, l.price ≠ price → l ∈ (ob.placeLimitOrder price r).bids) ∧
      (match ob.bids.find? (fun l => l.price == price) with
       | some l => { l with orders := l.orders ++ [r], totalVolume := l.totalVolume + (ob.heap r).size } ∈ (ob.placeLimitOrder price r).bids
       | none => { price := price, orders := [r], totalVolume := (ob.heap r).size } ∈ (ob.placeLimitOrder price r).bids)) ∧
    ((ob.heap r).bid = false →
      (∀ l ∈ ob.asks, l.price ≠ price → l ∈ (ob.placeLimitOrder price r).asks) ∧
      (match ob.asks.find? (fun l => l.price == price) with
       | some l => { l with orders := l.orders ++ [r], totalVolume := l.totalVolume + (ob.heap r).size } ∈ (ob.placeLimitOrder price r).asks
       | none => { price := price, orders := [r], totalVolume := (ob.heap r).size } ∈ (ob.placeLimitOrder price r).asks)) := by
  by_cases hb : (ob.heap r).bid = true
  · cases hfind : ob.bids.find? (fun l => l.price == price) with
    | some l =>
        have hlmem : l ∈ ob.bids := List.mem_of_find?_eq_some hfind
        have hlprice : l.price = price := by
          have := List.find?_some hfind
          simpa using this
        have hdef : ob.placeLimitOrder price r =
            { ob with bids := replaceLevel ob.bids price (l.addOrder ob.heap r).1,
                      heap := (l.addOrder ob.heap r).2,
                      ordersIdx := setAssoc ob.ordersIdx (ob.heap r).id r } := by
          unfold Orderbook.placeLimitOrder
          simp only [hb, hfind]
          simp
        rw [hdef]
        refine ⟨rfl, ?_, ?_, ?_, rfl, fun _ => rfl, fun hf => absurd hb (by simp [hf]),
          ?_, fun hf => absurd hb (by simp [hf])⟩
        · intro x hx
          show (hupd ob.heap r { ob.heap r with limitPrice := some l.price }) x = ob.heap x
          exact hupd_other _ _ _ x hx
        · show (hupd ob.heap r { ob.heap r with limitPrice := some l.price } r).size
            = (ob.heap r).size
          rw [hupd_same]
        · show (hupd ob.heap r { ob.heap r with limitPrice := some l.price } r).limitPrice
            = some price
          rw [hupd_same, hlprice]
        · intro _
          constructor
          · intro l2 hl2 hne
            exact mem_replaceLevel_of_ne ob.bids price _ l2 hl2 hne
          · exact replaceLevel_mem_self ob.bids price _ ⟨l, hlmem, hlprice⟩
    | none =>
        have hdef : ob.placeLimitOrder price r =
            { ob with bids := ob.bids ++ [((NewLimit price).addOrder ob.heap r).1],
                      heap := ((NewLimit price).addOrder ob.heap r).2,
                      ordersIdx := setAssoc ob.ordersIdx (ob.heap r).id r } := by
          unfold Orderbook.placeLimitOrder
          simp only [hb, hfind]
          simp
        rw [hdef]
        refine ⟨rfl, ?_, ?_, ?_, rfl, fun _ => rfl, fun hf => absurd hb (by simp [hf]),
          ?_, fun hf => absurd hb (by simp [hf])⟩
        · intro x hx
          show (hupd ob.heap r { ob.heap r with limitPrice := some (NewLimit price).price }) x
            = ob.heap x
          exact hupd_other _ _ _ x hx
        · show (hupd ob.heap r
              { ob.heap r with limitPrice := some (NewLimit price).price } r).size
            = (ob.heap r).size
          rw [hupd_same]
        · show (hupd ob.heap r
              { ob.heap r with limitPrice := some (NewLimit price).price } r).limitPrice
            = some price
          rw [hupd_same]
          rfl
        · intro _
          constructor
          · intro l2 hl2 _
            exact List.mem_append.mpr (Or.inl hl2)
          · refine List.mem_append.mpr (Or.inr ?_)
            refine List.mem_singleton.mpr ?_
            show ({ price := price, orders := [r], totalVolume := (ob.heap r).size } : Limit)
              = { price := price, orders := [] ++ [r], totalVolume := 0 + (ob.heap r).size }
            simp
  · have hb' : (ob.heap r).bid = false := by simpa using hb
    cases hfind : ob.asks.find? (fun l => l.price == price) with
    | some l =>
        have hlmem : l ∈ ob.asks := List.mem_of_find?_eq_some hfind
        have hlprice : l.price = price := by
          have := List.find?_some hfind
          simpa using this
        have hdef : ob.placeLimitOrder price r =
            { ob with asks := replaceLevel ob.asks price (l.addOrder ob.heap r).1,
                      heap := (l.addOrder ob.heap r).2,
                      ordersIdx := setAssoc ob.ordersIdx (ob.heap r).id r } := by
          unfold Orderbook.placeLimitOrder
          simp only [hb', hfind]
          simp
        rw [hdef]
        refine ⟨rfl, ?_, ?_, ?_, rfl, fun hf => absurd hf (by simp [hb']), fun _ => rfl,
          fun hf => absurd hf (by simp [hb']), ?_⟩
        · intro x hx
          show (hupd ob.heap r { ob.heap r with limitPrice := some l.price }) x = ob.heap x
          exact hupd_other _ _ _ x hx
        · show (hupd ob.heap r { ob.heap r with limitPrice := some l.price } r).size
            = (ob.heap r).size
          rw [hupd_same]
        · show (hupd ob.heap r { ob.heap r with limitPrice := some l.price } r).limitPrice
            = some price
          rw [hupd_same, hlprice]
        · intro _
          constructor
          · intro l2 hl2 hne
            exact mem_replaceLevel_of_ne ob.asks price _ l2 hl2 hne
          · exact replaceLevel_mem_self ob.asks price _ ⟨l, hlmem, hlprice⟩
    | none =>
        have hdef : ob.placeLimitOrder price r =
            { ob with asks := ob.asks ++ [((NewLimit price).addOrder ob.heap r).1],
                      heap := ((NewLimit price).addOrder ob.heap r).2,
                      ordersIdx := setAssoc ob.ordersIdx (ob.heap r).id r } := by
          unfold Orderbook.placeLimitOrder
          simp only [hb', hfind]
          simp
        rw [hdef]
        refine ⟨rfl, ?_, ?_, ?_, rfl, fun hf => absurd hf (by simp [hb']), fun _ => rfl,
          fun hf => absurd hf (by simp [hb']), ?_⟩
        · intro x hx
          show (hupd ob.heap r { ob.heap r with limitPrice := some (NewLimit price).price }) x
            = ob.heap x
          exact hupd_other _ _ _ x hx
        · show (hupd ob.heap r
              { ob.heap r with limitPrice := some (NewLimit price).price } r).size
            = (ob.heap r).size
          rw [hupd_same]
        · show (hupd ob.heap r
              { ob.heap r with limitPrice := some (NewLimit price).price } r).limitPrice
            = some price
          rw [hupd_same]
          rfl
        · intro _
          constructor
          · intro l2 hl2 _
            exact List.mem_append.mpr (Or.inl hl2)
          · refine List.mem_append.mpr (Or.inr ?_)
            refine List.mem_singleton.mpr ?_
            show ({ price := price, orders := [r], totalVolume := (ob.heap r).size } : Limit)
              = { price := price, orders := [] ++ [r], totalVolume := 0 + (ob.heap r).size }
            simp

/-- A book with one resting ask of size 10 at 9000 and a fresh bid order of
size 4 whose limit price 9500 crosses the spread. -/
def obC9 : Orderbook :=
  { heap := hupd (hupd (fun _ => default) 0
      { id := 1, userID := 3, size := 10, bid := false,
        limitPrice := some 9000, timestamp := 1 })
      1 (newOrderAt true 4 2 0 2),
    asks := [{ price := 9000, orders := [0], totalVolume := 10 }],
    bids := [], trades := [], ordersIdx := [(1, 0)] }

theorem claim_C9_witness :
    (obC9.placeLimitOrder 9500 1).trades = obC9.trades ∧
    (obC9.placeLimitOrder 9500 1).asks = obC9.asks ∧
    (obC9.placeLimitOrder 9500 1).heap 0 = obC9.heap 0 :=
  ⟨(claim_C9_limit_no_matching obC9 9500 1).1,
   (claim_C9_limit_no_matching obC9 9500 1).2.2.2.2.2.1 (by decide),
   (claim_C9_limit_no_matching obC9 9500 1).2.1 0 (by decide)⟩

/-- A fresh book whose heap holds one zero-size market bid order; the trade
history is empty. -/
def obC10 : Orderbook :=
  { newOrderbook with heap := hupd newOrderbook.heap 0 (newOrderAt true 0 3 0 1) }

/-- C10: the logging step of `PlaceMarketOrder` reads
`ob.Trades[len(ob.Trades)-1]` unconditionally, so (first conjunct) a call that
produces no matches on a book whose trade history is empty — e.g. a zero-size
market order, which passes the liquidity check against an empty opposite
side — crashes with an out-of-range access instead of returning the empty
match list, and (second conjunct) any call that returns normally leaves a
non-empty trade history. -/
theorem claim_C10_log_crash :
    ((obC10.placeMarketOrder 0 5).isIndexPanic = true) ∧
    (∀ (ob : Orderbook) (r : Ref) (now : Int) (ms : List Matched) (ob2 : Orderbook),
      ob.placeMarketOrder r now = .ok ms ob2 → ob2.trades ≠ []) := by
  constructor
  · decide
  · intro ob r now ms ob2 hok
    simp only [Orderbook.placeMarketOrder] at hok
    split at hok
    · split at hok
      · cases hok
      · split at hok
        next hemp => cases hok
        next hemp =>
          cases hok
          simpa using hemp
    · split at hok
      · cases hok
      · split at hok
        next hemp => cases hok
        next hemp =>
          cases hok
          simpa using hemp

/-- A book with one resting ask of size 10 at 10000 and a fresh market bid of
size 10. -/
def obC10b : Orderbook :=
  { heap := hupd (hupd (fun _ => default) 0
      { id := 1, userID := 3, size := 10, bid := false,
        limitPrice := some 10000, timestamp := 1 })
      1 (newOrderAt true 10 2 0 2),
    asks := [{ price := 10000, orders := [0], totalVolume := 10 }],
    bids := [], trades := [], ordersIdx := [(1, 0)] }

theorem claim_C10_witness :
    (obC10b.placeMarketOrder 1 9).stateOf.trades ≠ [] :=
  claim_C10_log_crash.2 obC10b 1 9 (obC10b.placeMarketOrder 1 9).msOf
    (obC10b.placeMarketOrder 1 9).stateOf rfl

/-- C3: price-time priority within a level.  When `Fill` runs on a level whose
resident orders are held oldest-first (sorted by creation timestamp), the
matched residents are exactly an initial prefix of the residents in list
order — so incoming volume is consumed in ascending creation-time order — and
every matched resident except possibly the last ends fully filled, so no
resident appears in a match while an earlier-arrived one still has remaining
volume.  Moreover `DeleteOrder` leaves the remaining residents in
creation-time order (it re-sorts after the swap-remove). -/
theorem claim_C3_price_time_priority (l : Limit) (h : Heap) (inc r : Ref)
    (hinc : inc ∉ l.orders) (hnd : l.orders.Nodup)
    (hsorted : l.orders.Pairwise (tsLE h)) :
    ((l.fill h inc).2.2).map (matchResident inc)
      = l.orders.take ((l.fill h inc).2.2).length ∧
    (((l.fill h inc).2.2).map (matchResident inc)).Pairwise (tsLE h) ∧
    (∀ x ∈ l.orders.take (((l.fill h inc).2.2).length - 1),
      (((l.fill h inc).2.1) x).size = 0) ∧
    ((l.deleteOrder h r).1.orders).Perm (l.orders.erase r) ∧
    ((l.deleteOrder h r).1.orders).Pairwise (tsLE ((l.deleteOrder h r).2)) := by
  obtain ⟨hp1, hp2⟩ := fill_priority l h inc hinc hnd
  refine ⟨hp1, ?_, hp2, deleteOrder_orders_perm l h r hnd, ?_⟩
  · rw [hp1]
    exact hsorted.sublist (List.take_sublist _ _)
  · have : (l.deleteOrder h r).1.orders
        = sortByTs ((l.deleteOrder h r).2) (goRemove l.orders r 0) := rfl
    rw [this]
    exact sortByTs_sorted _ _

/-- A level with two residents in creation-time order (sizes 5 and 8) and an
incoming opposite order of size 6. -/
def orderC3a : Order :=
  { id := 1, userID := 4, size := 5, bid := true, limitPrice := some 500, timestamp := 10 }

def orderC3b : Order :=
  { id := 2, userID := 5, size := 8, bid := true, limitPrice := some 500, timestamp := 20 }

def hC3 : Heap :=
  hupd (hupd (hupd (fun _ => default) 0 orderC3a) 1 orderC3b) 2 (newOrderAt false 6 3 0 30)

def lC3 : Limit := { price := 500, orders := [0, 1], totalVolume := 13 }

theorem claim_C3_witness :
    ((2 : Ref) ∉ lC3.orders ∧ lC3.orders.Nodup ∧ lC3.orders.Pairwise (tsLE hC3)) ∧
    ((lC3.fill hC3 2).2.2).map (matchResident 2)
      = lC3.orders.take ((lC3.fill hC3 2).2.2).length ∧
    (∀ x ∈ lC3.orders.take (((lC3.fill hC3 2).2.2).length - 1),
      (((lC3.fill hC3 2).2.1) x).size = 0) :=
  ⟨⟨by decide, by decide, by decide⟩,
   (claim_C3_price_time_priority lC3 hC3 2 0 (by decide) (by decide) (by decide)).1,
   (claim_C3_price_time_priority lC3 hC3 2 0 (by decide) (by decide) (by decide)).2.2.1⟩

/-! ## The representation invariant of the book over operation traces -/

/-- The per-side structure the book maintains: cached volumes correct,
levels non-empty with distinct prices, resident lists duplicate-free and
disjoint across levels, and residents carrying the side flag and the level
back-reference.  `next` is the first unallocated order reference. -/
structure SideInv (ls : List Limit) (H : Heap) (flag : Bool) (next : Ref) : Prop where
  vol : ∀ l ∈ ls, l.totalVolume = levelSum H l
  nonempty : ∀ l ∈ ls, l.orders ≠ []
  prices : (ls.map Limit.price).Nodup
  ordNd : ∀ l ∈ ls, l.orders.Nodup
  disj : ∀ l1 ∈ ls, ∀ l2 ∈ ls, ∀ x : Ref,
    x ∈ l1.orders → x ∈ l2.orders → l1.price = l2.price
  side : ∀ l ∈ ls, ∀ x ∈ l.orders,
    (H x).bid = flag ∧ (H x).limitPrice = some l.price
  fresh : ∀ l ∈ ls, ∀ x ∈ l.orders, x < next

/-- The full representation invariant of the book. -/
structure BookInv (ob : Orderbook) (next : Ref) : Prop where
  askInv : SideInv ob.asks ob.heap false next
  bidInv : SideInv ob.bids ob.heap true next
  idxFresh : ∀ p ∈ ob.ordersIdx, p.2 < next
  idxKey : ∀ p ∈ ob.ordersIdx, (ob.heap p.2).id = p.1
  nonres : ∀ x : Ref, (∀ l ∈ ob.asks ++ ob.bids, x ∉ l.orders) →
    (ob.heap x).limitPrice = none
  idxRes : ∀ p ∈ ob.ordersIdx, (∃ l ∈ ob.asks ++ ob.bids, p.2 ∈ l.orders) ∨
    (ob.heap p.2).size = 0

theorem initInv : BookInv initState.ob initState.nextRef := by
  refine ⟨⟨?_, ?_, ?_, ?_, ?_, ?_, ?_⟩, ⟨?_, ?_, ?_, ?_, ?_, ?_, ?_⟩, ?_, ?_, ?_, ?_⟩ <;>
    first
    | (intros; rfl)
    | simp [initState, newOrderbook]

/-! ### Small membership lemmas for the index and level-list updates -/

theorem setAssoc_mem {m : List (Int × Ref)} {k : Int} {v : Ref} {p : Int × Ref}
    (hp : p ∈ setAssoc m k v) : p = (k, v) ∨ (p ∈ m ∧ p.1 ≠ k) := by
  unfold setAssoc at hp
  by_cases hany : m.any (fun q => q.1 == k)
  · rw [if_pos hany] at hp
    obtain ⟨q, hq, hqe⟩ := List.mem_map.mp hp
    by_cases hk : q.1 = k
    · left
      rw [← hqe]
      simp [hk]
    · right
      constructor
      · rw [← hqe, if_neg (by simpa using hk : ¬((q.1 == k) = true))]
        exact hq
      · rw [← hqe, if_neg (by simpa using hk : ¬((q.1 == k) = true))]
        exact hk
  · rw [if_neg hany] at hp
    rcases List.mem_append.mp hp with hm | he
    · right
      refine ⟨hm, ?_⟩
      rw [List.any_eq_true] at hany
      push_neg at hany
      intro hk
      exact absurd (by simpa using hany p hm : ¬p.1 = k) (by simp [hk])
    · left
      simpa using he

theorem delAssoc_mem {m : List (Int × Ref)} {k : Int} {p : Int × Ref}
    (hp : p ∈ delAssoc m k) : p ∈ m ∧ p.1 ≠ k := by
  unfold delAssoc at hp
  have := List.mem_filter.mp hp
  exact ⟨this.1, by simpa using this.2⟩

theorem mem_of_mem_replaceLevel {ls : List Limit} {p : ℚ} {l1 x : Limit}
    (hx : x ∈ replaceLevel ls p l1) : x = l1 ∨ x ∈ ls := by
  induction ls with
  | nil => cases hx
  | cons a t ih =>
      by_cases ha : a.price = p
      · simp only [replaceLevel, if_pos ha] at hx
        rcases List.mem_cons.mp hx with he | hx2
        · exact Or.inl he
        · exact Or.inr (List.mem_cons_of_mem _ hx2)
      · simp only [replaceLevel, if_neg ha] at hx
        rcases List.mem_cons.mp hx with he | hx2
        · exact Or.inr (he ▸ List.mem_cons_self _ _)
        · rcases ih hx2 with h1 | h1
          · exact Or.inl h1
          · exact Or.inr (List.mem_cons_of_mem _ h1)

theorem replaceLevel_map_price (ls : List Limit) (p : ℚ) (l1 : Limit)
    (hl1 : l1.price = p) :
    (replaceLevel ls p l1).map Limit.price = ls.map Limit.price := by
  induction ls with
  | nil => rfl
  | cons a t ih =>
      by_cases ha : a.price = p
      · have he : replaceLevel (a :: t) p l1 = l1 :: t := by
          show (if a.price = p then l1 :: t else a :: replaceLevel t p l1) = l1 :: t
          rw [if_pos ha]
        rw [he, List.map_cons, List.map_cons, hl1, ha]
      · have he : replaceLevel (a :: t) p l1 = a :: replaceLevel t p l1 := by
          show (if a.price = p then l1 :: t else a :: replaceLevel t p l1)
            = a :: replaceLevel t p l1
          rw [if_neg ha]
        rw [he, List.map_cons, List.map_cons, ih]

theorem removeLevel_sub {ls : List Limit} {p : ℚ} {x : Limit}
    (hx : x ∈ removeLevel ls p) : x ∈ ls ∧ x.price ≠ p := by
  unfold removeLevel at hx
  have := List.mem_filter.mp hx
  exact ⟨this.1, by simpa using this.2⟩

theorem removeLevel_map_price_sublist (ls : List Limit) (p : ℚ) :
    ((removeLevel ls p).map Limit.price).Sublist (ls.map Limit.price) :=
  (List.filter_sublist ls).map Limit.price

theorem mem_removeLevel {ls : List Limit} {p : ℚ} {x : Limit}
    (hx : x ∈ ls) (hne : x.price ≠ p) : x ∈ removeLevel ls p := by
  unfold removeLevel
  exact List.mem_filter.mpr ⟨hx, by simpa using hne⟩

/-- In a side whose level prices are distinct, two levels sharing a price are
equal. -/
theorem level_eq_of_price_eq {ls : List Limit} (hnd : (ls.map Limit.price).Nodup)
    {l1 l2 : Limit} (h1 : l1 ∈ ls) (h2 : l2 ∈ ls) (hp : l1.price = l2.price) :
    l1 = l2 :=
  List.inj_on_of_nodup_map hnd h1 h2 hp

/-- Finding a level by price in a side with distinct prices returns the unique
member with that price. -/
theorem find?_level_eq {ls : List Limit} (hnd : (ls.map Limit.price).Nodup)
    {l : Limit} (hl : l ∈ ls) {p : ℚ} (hp : l.price = p) :
    ls.find? (fun x => x.price == p) = some l := by
  cases hfind : ls.find? (fun x => x.price == p) with
  | none =>
      rw [List.find?_eq_none] at hfind
      exact absurd (by simpa using hp) (hfind l hl)
  | some l2 =>
      have h2mem : l2 ∈ ls := List.mem_of_find?_eq_some hfind
      have h2p : l2.price = p := by simpa using List.find?_some hfind
      rw [level_eq_of_price_eq hnd h2mem hl (h2p.trans hp.symm)]

/-- A side invariant survives any heap change that leaves its residents'
orders untouched. -/
theorem SideInv.congr {ls : List Limit} {H : Heap} {flag : Bool} {next : Ref}
    (si : SideInv ls H flag next) (H' : Heap)
    (hagree : ∀ l ∈ ls, ∀ x ∈ l.orders, H' x = H x) :
    SideInv ls H' flag next := by
  refine ⟨?_, si.nonempty, si.prices, si.ordNd, si.disj, ?_, si.fresh⟩
  · intro l hl
    rw [si.vol l hl, levelSum_eq_sumSizes, levelSum_eq_sumSizes]
    exact (sumSizes_congr (fun x hx => congrArg Order.size (hagree l hl x hx))).symm
  · intro l hl x hx
    rw [hagree l hl x hx]
    exact si.side l hl x hx

/-- A side invariant is monotone in the freshness bound. -/
theorem SideInv.mono {ls : List Limit} {H : Heap} {flag : Bool} {next next' : Ref}
    (si : SideInv ls H flag next) (hle : next ≤ next') :
    SideInv ls H flag next' :=
  ⟨si.vol, si.nonempty, si.prices, si.ordNd, si.disj, si.side,
   fun l hl x hx => lt_of_lt_of_le (si.fresh l hl x hx) hle⟩

theorem sumSizes_append_single (h : Heap) (rs : List Ref) (x : Ref) :
    sumSizes h (rs ++ [x]) = sumSizes h rs + (h x).size := by
  simp [sumSizes]

/-- Effect of the found-level branch of `PlaceLimitOrder` on a side. -/
theorem placeSide_found {ls : List Limit} {H : Heap} {flag : Bool} {next : Ref}
    (si : SideInv ls H flag next) {price : ℚ} {l : Limit}
    (hfind : ls.find? (fun x => x.price == price) = some l)
    (hflag : (H next).bid = flag)
    (hfresh : ∀ l2 ∈ ls, next ∉ l2.orders) :
    SideInv (replaceLevel ls price (l.addOrder H next).1)
      ((l.addOrder H next).2) flag (next + 1) ∧
    (∀ x : Ref, x ∈ allOrders (replaceLevel ls price (l.addOrder H next).1)
      ↔ (x ∈ allOrders ls ∨ x = next)) := by
  have hlmem : l ∈ ls := List.mem_of_find?_eq_some hfind
  have hlprice : l.price = price := by simpa using List.find?_some hfind
  set nl : Limit := { l with orders := l.orders ++ [next], totalVolume := l.totalVolume + (H next).size } with hnl
  have haddl : (l.addOrder H next).1 = nl := rfl
  have haddh : (l.addOrder H next).2
      = hupd H next { H next with limitPrice := some l.price } := rfl
  have hH'next : ((l.addOrder H next).2) next
      = { H next with limitPrice := some l.price } := by
    rw [haddh]; exact hupd_same _ _ _
  have hH'other : ∀ x, x ≠ next → ((l.addOrder H next).2) x = H x := by
    intro x hx
    rw [haddh]; exact hupd_other _ _ _ x hx
  have hresne : ∀ l2 ∈ ls, ∀ x ∈ l2.orders, x ≠ next :=
    fun l2 h2 x hx he => hfresh l2 h2 (he ▸ hx)
  have hbmem : ∀ l2 ∈ replaceLevel ls price nl, l2 = nl ∨ l2 ∈ ls :=
    fun l2 h2 => mem_of_mem_replaceLevel h2
  have hkeep : ∀ l2 ∈ ls, l2 ≠ l → l2 ∈ replaceLevel ls price nl := by
    intro l2 h2 hne
    refine mem_replaceLevel_of_ne ls price nl l2 h2 ?_
    intro hp
    exact hne (level_eq_of_price_eq si.prices h2 hlmem (hp.trans hlprice.symm))
  have hnlmem : nl ∈ replaceLevel ls price nl :=
    replaceLevel_mem_self ls price nl ⟨l, hlmem, hlprice⟩
  rw [haddl, haddh] at *
  constructor
  · refine ⟨?_, ?_, ?_, ?_, ?_, ?_, ?_⟩
    · intro l2 h2
      rcases hbmem l2 h2 with he | hold
      · subst he
        show l.totalVolume + (H next).size = _
        rw [si.vol l hlmem, levelSum_eq_sumSizes, levelSum_eq_sumSizes]
        show _ = sumSizes _ (l.orders ++ [next])
        rw [sumSizes_append_single, hupd_same]
        have : sumSizes (hupd H next { H next with limitPrice := some l.price }) l.orders
            = sumSizes H l.orders := by
          refine sumSizes_congr ?_
          intro x hx
          rw [hupd_other _ _ _ x (hresne l hlmem x hx)]
        rw [this]
      · rw [si.vol l2 hold, levelSum_eq_sumSizes, levelSum_eq_sumSizes]
        refine (sumSizes_congr ?_).symm
        intro x hx
        rw [hupd_other _ _ _ x (hresne l2 hold x hx)]
    · intro l2 h2
      rcases hbmem l2 h2 with he | hold
      · subst he; simp
      · exact si.nonempty l2 hold
    · rw [replaceLevel_map_price ls price nl hlprice]
      exact si.prices
    · intro l2 h2
      rcases hbmem l2 h2 with he | hold
      · subst he
        show (l.orders ++ [next]).Nodup
        rw [List.nodup_append]
        refine ⟨si.ordNd l hlmem, List.nodup_singleton next, ?_⟩
        intro x hx hx2
        rw [List.mem_singleton.mp hx2] at hx
        exact hfresh l hlmem hx
      · exact si.ordNd l2 hold
    · intro l1 h1 l2 h2 x hx1 hx2
      rcases hbmem l1 h1 with he1 | hold1 <;> rcases hbmem l2 h2 with he2 | hold2
      · rw [he1, he2]
      · subst he1
        have hx1' : x ∈ l.orders ++ [next] := hx1
        rcases List.mem_append.mp hx1' with hxl | hxn
        · show l.price = l2.price
          exact si.disj l hlmem l2 hold2 x hxl hx2
        · exact absurd hx2 ((List.mem_singleton.mp hxn) ▸ hfresh l2 hold2)
      · subst he2
        have hx2' : x ∈ l.orders ++ [next] := hx2
        rcases List.mem_append.mp hx2' with hxl | hxn
        · show l1.price = l.price
          exact si.disj l1 hold1 l hlmem x hx1 hxl
        · exact absurd hx1 ((List.mem_singleton.mp hxn) ▸ hfresh l1 hold1)
      · exact si.disj l1 hold1 l2 hold2 x hx1 hx2
    · intro l2 h2 x hx
      rcases hbmem l2 h2 with he | hold
      · subst he
        have hx' : x ∈ l.orders ++ [next] := hx
        rcases List.mem_append.mp hx' with hxl | hxn
        · rw [hupd_other _ _ _ x (hresne l hlmem x hxl)]
          have := si.side l hlmem x hxl
          exact ⟨this.1, this.2⟩
        · rw [List.mem_singleton.mp hxn, hupd_same]
          exact ⟨hflag, rfl⟩
      · rw [hupd_other _ _ _ x (hresne l2 hold x hx)]
        exact si.side l2 hold x hx
    · intro l2 h2 x hx
      rcases hbmem l2 h2 with he | hold
      · subst he
        have hx' : x ∈ l.orders ++ [next] := hx
        rcases List.mem_append.mp hx' with hxl | hxn
        · exact lt_trans (si.fresh l hlmem x hxl) (Nat.lt_succ_self next)
        · rw [List.mem_singleton.mp hxn]
          exact Nat.lt_succ_self next
      · exact lt_trans (si.fresh l2 hold x hx) (Nat.lt_succ_self next)
  · intro x
    constructor
    · intro hx
      obtain ⟨l2, h2, hxl⟩ := mem_allOrders.mp hx
      rcases hbmem l2 h2 with he | hold
      · subst he
        have hx' : x ∈ l.orders ++ [next] := hxl
        rcases List.mem_append.mp hx' with hxl2 | hxn
        · exact Or.inl (mem_allOrders.mpr ⟨l, hlmem, hxl2⟩)
        · exact Or.inr (List.mem_singleton.mp hxn)
      · exact Or.inl (mem_allOrders.mpr ⟨l2, hold, hxl⟩)
    · intro hx
      rcases hx with hx | hx
      · obtain ⟨l2, h2, hxl⟩ := mem_allOrders.mp hx
        by_cases he : l2 = l
        · subst he
          exact mem_allOrders.mpr ⟨nl, hnlmem, by
            show x ∈ l2.orders ++ [next]
            exact List.mem_append.mpr (Or.inl hxl)⟩
        · exact mem_allOrders.mpr ⟨l2, hkeep l2 h2 he, hxl⟩
      · subst hx
        exact mem_allOrders.mpr ⟨nl, hnlmem, by
          show x ∈ l.orders ++ [x]
          exact List.mem_append.mpr (Or.inr (List.mem_singleton.mpr rfl))⟩

/-- Effect of the new-level branch of `PlaceLimitOrder` on a side. -/
theorem placeSide_new {ls : List Limit} {H : Heap} {flag : Bool} {next : Ref}
    (si : SideInv ls H flag next) {price : ℚ}
    (hfind : ls.find? (fun x => x.price == price) = none)
    (hflag : (H next).bid = flag)
    (hfresh : ∀ l2 ∈ ls, next ∉ l2.orders) :
    SideInv (ls ++ [((NewLimit price).addOrder H next).1])
      (((NewLimit price).addOrder H next).2) flag (next + 1) ∧
    (∀ x : Ref, x ∈ allOrders (ls ++ [((NewLimit price).addOrder H next).1])
      ↔ (x ∈ allOrders ls ∨ x = next)) := by
  have hnone : ∀ l2 ∈ ls, l2.price ≠ price := by
    intro l2 h2
    have := (List.find?_eq_none.mp hfind) l2 h2
    simpa using this
  set nl : Limit := ((NewLimit price).addOrder H next).1 with hnl
  have hnlorders : nl.orders = [next] := rfl
  have hnlprice : nl.price = price := rfl
  have haddh : ((NewLimit price).addOrder H next).2
      = hupd H next { H next with limitPrice := some price } := rfl
  have hresne : ∀ l2 ∈ ls, ∀ x ∈ l2.orders, x ≠ next :=
    fun l2 h2 x hx he => hfresh l2 h2 (he ▸ hx)
  have hbmem : ∀ l2 ∈ ls ++ [nl], l2 ∈ ls ∨ l2 = nl := by
    intro l2 h2
    rcases List.mem_append.mp h2 with h | h
    · exact Or.inl h
    · exact Or.inr (List.mem_singleton.mp h)
  rw [haddh] at *
  constructor
  · refine ⟨?_, ?_, ?_, ?_, ?_, ?_, ?_⟩
    · intro l2 h2
      rcases hbmem l2 h2 with hold | he
      · rw [si.vol l2 hold, levelSum_eq_sumSizes, levelSum_eq_sumSizes]
        refine (sumSizes_congr ?_).symm
        intro x hx
        rw [hupd_other _ _ _ x (hresne l2 hold x hx)]
      · subst he
        show (0 : ℚ) + (H next).size = _
        show (0 : ℚ) + (H next).size
          = sumSizes (hupd H next { H next with limitPrice := some price }) [next]
        rw [sumSizes_cons, hupd_same]
        show (0 : ℚ) + (H next).size = (H next).size + sumSizes _ []
        show (0 : ℚ) + (H next).size = (H next).size + 0
        ring
    · intro l2 h2
      rcases hbmem l2 h2 with hold | he
      · exact si.nonempty l2 hold
      · subst he
        rw [hnlorders]
        simp
    · rw [List.map_append]
      rw [List.nodup_append]
      refine ⟨si.prices, by simp, ?_⟩
      intro q hq hq2
      obtain ⟨l2, h2, rfl⟩ := List.mem_map.mp hq
      have : nl.price ∈ [nl.price] := List.mem_singleton.mpr rfl
      simp only [List.map_cons, List.map_nil] at hq2
      have hqp : l2.price = price := by
        have := List.mem_singleton.mp hq2
        rw [this, hnlprice]
      exact hnone l2 h2 hqp
    · intro l2 h2
      rcases hbmem l2 h2 with hold | he
      · exact si.ordNd l2 hold
      · subst he
        rw [hnlorders]
        exact List.nodup_singleton next
    · intro l1 h1 l2 h2 x hx1 hx2
      rcases hbmem l1 h1 with hold1 | he1 <;> rcases hbmem l2 h2 with hold2 | he2
      · exact si.disj l1 hold1 l2 hold2 x hx1 hx2
      · subst he2
        rw [hnlorders] at hx2
        exact absurd hx1 ((List.mem_singleton.mp hx2) ▸ hfresh l1 hold1)
      · subst he1
        rw [hnlorders] at hx1
        exact absurd hx2 ((List.mem_singleton.mp hx1) ▸ hfresh l2 hold2)
      · rw [he1, he2]
    · intro l2 h2 x hx
      rcases hbmem l2 h2 with hold | he
      · rw [hupd_other _ _ _ x (hresne l2 hold x hx)]
        exact si.side l2 hold x hx
      · subst he
        rw [hnlorders] at hx
        rw [List.mem_singleton.mp hx, hupd_same]
        exact ⟨hflag, rfl⟩
    · intro l2 h2 x hx
      rcases hbmem l2 h2 with hold | he
      · exact lt_trans (si.fresh l2 hold x hx) (Nat.lt_succ_self next)
      · subst he
        rw [hnlorders] at hx
        rw [List.mem_singleton.mp hx]
        exact Nat.lt_succ_self next
  · intro x
    constructor
    · intro hx
      obtain ⟨l2, h2, hxl⟩ := mem_allOrders.mp hx
      rcases hbmem l2 h2 with hold | he
      · exact Or.inl (mem_allOrders.mpr ⟨l2, hold, hxl⟩)
      · subst he
        rw [hnlorders] at hxl
        exact Or.inr (List.mem_singleton.mp hxl)
    · intro hx
      rcases hx with hx | hx
      · obtain ⟨l2, h2, hxl⟩ := mem_allOrders.mp hx
        exact mem_allOrders.mpr ⟨l2, List.mem_append.mpr (Or.inl h2), hxl⟩
      · subst hx
        refine mem_allOrders.mpr ⟨nl, ?_, ?_⟩
        · exact List.mem_append.mpr (Or.inr (List.mem_singleton.mpr rfl))
        · rw [hnlorders]
          exact List.mem_singleton.mpr rfl

/-- `PlaceLimitOrder` on a freshly allocated order preserves the book
invariant. -/
theorem placeLimit_inv (ob : Orderbook) (next : Ref) (hinv : BookInv ob next)
    (price : ℚ) (o : Order) :
    BookInv
      (Orderbook.placeLimitOrder { ob with heap := hupd ob.heap next o } price next)
      (next + 1) := by
  set H : Heap := hupd ob.heap next o with hHdef
  have hHold : ∀ x, x ≠ next → H x = ob.heap x := fun x hx => hupd_other _ _ _ x hx
  have hHnext : H next = o := hupd_same _ _ _
  have haskFresh : ∀ l ∈ ob.asks, next ∉ l.orders := by
    intro l hl hx
    exact absurd (hinv.askInv.fresh l hl next hx) (lt_irrefl next)
  have hbidFresh : ∀ l ∈ ob.bids, next ∉ l.orders := by
    intro l hl hx
    exact absurd (hinv.bidInv.fresh l hl next hx) (lt_irrefl next)
  have hask1 : SideInv ob.asks H false next :=
    hinv.askInv.congr H (by
      intro l hl x hx
      exact hHold x (fun he => haskFresh l hl (he ▸ hx)))
  have hbid1 : SideInv ob.bids H true next :=
    hinv.bidInv.congr H (by
      intro l hl x hx
      exact hHold x (fun he => hbidFresh l hl (he ▸ hx)))
  by_cases hb : (H next).bid = true
  · cases hfind : ob.bids.find? (fun l => l.price == price) with
    | some l =>
        have hdef : Orderbook.placeLimitOrder { ob with heap := H } price next
            = { heap := (l.addOrder H next).2, asks := ob.asks,
                bids := replaceLevel ob.bids price (l.addOrder H next).1,
                trades := ob.trades,
                ordersIdx := setAssoc ob.ordersIdx (H next).id next } := by
          unfold Orderbook.placeLimitOrder
          simp only [hb, hfind]
          simp
        obtain ⟨hbidInv, hallOrd⟩ := placeSide_found hbid1 hfind hb hbidFresh
        have hH2other : ∀ x, x ≠ next → (l.addOrder H next).2 x = ob.heap x := by
          intro x hx
          have : (l.addOrder H next).2 x = H x := hupd_other _ _ _ x hx
          rw [this, hHold x hx]
        have hH2next : ((l.addOrder H next).2) next
            = { H next with limitPrice := some l.price } := hupd_same _ _ _
        have hnextRes : next ∈ allOrders (replaceLevel ob.bids price (l.addOrder H next).1) :=
          (hallOrd next).mpr (Or.inr rfl)
        rw [hdef]
        refine ⟨?_, hbidInv, ?_, ?_, ?_, ?_⟩
        · refine (hask1.congr _ ?_).mono (Nat.le_succ next)
          intro l2 hl2 x hx
          have hxne : x ≠ next := fun he => haskFresh l2 hl2 (he ▸ hx)
          show (l.addOrder H next).2 x = H x
          exact hupd_other _ _ _ x hxne
        · intro p hp
          rcases setAssoc_mem hp with he | ⟨hold, _⟩
          · rw [he]
            exact Nat.lt_succ_self next
          · exact lt_trans (hinv.idxFresh p hold) (Nat.lt_succ_self next)
        · intro p hp
          rcases setAssoc_mem hp with he | ⟨hold, _⟩
          · subst he
            show (((l.addOrder H next).2) next).id = (H next).id
            rw [hH2next]
          · have hne : p.2 ≠ next := fun he =>
              absurd (he ▸ hinv.idxFresh p hold) (lt_irrefl next)
            show (((l.addOrder H next).2) p.2).id = p.1
            rw [hH2other p.2 hne, hinv.idxKey p hold]
        · intro x hx
          obtain ⟨lx, hlx, hlxo⟩ := mem_allOrders.mp hnextRes
          have hxne : x ≠ next := by
            intro he
            subst he
            exact hx lx (List.mem_append.mpr (Or.inr hlx)) hlxo
          show (((l.addOrder H next).2) x).limitPrice = none
          rw [hH2other x hxne]
          refine hinv.nonres x ?_
          intro l2 h2 hx2
          rcases List.mem_append.mp h2 with h2a | h2b
          · exact hx l2 (List.mem_append.mpr (Or.inl h2a)) hx2
          · have : x ∈ allOrders (replaceLevel ob.bids price (l.addOrder H next).1) :=
              (hallOrd x).mpr (Or.inl (mem_allOrders.mpr ⟨l2, h2b, hx2⟩))
            obtain ⟨l3, h3, hx3⟩ := mem_allOrders.mp this
            exact hx l3 (List.mem_append.mpr (Or.inr h3)) hx3
        · intro p hp
          rcases setAssoc_mem hp with he | ⟨hold, _⟩
          · subst he
            obtain ⟨lx, hlx, hlxo⟩ := mem_allOrders.mp hnextRes
            exact Or.inl ⟨lx, List.mem_append.mpr (Or.inr hlx), hlxo⟩
          · have hne : p.2 ≠ next := fun he =>
              absurd (he ▸ hinv.idxFresh p hold) (lt_irrefl next)
            rcases hinv.idxRes p hold with ⟨l2, h2, hx2⟩ | hz
            · rcases List.mem_append.mp h2 with h2a | h2b
              · exact Or.inl ⟨l2, List.mem_append.mpr (Or.inl h2a), hx2⟩
              · have : p.2 ∈ allOrders (replaceLevel ob.bids price (l.addOrder H next).1) :=
                  (hallOrd p.2).mpr (Or.inl (mem_allOrders.mpr ⟨l2, h2b, hx2⟩))
                obtain ⟨l3, h3, hx3⟩ := mem_allOrders.mp this
                exact Or.inl ⟨l3, List.mem_append.mpr (Or.inr h3), hx3⟩
            · refine Or.inr ?_
              show (((l.addOrder H next).2) p.2).size = 0
              rw [hH2other p.2 hne]
              exact hz
    | none =>
        have hdef : Orderbook.placeLimitOrder { ob with heap := H } price next
            = { heap := ((NewLimit price).addOrder H next).2, asks := ob.asks,
                bids := ob.bids ++ [((NewLimit price).addOrder H next).1],
                trades := ob.trades,
                ordersIdx := setAssoc ob.ordersIdx (H next).id next } := by
          unfold Orderbook.placeLimitOrder
          simp only [hb, hfind]
          simp
        obtain ⟨hbidInv, hallOrd⟩ := placeSide_new hbid1 hfind hb hbidFresh
        have hH2other : ∀ x, x ≠ next → ((NewLimit price).addOrder H next).2 x = ob.heap x := by
          intro x hx
          have : ((NewLimit price).addOrder H next).2 x = H x := hupd_other _ _ _ x hx
          rw [this, hHold x hx]
        have hH2next : (((NewLimit price).addOrder H next).2) next
            = { H next with limitPrice := some price } := hupd_same _ _ _
        have hnextRes : next ∈ allOrders (ob.bids ++ [((NewLimit price).addOrder H next).1]) :=
          (hallOrd next).mpr (Or.inr rfl)
        rw [hdef]
        refine ⟨?_, hbidInv, ?_, ?_, ?_, ?_⟩
        · refine (hask1.congr _ ?_).mono (Nat.le_succ next)
          intro l2 hl2 x hx
          have hxne : x ≠ next := fun he => haskFresh l2 hl2 (he ▸ hx)
          show ((NewLimit price).addOrder H next).2 x = H x
          exact hupd_other _ _ _ x hxne
        · intro p hp
          rcases setAssoc_mem hp with he | ⟨hold, _⟩
          · rw [he]
            exact Nat.lt_succ_self next
          · exact lt_trans (hinv.idxFresh p hold) (Nat.lt_succ_self next)
        · intro p hp
          rcases setAssoc_mem hp with he | ⟨hold, _⟩
          · subst he
            show ((((NewLimit price).addOrder H next).2) next).id = (H next).id
            rw [hH2next]
          · have hne : p.2 ≠ next := fun he =>
              absurd (he ▸ hinv.idxFresh p hold) (lt_irrefl next)
            show ((((NewLimit price).addOrder H next).2) p.2).id = p.1
            rw [hH2other p.2 hne, hinv.idxKey p hold]
        · intro x hx
          obtain ⟨lx, hlx, hlxo⟩ := mem_allOrders.mp hnextRes
          have hxne : x ≠ next := by
            intro he
            subst he
            exact hx lx (List.mem_append.mpr (Or.inr hlx)) hlxo
          show ((((NewLimit price).addOrder H next).2) x).limitPrice = none
          rw [hH2other x hxne]
          refine hinv.nonres x ?_
          intro l2 h2 hx2
          rcases List.mem_append.mp h2 with h2a | h2b
          · exact hx l2 (List.mem_append.mpr (Or.inl h2a)) hx2
          · have : x ∈ allOrders (ob.bids ++ [((NewLimit price).addOrder H next).1]) :=
              (hallOrd x).mpr (Or.inl (mem_allOrders.mpr ⟨l2, h2b, hx2⟩))
            obtain ⟨l3, h3, hx3⟩ := mem_allOrders.mp this
            exact hx l3 (List.mem_append.mpr (Or.inr h3)) hx3
        · intro p hp
          rcases setAssoc_mem hp with he | ⟨hold, _⟩
          · subst he
            obtain ⟨lx, hlx, hlxo⟩ := mem_allOrders.mp hnextRes
            exact Or.inl ⟨lx, List.mem_append.mpr (Or.inr hlx), hlxo⟩
          · have hne : p.2 ≠ next := fun he =>
              absurd (he ▸ hinv.idxFresh p hold) (lt_irrefl next)
            rcases hinv.idxRes p hold with ⟨l2, h2, hx2⟩ | hz
            · rcases List.mem_append.mp h2 with h2a | h2b
              · exact Or.inl ⟨l2, List.mem_append.mpr (Or.inl h2a), hx2⟩
              · have : p.2 ∈ allOrders (ob.bids ++ [((NewLimit price).addOrder H next).1]) :=
                  (hallOrd p.2).mpr (Or.inl (mem_allOrders.mpr ⟨l2, h2b, hx2⟩))
                obtain ⟨l3, h3, hx3⟩ := mem_allOrders.mp this
                exact Or.inl ⟨l3, List.mem_append.mpr (Or.inr h3), hx3⟩
            · refine Or.inr ?_
              show ((((NewLimit price).addOrder H next).2) p.2).size = 0
              rw [hH2other p.2 hne]
              exact hz
  · have hb' : (H next).bid = false := by simpa using hb
    cases hfind : ob.asks.find? (fun l => l.price == price) with
    | some l =>
        have hdef : Orderbook.placeLimitOrder { ob with heap := H } price next
            = { heap := (l.addOrder H next).2,
                asks := replaceLevel ob.asks price (l.addOrder H next).1,
                bids := ob.bids, trades := ob.trades,
                ordersIdx := setAssoc ob.ordersIdx (H next).id next } := by
          unfold Orderbook.placeLimitOrder
          simp only [hb', hfind]
          simp
        obtain ⟨haskInv, hallOrd⟩ := placeSide_found hask1 hfind hb' haskFresh
        have hH2other : ∀ x, x ≠ next → (l.addOrder H next).2 x = ob.heap x := by
          intro x hx
          have : (l.addOrder H next).2 x = H x := hupd_other _ _ _ x hx
          rw [this, hHold x hx]
        have hH2next : ((l.addOrder H next).2) next
            = { H next with limitPrice := some l.price } := hupd_same _ _ _
        have hnextRes : next ∈ allOrders (replaceLevel ob.asks price (l.addOrder H next).1) :=
          (hallOrd next).mpr (Or.inr rfl)
        rw [hdef]
        refine ⟨haskInv, ?_, ?_, ?_, ?_, ?_⟩
        · refine (hbid1.congr _ ?_).mono (Nat.le_succ next)
          intro l2 hl2 x hx
          have hxne : x ≠ next := fun he => hbidFresh l2 hl2 (he ▸ hx)
          show (l.addOrder H next).2 x = H x
          exact hupd_other _ _ _ x hxne
        · intro p hp
          rcases setAssoc_mem hp with he | ⟨hold, _⟩
          · rw [he]
            exact Nat.lt_succ_self next
          · exact lt_trans (hinv.idxFresh p hold) (Nat.lt_succ_self next)
        · intro p hp
          rcases setAssoc_mem hp with he | ⟨hold, _⟩
          · subst he
            show (((l.addOrder H next).2) next).id = (H next).id
            rw [hH2next]
          · have hne : p.2 ≠ next := fun he =>
              absurd (he ▸ hinv.idxFresh p hold) (lt_irrefl next)
            show (((l.addOrder H next).2) p.2).id = p.1
            rw [hH2other p.2 hne, hinv.idxKey p hold]
        · intro x hx
          obtain ⟨lx, hlx, hlxo⟩ := mem_allOrders.mp hnextRes
          have hxne : x ≠ next := by
            intro he
            subst he
            exact hx lx (List.mem_append.mpr (Or.inl hlx)) hlxo
          show (((l.addOrder H next).2) x).limitPrice = none
          rw [hH2other x hxne]
          refine hinv.nonres x ?_
          intro l2 h2 hx2
          rcases List.mem_append.mp h2 with h2a | h2b
          · have : x ∈ allOrders (replaceLevel ob.asks price (l.addOrder H next).1) :=
              (hallOrd x).mpr (Or.inl (mem_allOrders.mpr ⟨l2, h2a, hx2⟩))
            obtain ⟨l3, h3, hx3⟩ := mem_allOrders.mp this
            exact hx l3 (List.mem_append.mpr (Or.inl h3)) hx3
          · exact hx l2 (List.mem_append.mpr (Or.inr h2b)) hx2
        · intro p hp
          rcases setAssoc_mem hp with he | ⟨hold, _⟩
          · subst he
            obtain ⟨lx, hlx, hlxo⟩ := mem_allOrders.mp hnextRes
            exact Or.inl ⟨lx, List.mem_append.mpr (Or.inl hlx), hlxo⟩
          · have hne : p.2 ≠ next := fun he =>
              absurd (he ▸ hinv.idxFresh p hold) (lt_irrefl next)
            rcases hinv.idxRes p hold with ⟨l2, h2, hx2⟩ | hz
            · rcases List.mem_append.mp h2 with h2a | h2b
              · have : p.2 ∈ allOrders (replaceLevel ob.asks price (l.addOrder H next).1) :=
                  (hallOrd p.2).mpr (Or.inl (mem_allOrders.mpr ⟨l2, h2a, hx2⟩))
                obtain ⟨l3, h3, hx3⟩ := mem_allOrders.mp this
                exact Or.inl ⟨l3, List.mem_append.mpr (Or.inl h3), hx3⟩
              · exact Or.inl ⟨l2, List.mem_append.mpr (Or.inr h2b), hx2⟩
            · refine Or.inr ?_
              show (((l.addOrder H next).2) p.2).size = 0
              rw [hH2other p.2 hne]
              exact hz
    | none =>
        have hdef : Orderbook.placeLimitOrder { ob with heap := H } price next
            = { heap := ((NewLimit price).addOrder H next).2,
                asks := ob.asks ++ [((NewLimit price).addOrder H next).1],
                bids := ob.bids, trades := ob.trades,
                ordersIdx := setAssoc ob.ordersIdx (H next).id next } := by
          unfold Orderbook.placeLimitOrder
          simp only [hb', hfind]
          simp
        obtain ⟨haskInv, hallOrd⟩ := placeSide_new hask1 hfind hb' haskFresh
        have hH2other : ∀ x, x ≠ next → ((NewLimit price).addOrder H next).2 x = ob.heap x := by
          intro x hx
          have : ((NewLimit price).addOrder H next).2 x = H x := hupd_other _ _ _ x hx
          rw [this, hHold x hx]
        have hH2next : (((NewLimit price).addOrder H next).2) next
            = { H next with limitPrice := some price } := hupd_same _ _ _
        have hnextRes : next ∈ allOrders (ob.asks ++ [((NewLimit price).addOrder H next).1]) :=
          (hallOrd next).mpr (Or.inr rfl)
        rw [hdef]
        refine ⟨haskInv, ?_, ?_, ?_, ?_, ?_⟩
        · refine (hbid1.congr _ ?_).mono (Nat.le_succ next)
          intro l2 hl2 x hx
          have hxne : x ≠ next := fun he => hbidFresh l2 hl2 (he ▸ hx)
          show ((NewLimit price).addOrder H next).2 x = H x
          exact hupd_other _ _ _ x hxne
        · intro p hp
          rcases setAssoc_mem hp with he | ⟨hold, _⟩
          · rw [he]
            exact Nat.lt_succ_self next
          · exact lt_trans (hinv.idxFresh p hold) (Nat.lt_succ_self next)
        · intro p hp
          rcases setAssoc_mem hp with he | ⟨hold, _⟩
          · subst he
            show ((((NewLimit price).addOrder H next).2) next).id = (H next).id
            rw [hH2next]
          · have hne : p.2 ≠ next := fun he =>
              absurd (he ▸ hinv.idxFresh p hold) (lt_irrefl next)
            show ((((NewLimit price).addOrder H next).2) p.2).id = p.1
            rw [hH2other p.2 hne, hinv.idxKey p hold]
        · intro x hx
          obtain ⟨lx, hlx, hlxo⟩ := mem_allOrders.mp hnextRes
          have hxne : x ≠ next := by
            intro he
            subst he
            exact hx lx (List.mem_append.mpr (Or.inl hlx)) hlxo
          show ((((NewLimit price).addOrder H next).2) x).limitPrice = none
          rw [hH2other x hxne]
          refine hinv.nonres x ?_
          intro l2 h2 hx2
          rcases List.mem_append.mp h2 with h2a | h2b
          · have : x ∈ allOrders (ob.asks ++ [((NewLimit price).addOrder H next).1]) :=
              (hallOrd x).mpr (Or.inl (mem_allOrders.mpr ⟨l2, h2a, hx2⟩))
            obtain ⟨l3, h3, hx3⟩ := mem_allOrders.mp this
            exact hx l3 (List.mem_append.mpr (Or.inl h3)) hx3
          · exact hx l2 (List.mem_append.mpr (Or.inr h2b)) hx2
        · intro p hp
          rcases setAssoc_mem hp with he | ⟨hold, _⟩
          · subst he
            obtain ⟨lx, hlx, hlxo⟩ := mem_allOrders.mp hnextRes
            exact Or.inl ⟨lx, List.mem_append.mpr (Or.inl hlx), hlxo⟩
          · have hne : p.2 ≠ next := fun he =>
              absurd (he ▸ hinv.idxFresh p hold) (lt_irrefl next)
            rcases hinv.idxRes p hold with ⟨l2, h2, hx2⟩ | hz
            · rcases List.mem_append.mp h2 with h2a | h2b
              · have : p.2 ∈ allOrders (ob.asks ++ [((NewLimit price).addOrder H next).1]) :=
                  (hallOrd p.2).mpr (Or.inl (mem_allOrders.mpr ⟨l2, h2a, hx2⟩))
                obtain ⟨l3, h3, hx3⟩ := mem_allOrders.mp this
                exact Or.inl ⟨l3, List.mem_append.mpr (Or.inl h3), hx3⟩
              · exact Or.inl ⟨l2, List.mem_append.mpr (Or.inr h2b), hx2⟩
            · refine Or.inr ?_
              show ((((NewLimit price).addOrder H next).2) p.2).size = 0
              rw [hH2other p.2 hne]
              exact hz

theorem allOrders_perm_mem {ls1 ls2 : List Limit} (hp : ls1.Perm ls2) (x : Ref) :
    x ∈ allOrders ls1 ↔ x ∈ allOrders ls2 := by
  simp only [mem_allOrders]
  constructor
  · rintro ⟨l, hl, hx⟩
    exact ⟨l, hp.mem_iff.mp hl, hx⟩
  · rintro ⟨l, hl, hx⟩
    exact ⟨l, hp.mem_iff.mpr hl, hx⟩

/-- Distinct level prices together with the cross-level price law give true
pairwise disjointness of the resident lists. -/
theorem SideInv.disjLevels {ls : List Limit} {H : Heap} {flag : Bool} {next : Ref}
    (si : SideInv ls H flag next) : DisjLevels ls := by
  have hne : ls.Pairwise (fun a b => a.price ≠ b.price) :=
    List.pairwise_map.mp si.prices
  refine hne.imp_of_mem ?_
  intro a b ha hb hpne r hra hrb
  exact hpne (si.disj a ha b hb r hra hrb)

/-- Sweeping a side (presented in any order) with a fresh incoming reference
preserves the side invariant on the surviving levels and yields the frame,
field-preservation and clearing facts needed for the book invariant. -/
theorem sweep_sideInv {ls : List Limit} {H : Heap} {flag : Bool} {next : Ref}
    (si : SideInv ls H flag next) {sls : List Limit} (hperm : sls.Perm ls) :
    SideInv (marketSweep next sls H).2.1 (marketSweep next sls H).1 flag (next + 1) ∧
    (∀ x, x ≠ next → x ∉ allOrders ls → (marketSweep next sls H).1 x = H x) ∧
    (∀ x, (((marketSweep next sls H).1) x).bid = (H x).bid ∧
      (((marketSweep next sls H).1) x).timestamp = (H x).timestamp ∧
      (((marketSweep next sls H).1) x).id = (H x).id ∧
      (((marketSweep next sls H).1) x).userID = (H x).userID) ∧
    (∀ x ∈ allOrders ls, x ∉ allOrders (marketSweep next sls H).2.1 →
      (((marketSweep next sls H).1) x).limitPrice = none ∧
      (((marketSweep next sls H).1) x).size = 0) ∧
    (((marketSweep next sls H).1) next).limitPrice = (H next).limitPrice := by
  have hinc : ∀ l ∈ sls, next ∉ l.orders := by
    intro l hl hx
    exact absurd (si.fresh l (hperm.mem_iff.mp hl) next hx) (lt_irrefl next)
  have hnd : ∀ l ∈ sls, l.orders.Nodup :=
    fun l hl => si.ordNd l (hperm.mem_iff.mp hl)
  have hdisj : DisjLevels sls :=
    (hperm.pairwise_iff (fun hab r hrb hra => hab r hra hrb)).mpr si.disjLevels
  have htv : ∀ l ∈ sls, l.totalVolume = levelSum H l :=
    fun l hl => si.vol l (hperm.mem_iff.mp hl)
  obtain ⟨f1, f2, f3, f4, f5, f6, f7, f8, f9, f10, _f11⟩ :=
    marketSweep_spec next sls H hinc hnd hdisj htv
  have horig : ∀ l1 ∈ (marketSweep next sls H).2.1, ∃ l0 ∈ ls, l1.price = l0.price ∧
      ∀ x ∈ l1.orders, x ∈ l0.orders := by
    intro l1 h1
    obtain ⟨l0, h0, hp, hsub⟩ := f4 l1 h1
    exact ⟨l0, hperm.mem_iff.mp h0, hp, hsub⟩
  refine ⟨⟨f2, ?_, ?_, f3, ?_, ?_, ?_⟩, ?_, f7, ?_, f10⟩
  · intro l hl
    exact f1 l hl
  · refine f5.nodup ?_
    exact (hperm.map Limit.price).nodup_iff.mpr si.prices
  · intro l1 h1 l2 h2 x hx1 hx2
    obtain ⟨l0a, h0a, hpa, hsa⟩ := horig l1 h1
    obtain ⟨l0b, h0b, hpb, hsb⟩ := horig l2 h2
    rw [hpa, hpb]
    exact si.disj l0a h0a l0b h0b x (hsa x hx1) (hsb x hx2)
  · intro l1 h1 x hx
    obtain ⟨l0, h0, hp, hsub⟩ := horig l1 h1
    obtain ⟨hbid, hlp⟩ := si.side l0 h0 x (hsub x hx)
    refine ⟨(f7 x).1.trans hbid, ?_⟩
    rw [f8 l1 h1 x hx, hlp, hp]
  · intro l1 h1 x hx
    obtain ⟨l0, h0, _, hsub⟩ := horig l1 h1
    exact lt_trans (si.fresh l0 h0 x (hsub x hx)) (Nat.lt_succ_self next)
  · intro x hxn hxa
    exact f6 x hxn (fun hm => hxa ((allOrders_perm_mem hperm x).mp hm))
  · intro x hxa hxs
    exact f9 x ((allOrders_perm_mem hperm x).mpr hxa) hxs

/-- A `PlaceMarketOrder` call that returns normally (no panic) on a freshly
allocated order preserves the book invariant. -/
theorem placeMarket_inv (ob : Orderbook) (next : Ref) (hinv : BookInv ob next)
    (o : Order) (ho : o.limitPrice = none) (now : Int) (ms : List Matched)
    (ob2 : Orderbook)
    (hok : Orderbook.placeMarketOrder { ob with heap := hupd ob.heap next o } next now
      = .ok ms ob2) :
    BookInv ob2 (next + 1) := by
  set H1 : Heap := hupd ob.heap next o with hH1def
  have hH1old : ∀ x, x ≠ next → H1 x = ob.heap x := fun x hx => hupd_other _ _ _ x hx
  have hH1next : H1 next = o := hupd_same _ _ _
  have haskFresh : ∀ l ∈ ob.asks, ∀ x ∈ l.orders, x ≠ next := by
    intro l hl x hx he
    exact absurd (he ▸ hinv.askInv.fresh l hl x hx) (lt_irrefl next)
  have hbidFresh : ∀ l ∈ ob.bids, ∀ x ∈ l.orders, x ≠ next := by
    intro l hl x hx he
    exact absurd (he ▸ hinv.bidInv.fresh l hl x hx) (lt_irrefl next)
  have hask1 : SideInv ob.asks H1 false next :=
    hinv.askInv.congr H1 (fun l hl x hx => hH1old x (haskFresh l hl x hx))
  have hbid1 : SideInv ob.bids H1 true next :=
    hinv.bidInv.congr H1 (fun l hl x hx => hH1old x (hbidFresh l hl x hx))
  have hnotask : ∀ x, x ∈ allOrders ob.bids → x ∉ allOrders ob.asks := by
    intro x hxb hxa
    obtain ⟨lb, hlb, hxlb⟩ := mem_allOrders.mp hxb
    obtain ⟨la, hla, hxla⟩ := mem_allOrders.mp hxa
    have h1 := (hask1.side la hla x hxla).1
    have h2 := (hbid1.side lb hlb x hxlb).1
    rw [h1] at h2
    cases h2
  have hnotbid : ∀ x, x ∈ allOrders ob.asks → x ∉ allOrders ob.bids := by
    intro x hxa hxb
    exact hnotask x hxb hxa
  unfold Orderbook.placeMarketOrder at hok
  simp only [hH1next] at hok
  by_cases hb : o.bid
  · rw [if_pos hb] at hok
    by_cases hvol : Orderbook.askTotalVolume { ob with heap := H1 } < o.size
    · rw [if_pos hvol] at hok
      cases hok
    · rw [if_neg hvol] at hok
      by_cases htr : (ob.trades ++ (marketSweep next (sortAsks ob.asks) H1).2.2.map
          (fun m => ({ price := m.price, size := m.sizeFilled, bid := o.bid,
                       timestamp := now } : Trade))).isEmpty
      · rw [if_pos htr] at hok
        cases hok
      · rw [if_neg htr] at hok
        injection hok with h1 h2
        subst h2
        obtain ⟨S, Fframe, Ffields, Fclear, FincLP⟩ :=
          sweep_sideInv hask1 (sortAsks_perm ob.asks)
        refine ⟨S, ?_, ?_, ?_, ?_, ?_⟩
        · refine (hbid1.congr _ ?_).mono (Nat.le_succ next)
          intro l hl x hx
          refine Fframe x (hbidFresh l hl x hx) ?_
          exact hnotask x (mem_allOrders.mpr ⟨l, hl, hx⟩)
        · intro p hp
          exact lt_trans (hinv.idxFresh p hp) (Nat.lt_succ_self next)
        · intro p hp
          have hne : p.2 ≠ next := fun he =>
            absurd (he ▸ hinv.idxFresh p hp) (lt_irrefl next)
          show ((marketSweep next (sortAsks ob.asks) H1).1 p.2).id = p.1
          rw [(Ffields p.2).2.2.1, hH1old p.2 hne, hinv.idxKey p hp]
        · intro x hnr
          show ((marketSweep next (sortAsks ob.asks) H1).1 x).limitPrice = none
          by_cases hxn : x = next
          · subst hxn
            rw [FincLP, hH1next, ho]
          · by_cases hres : x ∈ allOrders ob.asks
            · refine (Fclear x hres ?_).1
              intro hm
              obtain ⟨l, hl, hxl⟩ := mem_allOrders.mp hm
              exact hnr l (List.mem_append.mpr (Or.inl hl)) hxl
            · rw [Fframe x hxn hres, hH1old x hxn]
              refine hinv.nonres x ?_
              intro l hl hxl
              rcases List.mem_append.mp hl with hla | hlb
              · exact hres (mem_allOrders.mpr ⟨l, hla, hxl⟩)
              · exact hnr l (List.mem_append.mpr (Or.inr hlb)) hxl
        · intro p hp
          have hne : p.2 ≠ next := fun he =>
            absurd (he ▸ hinv.idxFresh p hp) (lt_irrefl next)
          by_cases hres : p.2 ∈ allOrders ob.asks
          · by_cases hsurv : p.2 ∈ allOrders (marketSweep next (sortAsks ob.asks) H1).2.1
            · obtain ⟨l, hl, hxl⟩ := mem_allOrders.mp hsurv
              exact Or.inl ⟨l, List.mem_append.mpr (Or.inl hl), hxl⟩
            · exact Or.inr (Fclear p.2 hres hsurv).2
          · rcases hinv.idxRes p hp with ⟨l, hl, hxl⟩ | hz
            · rcases List.mem_append.mp hl with hla | hlb
              · exact absurd (mem_allOrders.mpr ⟨l, hla, hxl⟩) hres
              · exact Or.inl ⟨l, List.mem_append.mpr (Or.inr hlb), hxl⟩
            · refine Or.inr ?_
              show ((marketSweep next (sortAsks ob.asks) H1).1 p.2).size = 0
              rw [Fframe p.2 hne hres, hH1old p.2 hne]
              exact hz
  · rw [if_neg hb] at hok
    by_cases hvol : Orderbook.bidTotalVolume { ob with heap := H1 } < o.size
    · rw [if_pos hvol] at hok
      cases hok
    · rw [if_neg hvol] at hok
      by_cases htr : (ob.trades ++ (marketSweep next (sortBids ob.bids) H1).2.2.map
          (fun m => ({ price := m.price, size := m.sizeFilled, bid := o.bid,
                       timestamp := now } : Trade))).isEmpty
      · rw [if_pos htr] at hok
        cases hok
      · rw [if_neg htr] at hok
        injection hok with h1 h2
        subst h2
        obtain ⟨S, Fframe, Ffields, Fclear, FincLP⟩ :=
          sweep_sideInv hbid1 (sortBids_perm ob.bids)
        refine ⟨?_, S, ?_, ?_, ?_, ?_⟩
        · refine (hask1.congr _ ?_).mono (Nat.le_succ next)
          intro l hl x hx
          refine Fframe x (haskFresh l hl x hx) ?_
          exact hnotbid x (mem_allOrders.mpr ⟨l, hl, hx⟩)
        · intro p hp
          exact lt_trans (hinv.idxFresh p hp) (Nat.lt_succ_self next)
        · intro p hp
          have hne : p.2 ≠ next := fun he =>
            absurd (he ▸ hinv.idxFresh p hp) (lt_irrefl next)
          show ((marketSweep next (sortBids ob.bids) H1).1 p.2).id = p.1
          rw [(Ffields p.2).2.2.1, hH1old p.2 hne, hinv.idxKey p hp]
        · intro x hnr
          show ((marketSweep next (sortBids ob.bids) H1).1 x).limitPrice = none
          by_cases hxn : x = next
          · subst hxn
            rw [FincLP, hH1next, ho]
          · by_cases hres : x ∈ allOrders ob.bids
            · refine (Fclear x hres ?_).1
              intro hm
              obtain ⟨l, hl, hxl⟩ := mem_allOrders.mp hm
              exact hnr l (List.mem_append.mpr (Or.inr hl)) hxl
            · rw [Fframe x hxn hres, hH1old x hxn]
              refine hinv.nonres x ?_
              intro l hl hxl
              rcases List.mem_append.mp hl with hla | hlb
              · exact hnr l (List.mem_append.mpr (Or.inl hla)) hxl
              · exact hres (mem_allOrders.mpr ⟨l, hlb, hxl⟩)
        · intro p hp
          have hne : p.2 ≠ next := fun he =>
            absurd (he ▸ hinv.idxFresh p hp) (lt_irrefl next)
          by_cases hres : p.2 ∈ allOrders ob.bids
          · by_cases hsurv : p.2 ∈ allOrders (marketSweep next (sortBids ob.bids) H1).2.1
            · obtain ⟨l, hl, hxl⟩ := mem_allOrders.mp hsurv
              exact Or.inl ⟨l, List.mem_append.mpr (Or.inr hl), hxl⟩
            · exact Or.inr (Fclear p.2 hres hsurv).2
          · rcases hinv.idxRes p hp with ⟨l, hl, hxl⟩ | hz
            · rcases List.mem_append.mp hl with hla | hlb
              · exact Or.inl ⟨l, List.mem_append.mpr (Or.inl hla), hxl⟩
              · exact absurd (mem_allOrders.mpr ⟨l, hlb, hxl⟩) hres
            · refine Or.inr ?_
              show ((marketSweep next (sortBids ob.bids) H1).1 p.2).size = 0
              rw [Fframe p.2 hne hres, hH1old p.2 hne]
              exact hz

/-- With distinct level prices, a member of `replaceLevel ls p nl` is either
the replacement or an original level whose price is not `p`. -/
theorem mem_replaceLevel_ne {ls : List Limit} (hnd : (ls.map Limit.price).Nodup)
    {p : ℚ} {nl x : Limit} (hx : x ∈ replaceLevel ls p nl) :
    x = nl ∨ (x ∈ ls ∧ x.price ≠ p) := by
  induction ls with
  | nil => cases hx
  | cons a t ih =>
      have hndt : (t.map Limit.price).Nodup := (List.nodup_cons.mp hnd).2
      by_cases ha : a.price = p
      · have he : replaceLevel (a :: t) p nl = nl :: t := by
          show (if a.price = p then nl :: t else a :: replaceLevel t p nl) = nl :: t
          rw [if_pos ha]
        rw [he] at hx
        rcases List.mem_cons.mp hx with h1 | h1
        · exact Or.inl h1
        · refine Or.inr ⟨List.mem_cons_of_mem _ h1, ?_⟩
          intro hxp
          have : a.price ∈ t.map Limit.price :=
            List.mem_map.mpr ⟨x, h1, hxp.trans ha.symm⟩
          exact (List.nodup_cons.mp hnd).1 this
      · have he : replaceLevel (a :: t) p nl = a :: replaceLevel t p nl := by
          show (if a.price = p then nl :: t else a :: replaceLevel t p nl)
            = a :: replaceLevel t p nl
          rw [if_neg ha]
        rw [he] at hx
        rcases List.mem_cons.mp hx with h1 | h1
        · exact Or.inr ⟨h1 ▸ List.mem_cons_self _ _, h1 ▸ ha⟩
        · rcases ih hndt h1 with h2 | ⟨h2, h3⟩
          · exact Or.inl h2
          · exact Or.inr ⟨List.mem_cons_of_mem _ h2, h3⟩

/-- Dropping a whole price level preserves the side invariant. -/
theorem SideInv.remove {ls : List Limit} {H : Heap} {flag : Bool} {next : Ref}
    (si : SideInv ls H flag next) (p : ℚ) :
    SideInv (removeLevel ls p) H flag next := by
  refine ⟨?_, ?_, ?_, ?_, ?_, ?_, ?_⟩
  · exact fun l hl => si.vol l (removeLevel_sub hl).1
  · exact fun l hl => si.nonempty l (removeLevel_sub hl).1
  · exact (removeLevel_map_price_sublist ls p).nodup si.prices
  · exact fun l hl => si.ordNd l (removeLevel_sub hl).1
  · exact fun l1 h1 l2 h2 => si.disj l1 (removeLevel_sub h1).1 l2 (removeLevel_sub h2).1
  · exact fun l hl => si.side l (removeLevel_sub hl).1
  · exact fun l hl => si.fresh l (removeLevel_sub hl).1

/-- Replacing one level by a shrunk level with the same price preserves the
side invariant. -/
theorem SideInv.replace {ls : List Limit} {H : Heap} {flag : Bool} {next : Ref}
    (si : SideInv ls H flag next) {l nl : Limit} (hl : l ∈ ls)
    (hp : nl.price = l.price)
    (hords : ∀ x ∈ nl.orders, x ∈ l.orders) (hnd : nl.orders.Nodup)
    (hne : nl.orders ≠ []) (hvol : nl.totalVolume = levelSum H nl) :
    SideInv (replaceLevel ls l.price nl) H flag next := by
  have hmem : ∀ {x : Limit}, x ∈ replaceLevel ls l.price nl → x = nl ∨ x ∈ ls :=
    fun hx => mem_of_mem_replaceLevel hx
  refine ⟨?_, ?_, ?_, ?_, ?_, ?_, ?_⟩
  · intro l2 h2
    rcases hmem h2 with he | h3
    · exact he ▸ hvol
    · exact si.vol l2 h3
  · intro l2 h2
    rcases hmem h2 with he | h3
    · exact he ▸ hne
    · exact si.nonempty l2 h3
  · rw [replaceLevel_map_price ls l.price nl hp]
    exact si.prices
  · intro l2 h2
    rcases hmem h2 with he | h3
    · exact he ▸ hnd
    · exact si.ordNd l2 h3
  · intro l1 h1 l2 h2 x hx1 hx2
    rcases hmem h1 with he1 | h3
    · rcases hmem h2 with he2 | h4
      · rw [he1, he2]
      · subst he1
        rw [hp]
        exact si.disj l hl l2 h4 x (hords x hx1) hx2
    · rcases hmem h2 with he2 | h4
      · subst he2
        rw [hp]
        exact (si.disj l hl l1 h3 x (hords x hx2) hx1).symm
      · exact si.disj l1 h3 l2 h4 x hx1 hx2
  · intro l2 h2 x hx
    rcases hmem h2 with he | h3
    · subst he
      obtain ⟨hb, hlp⟩ := si.side l hl x (hords x hx)
      exact ⟨hb, by rw [hlp, hp]⟩
    · exact si.side l2 h3 x hx
  · intro l2 h2 x hx
    rcases hmem h2 with he | h3
    · exact si.fresh l hl x (hords x (he ▸ hx))
    · exact si.fresh l2 h3 x hx

/-- A `CancelOrder` call that returns normally (no nil dereference) preserves
the book invariant; cancellation allocates nothing, so the freshness bound is
unchanged. -/
theorem cancel_inv (ob : Orderbook) (next : Ref) (hinv : BookInv ob next)
    (r : Ref) (ob2 : Orderbook) (hok : ob.cancelOrder r = .ok ob2) :
    BookInv ob2 next := by
  cases hlpv : (ob.heap r).limitPrice with
  | none =>
      unfold Orderbook.cancelOrder at hok
      simp only [hlpv] at hok
      cases hok
  | some price =>
      have hres : ∃ l ∈ ob.asks ++ ob.bids, r ∈ l.orders := by
        by_contra hc
        push_neg at hc
        have := hinv.nonres r hc
        rw [this] at hlpv
        cases hlpv
      obtain ⟨lr, hlr, hrlr⟩ := hres
      unfold Orderbook.cancelOrder at hok
      simp only [hlpv] at hok
      rcases List.mem_append.mp hlr with hlrA | hlrB
      · -- the order rests on the ask side
        obtain ⟨hbidr, hlpr⟩ := hinv.askInv.side lr hlrA r hrlr
        have hprice : lr.price = price := by
          rw [hlpr] at hlpv
          exact Option.some.inj hlpv
        have hfind : ob.asks.find? (fun l => l.price == price) = some lr :=
          find?_level_eq hinv.askInv.prices hlrA hprice
        simp only [hbidr, Bool.false_eq_true, if_false, hfind] at hok
        have hndlr : lr.orders.Nodup := hinv.askInv.ordNd lr hlrA
        have hperm : ((lr.deleteOrder ob.heap r).1.orders).Perm (lr.orders.erase r) :=
          deleteOrder_orders_perm lr ob.heap r hndlr
        have hH2other : ∀ x, x ≠ r → (lr.deleteOrder ob.heap r).2 x = ob.heap x :=
          fun x hx => deleteOrder_heap_other lr ob.heap r x hx
        have hnotinr : ∀ l2 ∈ ob.asks, l2.price ≠ lr.price → r ∉ l2.orders := by
          intro l2 h2 hpne hmem
          exact hpne (hinv.askInv.disj l2 h2 lr hlrA r hmem hrlr)
        have hnotbid : ∀ l2 ∈ ob.bids, r ∉ l2.orders := by
          intro l2 h2 hmem
          have := (hinv.bidInv.side l2 h2 r hmem).1
          rw [hbidr] at this
          cases this
        have herne : ∀ x ∈ lr.orders.erase r, x ≠ r := by
          intro x hx
          exact (hndlr.mem_erase_iff.mp hx).1
        have hbid2 : SideInv ob.bids (lr.deleteOrder ob.heap r).2 true next :=
          hinv.bidInv.congr _ (fun l2 h2 x hx =>
            hH2other x (fun he => hnotbid l2 h2 (he ▸ hx)))
        have hidxkey2 : ∀ p ∈ delAssoc ob.ordersIdx (ob.heap r).id,
            (((lr.deleteOrder ob.heap r).2) p.2).id = p.1 := by
          intro p hp
          rw [(deleteOrder_heap_fields lr ob.heap r p.2).2.2.1]
          exact hinv.idxKey p (delAssoc_mem hp).1
        have hidxfresh2 : ∀ p ∈ delAssoc ob.ordersIdx (ob.heap r).id, p.2 < next :=
          fun p hp => hinv.idxFresh p (delAssoc_mem hp).1
        have hidxner : ∀ p ∈ delAssoc ob.ordersIdx (ob.heap r).id, p.2 ≠ r := by
          intro p hp he
          have h1 := (delAssoc_mem hp).2
          have h2 := hinv.idxKey p (delAssoc_mem hp).1
          rw [he] at h2
          exact h1 h2.symm
        by_cases hemp : ((lr.deleteOrder ob.heap r).1.orders).isEmpty
        · rw [if_pos hemp] at hok
          injection hok with h2
          subst h2
          have hernil : lr.orders.erase r = [] := by
            have h0 : (lr.deleteOrder ob.heap r).1.orders = [] := by simpa using hemp
            exact (h0 ▸ hperm).nil_eq.symm
          refine ⟨?_, hbid2, hidxfresh2, hidxkey2, ?_, ?_⟩
          · refine (hinv.askInv.remove price).congr _ ?_
            intro l2 h2 x hx
            refine hH2other x ?_
            intro he
            exact hnotinr l2 (removeLevel_sub h2).1
              (fun hpe => (removeLevel_sub h2).2 (hpe.trans hprice)) (he ▸ hx)
          · intro x hnr
            by_cases hxr : x = r
            · rw [hxr]
              exact deleteOrder_heap_limitPrice_self lr ob.heap r
            · show (((lr.deleteOrder ob.heap r).2) x).limitPrice = none
              rw [hH2other x hxr]
              refine hinv.nonres x ?_
              intro l2 h2 hx2
              rcases List.mem_append.mp h2 with h2a | h2b
              · by_cases hpe : l2.price = lr.price
                · have h2lr : l2 = lr := level_eq_of_price_eq hinv.askInv.prices h2a hlrA hpe
                  subst h2lr
                  have : x ∈ l2.orders.erase r := (hndlr.mem_erase_iff).mpr ⟨hxr, hx2⟩
                  rw [hernil] at this
                  cases this
                · exact hnr l2 (List.mem_append.mpr (Or.inl
                    (mem_removeLevel h2a (fun hq => hpe (hq.trans hprice.symm))))) hx2
              · exact hnr l2 (List.mem_append.mpr (Or.inr h2b)) hx2
          · intro p hp
            have hpold := (delAssoc_mem hp).1
            rcases hinv.idxRes p hpold with ⟨l2, h2, hx2⟩ | hz
            · rcases List.mem_append.mp h2 with h2a | h2b
              · by_cases hpe : l2.price = lr.price
                · have h2lr : l2 = lr := level_eq_of_price_eq hinv.askInv.prices h2a hlrA hpe
                  subst h2lr
                  have : p.2 ∈ l2.orders.erase r :=
                    (hndlr.mem_erase_iff).mpr ⟨hidxner p hp, hx2⟩
                  rw [hernil] at this
                  cases this
                · exact Or.inl ⟨l2, List.mem_append.mpr (Or.inl
                    (mem_removeLevel h2a (fun hq => hpe (hq.trans hprice.symm)))), hx2⟩
              · exact Or.inl ⟨l2, List.mem_append.mpr (Or.inr h2b), hx2⟩
            · refine Or.inr ?_
              show ((((lr.deleteOrder ob.heap r).2)) p.2).size = 0
              rw [deleteOrder_heap_size]
              exact hz
        · rw [if_neg hemp] at hok
          injection hok with h2
          subst h2
          have hnlords : ∀ x ∈ (lr.deleteOrder ob.heap r).1.orders, x ∈ lr.orders :=
            fun x hx => (hndlr.mem_erase_iff.mp (hperm.mem_iff.mp hx)).2
          have hnlner : ∀ x ∈ (lr.deleteOrder ob.heap r).1.orders, x ≠ r :=
            fun x hx => herne x (hperm.mem_iff.mp hx)
          have hnlprice : (lr.deleteOrder ob.heap r).1.price = lr.price :=
            deleteOrder_price lr ob.heap r
          have hask3 : SideInv (replaceLevel ob.asks lr.price
              (lr.deleteOrder ob.heap r).1) ob.heap false next := by
            refine hinv.askInv.replace hlrA hnlprice hnlords (hperm.symm.nodup (hndlr.erase r)) ?_ ?_
            · intro h0
              exact hemp (by simp [h0])
            · rw [deleteOrder_totalVolume, levelSum_eq_sumSizes,
                sumSizes_perm ob.heap hperm, sumSizes_erase ob.heap hrlr,
                hinv.askInv.vol lr hlrA, levelSum_eq_sumSizes]
          have hgoalprice : replaceLevel ob.asks price (lr.deleteOrder ob.heap r).1
              = replaceLevel ob.asks lr.price (lr.deleteOrder ob.heap r).1 := by
            rw [hprice]
          rw [hgoalprice]
          refine ⟨?_, hbid2, hidxfresh2, hidxkey2, ?_, ?_⟩
          · refine hask3.congr _ ?_
            intro l2 h2 x hx
            refine hH2other x ?_
            intro he
            rcases mem_replaceLevel_ne hinv.askInv.prices h2 with he2 | ⟨h3, hpne⟩
            · exact hnlner x (he2 ▸ hx) he
            · exact hnotinr l2 h3 hpne (he ▸ hx)
          · intro x hnr
            by_cases hxr : x = r
            · rw [hxr]
              exact deleteOrder_heap_limitPrice_self lr ob.heap r
            · show (((lr.deleteOrder ob.heap r).2) x).limitPrice = none
              rw [hH2other x hxr]
              refine hinv.nonres x ?_
              intro l2 h2 hx2
              rcases List.mem_append.mp h2 with h2a | h2b
              · by_cases hpe : l2.price = lr.price
                · have h2lr : l2 = lr := level_eq_of_price_eq hinv.askInv.prices h2a hlrA hpe
                  subst h2lr
                  have hxe : x ∈ (l2.deleteOrder ob.heap r).1.orders :=
                    hperm.mem_iff.mpr ((hndlr.mem_erase_iff).mpr ⟨hxr, hx2⟩)
                  refine hnr (l2.deleteOrder ob.heap r).1 (List.mem_append.mpr (Or.inl ?_)) hxe
                  refine replaceLevel_mem_self _ _ _ ⟨l2, h2a, rfl⟩
                · exact hnr l2 (List.mem_append.mpr (Or.inl
                    (mem_replaceLevel_of_ne _ _ _ _ h2a hpe))) hx2
              · exact hnr l2 (List.mem_append.mpr (Or.inr h2b)) hx2
          · intro p hp
            have hpold := (delAssoc_mem hp).1
            rcases hinv.idxRes p hpold with ⟨l2, h2, hx2⟩ | hz
            · rcases List.mem_append.mp h2 with h2a | h2b
              · by_cases hpe : l2.price = lr.price
                · have h2lr : l2 = lr := level_eq_of_price_eq hinv.askInv.prices h2a hlrA hpe
                  subst h2lr
                  have hxe : p.2 ∈ (l2.deleteOrder ob.heap r).1.orders :=
                    hperm.mem_iff.mpr ((hndlr.mem_erase_iff).mpr ⟨hidxner p hp, hx2⟩)
                  exact Or.inl ⟨(l2.deleteOrder ob.heap r).1, List.mem_append.mpr
                    (Or.inl (replaceLevel_mem_self _ _ _ ⟨l2, h2a, rfl⟩)), hxe⟩
                · exact Or.inl ⟨l2, List.mem_append.mpr (Or.inl
                    (mem_replaceLevel_of_ne _ _ _ _ h2a hpe)), hx2⟩
              · exact Or.inl ⟨l2, List.mem_append.mpr (Or.inr h2b), hx2⟩
            · refine Or.inr ?_
              show ((((lr.deleteOrder ob.heap r).2)) p.2).size = 0
              rw [deleteOrder_heap_size]
              exact hz
      · -- the order rests on the bid side
        obtain ⟨hbidr, hlpr⟩ := hinv.bidInv.side lr hlrB r hrlr
        have hprice : lr.price = price := by
          rw [hlpr] at hlpv
          exact Option.some.inj hlpv
        have hfind : ob.bids.find? (fun l => l.price == price) = some lr :=
          find?_level_eq hinv.bidInv.prices hlrB hprice
        simp only [hbidr, eq_self_iff_true, if_true, hfind] at hok
        have hndlr : lr.orders.Nodup := hinv.bidInv.ordNd lr hlrB
        have hperm : ((lr.deleteOrder ob.heap r).1.orders).Perm (lr.orders.erase r) :=
          deleteOrder_orders_perm lr ob.heap r hndlr
        have hH2other : ∀ x, x ≠ r → (lr.deleteOrder ob.heap r).2 x = ob.heap x :=
          fun x hx => deleteOrder_heap_other lr ob.heap r x hx
        have hnotinr : ∀ l2 ∈ ob.bids, l2.price ≠ lr.price → r ∉ l2.orders := by
          intro l2 h2 hpne hmem
          exact hpne (hinv.bidInv.disj l2 h2 lr hlrB r hmem hrlr)
        have hnotask : ∀ l2 ∈ ob.asks, r ∉ l2.orders := by
          intro l2 h2 hmem
          have := (hinv.askInv.side l2 h2 r hmem).1
          rw [hbidr] at this
          cases this
        have herne : ∀ x ∈ lr.orders.erase r, x ≠ r := by
          intro x hx
          exact (hndlr.mem_erase_iff.mp hx).1
        have hask2 : SideInv ob.asks (lr.deleteOrder ob.heap r).2 false next :=
          hinv.askInv.congr _ (fun l2 h2 x hx =>
            hH2other x (fun he => hnotask l2 h2 (he ▸ hx)))
        have hidxkey2 : ∀ p ∈ delAssoc ob.ordersIdx (ob.heap r).id,
            (((lr.deleteOrder ob.heap r).2) p.2).id = p.1 := by
          intro p hp
          rw [(deleteOrder_heap_fields lr ob.heap r p.2).2.2.1]
          exact hinv.idxKey p (delAssoc_mem hp).1
        have hidxfresh2 : ∀ p ∈ delAssoc ob.ordersIdx (ob.heap r).id, p.2 < next :=
          fun p hp => hinv.idxFresh p (delAssoc_mem hp).1
        have hidxner : ∀ p ∈ delAssoc ob.ordersIdx (ob.heap r).id, p.2 ≠ r := by
          intro p hp he
          have h1 := (delAssoc_mem hp).2
          have h2 := hinv.idxKey p (delAssoc_mem hp).1
          rw [he] at h2
          exact h1 h2.symm
        by_cases hemp : ((lr.deleteOrder ob.heap r).1.orders).isEmpty
        · rw [if_pos hemp] at hok
          injection hok with h2
          subst h2
          have hernil : lr.orders.erase r = [] := by
            have h0 : (lr.deleteOrder ob.heap r).1.orders = [] := by simpa using hemp
            exact (h0 ▸ hperm).nil_eq.symm
          refine ⟨hask2, ?_, hidxfresh2, hidxkey2, ?_, ?_⟩
          · refine (hinv.bidInv.remove price).congr _ ?_
            intro l2 h2 x hx
            refine hH2other x ?_
            intro he
            exact hnotinr l2 (removeLevel_sub h2).1
              (fun hpe => (removeLevel_sub h2).2 (hpe.trans hprice)) (he ▸ hx)
          · intro x hnr
            by_cases hxr : x = r
            · rw [hxr]
              exact deleteOrder_heap_limitPrice_self lr ob.heap r
            · show (((lr.deleteOrder ob.heap r).2) x).limitPrice = none
              rw [hH2other x hxr]
              refine hinv.nonres x ?_
              intro l2 h2 hx2
              rcases List.mem_append.mp h2 with h2a | h2b
              · exact hnr l2 (List.mem_append.mpr (Or.inl h2a)) hx2
              · by_cases hpe : l2.price = lr.price
                · have h2lr : l2 = lr := level_eq_of_price_eq hinv.bidInv.prices h2b hlrB hpe
                  subst h2lr
                  have : x ∈ l2.orders.erase r := (hndlr.mem_erase_iff).mpr ⟨hxr, hx2⟩
                  rw [hernil] at this
                  cases this
                · exact hnr l2 (List.mem_append.mpr (Or.inr
                    (mem_removeLevel h2b (fun hq => hpe (hq.trans hprice.symm))))) hx2
          · intro p hp
            have hpold := (delAssoc_mem hp).1
            rcases hinv.idxRes p hpold with ⟨l2, h2, hx2⟩ | hz
            · rcases List.mem_append.mp h2 with h2a | h2b
              · exact Or.inl ⟨l2, List.mem_append.mpr (Or.inl h2a), hx2⟩
              · by_cases hpe : l2.price = lr.price
                · have h2lr : l2 = lr := level_eq_of_price_eq hinv.bidInv.prices h2b hlrB hpe
                  subst h2lr
                  have : p.2 ∈ l2.orders.erase r :=
                    (hndlr.mem_erase_iff).mpr ⟨hidxner p hp, hx2⟩
                  rw [hernil] at this
                  cases this
                · exact Or.inl ⟨l2, List.mem_append.mpr (Or.inr
                    (mem_removeLevel h2b (fun hq => hpe (hq.trans hprice.symm)))), hx2⟩
            · refine Or.inr ?_
              show ((((lr.deleteOrder ob.heap r).2)) p.2).size = 0
              rw [deleteOrder_heap_size]
              exact hz
        · rw [if_neg hemp] at hok
          injection hok with h2
          subst h2
          have hnlords : ∀ x ∈ (lr.deleteOrder ob.heap r).1.orders, x ∈ lr.orders :=
            fun x hx => (hndlr.mem_erase_iff.mp (hperm.mem_iff.mp hx)).2
          have hnlner : ∀ x ∈ (lr.deleteOrder ob.heap r).1.orders, x ≠ r :=
            fun x hx => herne x (hperm.mem_iff.mp hx)
          have hnlprice : (lr.deleteOrder ob.heap r).1.price = lr.price :=
            deleteOrder_price lr ob.heap r
          have hbid3 : SideInv (replaceLevel ob.bids lr.price
              (lr.deleteOrder ob.heap r).1) ob.heap true next := by
            refine hinv.bidInv.replace hlrB hnlprice hnlords (hperm.symm.nodup (hndlr.erase r)) ?_ ?_
            · intro h0
              exact hemp (by simp [h0])
            · rw [deleteOrder_totalVolume, levelSum_eq_sumSizes,
                sumSizes_perm ob.heap hperm, sumSizes_erase ob.heap hrlr,
                hinv.bidInv.vol lr hlrB, levelSum_eq_sumSizes]
          have hgoalprice : replaceLevel ob.bids price (lr.deleteOrder ob.heap r).1
              = replaceLevel ob.bids lr.price (lr.deleteOrder ob.heap r).1 := by
            rw [hprice]
          rw [hgoalprice]
          refine ⟨hask2, ?_, hidxfresh2, hidxkey2, ?_, ?_⟩
          · refine hbid3.congr _ ?_
            intro l2 h2 x hx
            refine hH2other x ?_
            intro he
            rcases mem_replaceLevel_ne hinv.bidInv.prices h2 with he2 | ⟨h3, hpne⟩
            · exact hnlner x (he2 ▸ hx) he
            · exact hnotinr l2 h3 hpne (he ▸ hx)
          · intro x hnr
            by_cases hxr : x = r
            · rw [hxr]
              exact deleteOrder_heap_limitPrice_self lr ob.heap r
            · show (((lr.deleteOrder ob.heap r).2) x).limitPrice = none
              rw [hH2other x hxr]
              refine hinv.nonres x ?_
              intro l2 h2 hx2
              rcases List.mem_append.mp h2 with h2a | h2b
              · exact hnr l2 (List.mem_append.mpr (Or.inl h2a)) hx2
              · by_cases hpe : l2.price = lr.price
                · have h2lr : l2 = lr := level_eq_of_price_eq hinv.bidInv.prices h2b hlrB hpe
                  subst h2lr
                  have hxe : x ∈ (l2.deleteOrder ob.heap r).1.orders :=
                    hperm.mem_iff.mpr ((hndlr.mem_erase_iff).mpr ⟨hxr, hx2⟩)
                  refine hnr (l2.deleteOrder ob.heap r).1 (List.mem_append.mpr (Or.inr ?_)) hxe
                  refine replaceLevel_mem_self _ _ _ ⟨l2, h2b, rfl⟩
                · exact hnr l2 (List.mem_append.mpr (Or.inr
                    (mem_replaceLevel_of_ne _ _ _ _ h2b hpe))) hx2
          · intro p hp
            have hpold := (delAssoc_mem hp).1
            rcases hinv.idxRes p hpold with ⟨l2, h2, hx2⟩ | hz
            · rcases List.mem_append.mp h2 with h2a | h2b
              · exact Or.inl ⟨l2, List.mem_append.mpr (Or.inl h2a), hx2⟩
              · by_cases hpe : l2.price = lr.price
                · have h2lr : l2 = lr := level_eq_of_price_eq hinv.bidInv.prices h2b hlrB hpe
                  subst h2lr
                  have hxe : p.2 ∈ (l2.deleteOrder ob.heap r).1.orders :=
                    hperm.mem_iff.mpr ((hndlr.mem_erase_iff).mpr ⟨hidxner p hp, hx2⟩)
                  exact Or.inl ⟨(l2.deleteOrder ob.heap r).1, List.mem_append.mpr
                    (Or.inr (replaceLevel_mem_self _ _ _ ⟨l2, h2b, rfl⟩)), hxe⟩
                · exact Or.inl ⟨l2, List.mem_append.mpr (Or.inr
                    (mem_replaceLevel_of_ne _ _ _ _ h2b hpe)), hx2⟩
            · refine Or.inr ?_
              show ((((lr.deleteOrder ob.heap r).2)) p.2).size = 0
              rw [deleteOrder_heap_size]
              exact hz

/-- Every non-panicking API call preserves the book invariant. -/
theorem step_inv (s : ExchState) (hinv : BookInv s.ob s.nextRef) (op : Op)
    (s2 : ExchState) (hstep : step s op = some s2) :
    BookInv s2.ob s2.nextRef := by
  cases op with
  | limitOp bid size price oid uid ts =>
      simp only [step] at hstep
      injection hstep with h
      subst h
      exact placeLimit_inv s.ob s.nextRef hinv price (newOrderAt bid size oid uid ts)
  | marketOp bid size oid uid ts now =>
      simp only [step] at hstep
      cases hm : Orderbook.placeMarketOrder
          { s.ob with heap := hupd s.ob.heap s.nextRef (newOrderAt bid size oid uid ts) }
          s.nextRef now with
      | ok ms ob2 =>
          rw [hm] at hstep
          injection hstep with h
          subst h
          exact placeMarket_inv s.ob s.nextRef hinv (newOrderAt bid size oid uid ts)
            rfl now ms ob2 hm
      | panicked k ob2 =>
          rw [hm] at hstep
          cases hstep
  | cancelOp r =>
      simp only [step] at hstep
      cases hm : s.ob.cancelOrder r with
      | ok ob2 =>
          rw [hm] at hstep
          injection hstep with h
          subst h
          exact cancel_inv s.ob s.nextRef hinv r ob2 hm
      | panicked ob2 =>
          rw [hm] at hstep
          cases hstep

theorem foldBind_none (ops : List Op) :
    ops.foldl (fun acc op => acc.bind (fun t => step t op)) none = none := by
  induction ops with
  | nil => rfl
  | cons op t ih => simpa using ih

theorem foldSteps_inv (ops : List Op) (s0 : ExchState) (h0 : BookInv s0.ob s0.nextRef)
    (s : ExchState)
    (h : ops.foldl (fun acc op => acc.bind (fun t => step t op)) (some s0) = some s) :
    BookInv s.ob s.nextRef := by
  induction ops generalizing s0 with
  | nil =>
      simp only [List.foldl_nil] at h
      injection h with h1
      exact h1 ▸ h0
  | cons op t ih =>
      simp only [List.foldl_cons, Option.some_bind] at h
      cases hs1 : step s0 op with
      | none =>
          rw [hs1, foldBind_none] at h
          cases h
      | some s1 =>
          rw [hs1] at h
          exact ih s1 (step_inv s0 h0 op s1 hs1) h

/-- Every book state reachable by a completed trace satisfies the
representation invariant. -/
theorem runOps_inv (ops : List Op) (s : ExchState) (h : runOps ops = some s) :
    BookInv s.ob s.nextRef :=
  foldSteps_inv ops initState initInv s h

/-- A side's reported volume is the sum of its residents' remaining sizes
whenever each level's cache is correct. -/
theorem sideVolume_eq {ls : List Limit} {H : Heap}
    (hvol : ∀ l ∈ ls, l.totalVolume = levelSum H l) :
    (ls.map Limit.totalVolume).sum = sumSizes H (allOrders ls) := by
  induction ls with
  | nil => simp [allOrders, sumSizes]
  | cons a t ih =>
      rw [List.map_cons, List.sum_cons, allOrders_cons]
      have happ : sumSizes H (a.orders ++ allOrders t)
          = sumSizes H a.orders + sumSizes H (allOrders t) := by
        simp [sumSizes]
      rw [happ, hvol a (List.mem_cons_self _ _), levelSum_eq_sumSizes,
        ih (fun l hl => hvol l (List.mem_cons_of_mem _ hl))]

/-- C2: volume conservation.  After any finite trace of limit placements,
market placements and cancellations starting from a new book, each side's
reported total volume (`BidTotalVolume` / `AskTotalVolume`) equals the sum of
the remaining sizes of the orders resident in that side's levels, and each
level's cached `TotalVolume` equals the sum of its residents' remaining
sizes. -/
theorem claim_C2_volume_conservation (ops : List Op) (s : ExchState)
    (h : runOps ops = some s) :
    s.ob.bidTotalVolume = sumSizes s.ob.heap (allOrders s.ob.bids) ∧
    s.ob.askTotalVolume = sumSizes s.ob.heap (allOrders s.ob.asks) ∧
    ∀ l ∈ s.ob.asks ++ s.ob.bids, l.totalVolume = levelSum s.ob.heap l := by
  have hinv := runOps_inv ops s h
  refine ⟨sideVolume_eq hinv.bidInv.vol, sideVolume_eq hinv.askInv.vol, ?_⟩
  intro l hl
  rcases List.mem_append.mp hl with h1 | h1
  · exact hinv.askInv.vol l h1
  · exact hinv.bidInv.vol l h1

def opsC2 : List Op :=
  [ .limitOp true 5 10000 1 10 1, .limitOp true 8 9000 2 11 2,
    .marketOp false 6 3 12 3 4, .cancelOp 1 ]

theorem claim_C2_witness :
    runOps opsC2 = some ((runOps opsC2).getD initState) ∧
    (((runOps opsC2).getD initState).ob.bidTotalVolume
        = sumSizes ((runOps opsC2).getD initState).ob.heap
            (allOrders ((runOps opsC2).getD initState).ob.bids) ∧
      ((runOps opsC2).getD initState).ob.askTotalVolume
        = sumSizes ((runOps opsC2).getD initState).ob.heap
            (allOrders ((runOps opsC2).getD initState).ob.asks) ∧
      ∀ l ∈ ((runOps opsC2).getD initState).ob.asks
          ++ ((runOps opsC2).getD initState).ob.bids,
        l.totalVolume = levelSum ((runOps opsC2).getD initState).ob.heap l) :=
  ⟨rfl, claim_C2_volume_conservation opsC2 ((runOps opsC2).getD initState) rfl⟩

def opsC6 : List Op :=
  [ .limitOp false 10 10000 1 0 1, .marketOp true 10 2 0 2 3 ]

/-- C6 counterexample: after a resting ask of size 10 is fully consumed by a
market buy of size 10, the filled order's binding is still in the id index
(`PlaceMarketOrder` never deletes index entries), yet the order is resident in
no price level — the emptied level was evicted.  So not every order reachable
from the id index is resident in a level. -/
theorem claim_C6_counterexample :
    runOps opsC6 = some ((runOps opsC6).getD initState) ∧
    ((runOps opsC6).getD initState).ob.ordersIdx ≠ [] ∧
    ∀ p ∈ ((runOps opsC6).getD initState).ob.ordersIdx,
      ∀ l ∈ ((runOps opsC6).getD initState).ob.asks
          ++ ((runOps opsC6).getD initState).ob.bids, p.2 ∉ l.orders :=
  ⟨rfl, by decide, by decide⟩

/-- C6 amended: after any completed trace from a new book, every order
reachable from the id index is either resident in exactly one price level —
and that level lies on the side matching the order's Bid flag — or is already
fully filled (remaining size zero) and resident in no level; and no reachable
price level is empty.  The original claim fails only because a fully filled
order's id-index binding is never deleted. -/
theorem claim_C6_amended (ops : List Op) (s : ExchState)
    (h : runOps ops = some s) :
    (∀ p ∈ s.ob.ordersIdx,
      (∃ l, l ∈ (if (s.ob.heap p.2).bid then s.ob.bids else s.ob.asks) ∧
        p.2 ∈ l.orders ∧
        ∀ l2 ∈ s.ob.asks ++ s.ob.bids, p.2 ∈ l2.orders → l2 = l) ∨
      ((s.ob.heap p.2).size = 0 ∧ ∀ l ∈ s.ob.asks ++ s.ob.bids, p.2 ∉ l.orders)) ∧
    ∀ l ∈ s.ob.asks ++ s.ob.bids, l.orders ≠ [] := by
  have hinv := runOps_inv ops s h
  constructor
  · intro p hp
    by_cases hres : ∃ l ∈ s.ob.asks ++ s.ob.bids, p.2 ∈ l.orders
    · obtain ⟨l, hl, hxl⟩ := hres
      left
      rcases List.mem_append.mp hl with hla | hlb
      · have hbid := (hinv.askInv.side l hla p.2 hxl).1
        refine ⟨l, ?_, hxl, ?_⟩
        · rw [hbid]
          simpa using hla
        · intro l2 hl2 hxl2
          rcases List.mem_append.mp hl2 with h2a | h2b
          · exact level_eq_of_price_eq hinv.askInv.prices h2a hla
              (hinv.askInv.disj l2 h2a l hla p.2 hxl2 hxl)
          · have := (hinv.bidInv.side l2 h2b p.2 hxl2).1
            rw [hbid] at this
            cases this
      · have hbid := (hinv.bidInv.side l hlb p.2 hxl).1
        refine ⟨l, ?_, hxl, ?_⟩
        · rw [hbid]
          simpa using hlb
        · intro l2 hl2 hxl2
          rcases List.mem_append.mp hl2 with h2a | h2b
          · have := (hinv.askInv.side l2 h2a p.2 hxl2).1
            rw [hbid] at this
            cases this
          · exact level_eq_of_price_eq hinv.bidInv.prices h2b hlb
              (hinv.bidInv.disj l2 h2b l hlb p.2 hxl2 hxl)
    · push_neg at hres
      right
      refine ⟨?_, hres⟩
      rcases hinv.idxRes p hp with ⟨l, hl, hxl⟩ | hz
      · exact absurd hxl (hres l hl)
      · exact hz
  · intro l hl
    rcases List.mem_append.mp hl with h1 | h1
    · exact hinv.askInv.nonempty l h1
    · exact hinv.bidInv.nonempty l h1

def opsC6b : List Op := [ .limitOp true 5 10000 1 0 1 ]

theorem claim_C6_witness :
    runOps opsC6b = some ((runOps opsC6b).getD initState) ∧
    ((∀ p ∈ ((runOps opsC6b).getD initState).ob.ordersIdx,
      (∃ l, l ∈ (if (((runOps opsC6b).getD initState).ob.heap p.2).bid
            then ((runOps opsC6b).getD initState).ob.bids
            else ((runOps opsC6b).getD initState).ob.asks) ∧
        p.2 ∈ l.orders ∧
        ∀ l2 ∈ ((runOps opsC6b).getD initState).ob.asks
            ++ ((runOps opsC6b).getD initState).ob.bids, p.2 ∈ l2.orders → l2 = l) ∨
      ((((runOps opsC6b).getD initState).ob.heap p.2).size = 0 ∧
        ∀ l ∈ ((runOps opsC6b).getD initState).ob.asks
            ++ ((runOps opsC6b).getD initState).ob.bids, p.2 ∉ l.orders)) ∧
    ∀ l ∈ ((runOps opsC6b).getD initState).ob.asks
        ++ ((runOps opsC6b).getD initState).ob.bids, l.orders ≠ []) :=
  ⟨rfl, claim_C6_amended opsC6b ((runOps opsC6b).getD initState) rfl⟩

/-- A market buy meeting the liquidity precondition returns normally and
sweeps the asks lowest price first until the incoming order is fully
consumed, leaving no empty ask level and the bid side untouched. -/
theorem market_buy_ok (ob : Orderbook) (next : Ref) (o : Order) (now : Int)
    (hinv : BookInv ob next)
    (hnn : ∀ l ∈ ob.asks, ∀ x ∈ l.orders, 0 ≤ (ob.heap x).size)
    (hb : o.bid = true) (hpos : 0 < o.size) (hliq : o.size ≤ ob.askTotalVolume) :
    ∃ ms ob2,
      Orderbook.placeMarketOrder { ob with heap := hupd ob.heap next o } next now
        = .ok ms ob2 ∧
      (ms.map Matched.price).Pairwise (· ≤ ·) ∧
      (∀ m ∈ ms, m.price ∈ ob.asks.map Limit.price) ∧
      (ob2.heap next).size = 0 ∧
      (∀ l ∈ ob2.asks, l.orders ≠ []) ∧
      ob2.bids = ob.bids := by
  set H1 : Heap := hupd ob.heap next o with hH1def
  have hH1next : H1 next = o := hupd_same _ _ _
  have hH1old : ∀ x, x ≠ next → H1 x = ob.heap x := fun x hx => hupd_other _ _ _ x hx
  have haskFresh : ∀ l ∈ ob.asks, ∀ x ∈ l.orders, x ≠ next := by
    intro l hl x hx he
    exact absurd (he ▸ hinv.askInv.fresh l hl x hx) (lt_irrefl next)
  have hask1 : SideInv ob.asks H1 false next :=
    hinv.askInv.congr H1 (fun l hl x hx => hH1old x (haskFresh l hl x hx))
  have hperm := sortAsks_perm ob.asks
  have hinc : ∀ l ∈ sortAsks ob.asks, next ∉ l.orders := by
    intro l hl hx
    exact haskFresh l (hperm.mem_iff.mp hl) next hx rfl
  have hnd : ∀ l ∈ sortAsks ob.asks, l.orders.Nodup :=
    fun l hl => hask1.ordNd l (hperm.mem_iff.mp hl)
  have hdisj : DisjLevels (sortAsks ob.asks) :=
    (hperm.pairwise_iff (fun hab r hrb hra => hab r hra hrb)).mpr hask1.disjLevels
  have hnn' : ∀ l ∈ sortAsks ob.asks, ∀ x ∈ l.orders, 0 ≤ (H1 x).size := by
    intro l hl x hx
    have hl2 := hperm.mem_iff.mp hl
    rw [hH1old x (haskFresh l hl2 x hx)]
    exact hnn l hl2 x hx
  have hinn : 0 ≤ (H1 next).size := by
    rw [hH1next]
    exact le_of_lt hpos
  have hsum : ((sortAsks ob.asks).map (fun l => sumSizes H1 l.orders)).sum
      = ob.askTotalVolume := by
    have hcongr : (sortAsks ob.asks).map (fun l => sumSizes H1 l.orders)
        = (sortAsks ob.asks).map Limit.totalVolume := by
      refine List.map_congr_left ?_
      intro l hl
      rw [← levelSum_eq_sumSizes]
      exact (hask1.vol l (hperm.mem_iff.mp hl)).symm
    rw [hcongr]
    exact (hperm.map Limit.totalVolume).sum_eq
  have hconsume : ((marketSweep next (sortAsks ob.asks) H1).1 next).size = 0 := by
    rw [marketSweep_consume next _ H1 hinc hnd hdisj hnn' hinn, hsum, hH1next]
    exact max_eq_right (sub_nonpos.mpr hliq)
  obtain ⟨S, _, _, _, _⟩ := sweep_sideInv hask1 hperm
  have hchain : (((marketSweep next (sortAsks ob.asks) H1).2.2).map
      Matched.price).Pairwise (· ≤ ·) :=
    marketSweep_prices_chain next _ H1 (· ≤ ·) (fun a => le_refl a)
      (List.pairwise_map.mpr (sortAsks_sorted ob.asks))
  have hmem : ∀ m ∈ (marketSweep next (sortAsks ob.asks) H1).2.2,
      m.price ∈ ob.asks.map Limit.price := by
    intro m hm
    exact (hperm.map Limit.price).mem_iff.mp
      (marketSweep_ms_price_mem next _ H1 m hm)
  have hasksne : ob.asks ≠ [] := by
    intro h0
    have : ob.askTotalVolume = 0 := by
      rw [Orderbook.askTotalVolume, h0]
      rfl
    rw [this] at hliq
    exact absurd (lt_of_lt_of_le hpos hliq) (lt_irrefl 0)
  have hsortne : sortAsks ob.asks ≠ [] := fun h0 => hasksne (h0 ▸ hperm).nil_eq.symm
  obtain ⟨lh, lt2, hsorteq⟩ := List.exists_cons_of_ne_nil hsortne
  have hlh : lh ∈ ob.asks := hperm.mem_iff.mp (hsorteq ▸ List.mem_cons_self lh lt2)
  have hlhne : lh.orders ≠ [] := hinv.askInv.nonempty lh hlh
  have hfil : ¬(H1 next).isFilled = true := by
    rw [hH1next]
    simpa [Order.isFilled] using ne_of_gt hpos
  have hms_ne : (marketSweep next (sortAsks ob.asks) H1).2.2 ≠ [] := by
    rw [hsorteq]
    exact marketSweep_ms_nonempty next lh lt2 H1 hlhne hfil
  have htrne : ¬ ((ob.trades ++ ((marketSweep next (sortAsks ob.asks) H1).2.2).map
      (fun m => ({ price := m.price, size := m.sizeFilled, bid := o.bid,
                   timestamp := now } : Trade))).isEmpty = true) := by
    intro hemp
    have h0 : ob.trades ++ ((marketSweep next (sortAsks ob.asks) H1).2.2).map
        (fun m => ({ price := m.price, size := m.sizeFilled, bid := o.bid,
                     timestamp := now } : Trade)) = [] := by
      simpa using hemp
    exact hms_ne (List.map_eq_nil_iff.mp (List.append_eq_nil.mp h0).2)
  have hvolnot : ¬ (Orderbook.askTotalVolume { ob with heap := H1 } < o.size) :=
    not_lt.mpr hliq
  refine ⟨(marketSweep next (sortAsks ob.asks) H1).2.2, { ob with heap := (marketSweep next (sortAsks ob.asks) H1).1, asks := (marketSweep next (sortAsks ob.asks) H1).2.1, trades := ob.trades ++ ((marketSweep next (sortAsks ob.asks) H1).2.2).map (fun m => ({ price := m.price, size := m.sizeFilled, bid := o.bid, timestamp := now } : Trade)) }, ?_, hchain, hmem, hconsume, S.nonempty, rfl⟩
  unfold Orderbook.placeMarketOrder
  simp only [hH1next]
  rw [if_pos hb, if_neg hvolnot, if_neg htrne]

/-- A market sell meeting the liquidity precondition returns normally and
sweeps the bids highest price first until the incoming order is fully
consumed, leaving no empty bid level and the ask side untouched. -/
theorem market_sell_ok (ob : Orderbook) (next : Ref) (o : Order) (now : Int)
    (hinv : BookInv ob next)
    (hnn : ∀ l ∈ ob.bids, ∀ x ∈ l.orders, 0 ≤ (ob.heap x).size)
    (hb : o.bid = false) (hpos : 0 < o.size) (hliq : o.size ≤ ob.bidTotalVolume) :
    ∃ ms ob2,
      Orderbook.placeMarketOrder { ob with heap := hupd ob.heap next o } next now
        = .ok ms ob2 ∧
      (ms.map Matched.price).Pairwise (· ≥ ·) ∧
      (∀ m ∈ ms, m.price ∈ ob.bids.map Limit.price) ∧
      (ob2.heap next).size = 0 ∧
      (∀ l ∈ ob2.bids, l.orders ≠ []) ∧
      ob2.asks = ob.asks := by
  set H1 : Heap := hupd ob.heap next o with hH1def
  have hH1next : H1 next = o := hupd_same _ _ _
  have hH1old : ∀ x, x ≠ next → H1 x = ob.heap x := fun x hx => hupd_other _ _ _ x hx
  have hbidFresh : ∀ l ∈ ob.bids, ∀ x ∈ l.orders, x ≠ next := by
    intro l hl x hx he
    exact absurd (he ▸ hinv.bidInv.fresh l hl x hx) (lt_irrefl next)
  have hbid1 : SideInv ob.bids H1 true next :=
    hinv.bidInv.congr H1 (fun l hl x hx => hH1old x (hbidFresh l hl x hx))
  have hperm := sortBids_perm ob.bids
  have hinc : ∀ l ∈ sortBids ob.bids, next ∉ l.orders := by
    intro l hl hx
    exact hbidFresh l (hperm.mem_iff.mp hl) next hx rfl
  have hnd : ∀ l ∈ sortBids ob.bids, l.orders.Nodup :=
    fun l hl => hbid1.ordNd l (hperm.mem_iff.mp hl)
  have hdisj : DisjLevels (sortBids ob.bids) :=
    (hperm.pairwise_iff (fun hab r hrb hra => hab r hra hrb)).mpr hbid1.disjLevels
  have hnn' : ∀ l ∈ sortBids ob.bids, ∀ x ∈ l.orders, 0 ≤ (H1 x).size := by
    intro l hl x hx
    have hl2 := hperm.mem_iff.mp hl
    rw [hH1old x (hbidFresh l hl2 x hx)]
    exact hnn l hl2 x hx
  have hinn : 0 ≤ (H1 next).size := by
    rw [hH1next]
    exact le_of_lt hpos
  have hsum : ((sortBids ob.bids).map (fun l => sumSizes H1 l.orders)).sum
      = ob.bidTotalVolume := by
    have hcongr : (sortBids ob.bids).map (fun l => sumSizes H1 l.orders)
        = (sortBids ob.bids).map Limit.totalVolume := by
      refine List.map_congr_left ?_
      intro l hl
      rw [← levelSum_eq_sumSizes]
      exact (hbid1.vol l (hperm.mem_iff.mp hl)).symm
    rw [hcongr]
    exact (hperm.map Limit.totalVolume).sum_eq
  have hconsume : ((marketSweep next (sortBids ob.bids) H1).1 next).size = 0 := by
    rw [marketSweep_consume next _ H1 hinc hnd hdisj hnn' hinn, hsum, hH1next]
    exact max_eq_right (sub_nonpos.mpr hliq)
  obtain ⟨S, _, _, _, _⟩ := sweep_sideInv hbid1 hperm
  have hchain : (((marketSweep next (sortBids ob.bids) H1).2.2).map
      Matched.price).Pairwise (· ≥ ·) :=
    marketSweep_prices_chain next _ H1 (· ≥ ·) (fun a => le_refl a)
      (List.pairwise_map.mpr (sortBids_sorted ob.bids))
  have hmem : ∀ m ∈ (marketSweep next (sortBids ob.bids) H1).2.2,
      m.price ∈ ob.bids.map Limit.price := by
    intro m hm
    exact (hperm.map Limit.price).mem_iff.mp
      (marketSweep_ms_price_mem next _ H1 m hm)
  have hbidsne : ob.bids ≠ [] := by
    intro h0
    have : ob.bidTotalVolume = 0 := by
      rw [Orderbook.bidTotalVolume, h0]
      rfl
    rw [this] at hliq
    exact absurd (lt_of_lt_of_le hpos hliq) (lt_irrefl 0)
  have hsortne : sortBids ob.bids ≠ [] := fun h0 => hbidsne (h0 ▸ hperm).nil_eq.symm
  obtain ⟨lh, lt2, hsorteq⟩ := List.exists_cons_of_ne_nil hsortne
  have hlh : lh ∈ ob.bids := hperm.mem_iff.mp (hsorteq ▸ List.mem_cons_self lh lt2)
  have hlhne : lh.orders ≠ [] := hinv.bidInv.nonempty lh hlh
  have hfil : ¬(H1 next).isFilled = true := by
    rw [hH1next]
    simpa [Order.isFilled] using ne_of_gt hpos
  have hms_ne : (marketSweep next (sortBids ob.bids) H1).2.2 ≠ [] := by
    rw [hsorteq]
    exact marketSweep_ms_nonempty next lh lt2 H1 hlhne hfil
  have htrne : ¬ ((ob.trades ++ ((marketSweep next (sortBids ob.bids) H1).2.2).map
      (fun m => ({ price := m.price, size := m.sizeFilled, bid := o.bid,
                   timestamp := now } : Trade))).isEmpty = true) := by
    intro hemp
    have h0 : ob.trades ++ ((marketSweep next (sortBids ob.bids) H1).2.2).map
        (fun m => ({ price := m.price, size := m.sizeFilled, bid := o.bid,
                     timestamp := now } : Trade)) = [] := by
      simpa using hemp
    exact hms_ne (List.map_eq_nil_iff.mp (List.append_eq_nil.mp h0).2)
  have hvolnot : ¬ (Orderbook.bidTotalVolume { ob with heap := H1 } < o.size) :=
    not_lt.mpr hliq
  have hbneg : ¬ (o.bid = true) := by
    simp [hb]
  refine ⟨(marketSweep next (sortBids ob.bids) H1).2.2, { ob with heap := (marketSweep next (sortBids ob.bids) H1).1, bids := (marketSweep next (sortBids ob.bids) H1).2.1, trades := ob.trades ++ ((marketSweep next (sortBids ob.bids) H1).2.2).map (fun m => ({ price := m.price, size := m.sizeFilled, bid := o.bid, timestamp := now } : Trade)) }, ?_, hchain, hmem, hconsume, S.nonempty, rfl⟩
  unfold Orderbook.placeMarketOrder
  simp only [hH1next]
  rw [if_neg hbneg, if_neg hvolnot, if_neg htrne]

def opsC4 : List Op :=
  [ .limitOp true 1 5000 1 0 1, .limitOp true 1 5000 2 0 2,
    .limitOp true 8 9000 3 0 3, .limitOp true 5 10000 4 0 4 ]

def sC4 : ExchState := (runOps opsC4).getD initState

def mresC4 : MResult :=
  Orderbook.placeMarketOrder
    { sC4.ob with heap := hupd sC4.ob.heap sC4.nextRef (newOrderAt false 10 5 0 5) }
    sC4.nextRef 6

/-- C4: best-price-first sweep.  Under the representation invariant, with
non-negative resting sizes and the liquidity precondition, a market order
returns normally and its matches are priced against the opposite side best
price first (ascending ask prices for a buy, descending bid prices for a
sell), each match price is an existing level price, the incoming order ends
fully filled, every emptied level is evicted (no empty level survives) and
the same side is untouched.  In particular, on the book with resting bids
1@5000, 1@5000, 8@9000, 5@10000, a market ask of size 10 yields exactly the
matches 5@10000 then 5@9000 and leaves bid volume 5 in two levels, 9000 with
3 remaining and 5000 untouched. -/
theorem claim_C4_best_price_sweep :
    (∀ (ob : Orderbook) (next : Ref) (o : Order) (now : Int),
      BookInv ob next →
      (∀ l ∈ ob.asks, ∀ x ∈ l.orders, 0 ≤ (ob.heap x).size) →
      o.bid = true → 0 < o.size → o.size ≤ ob.askTotalVolume →
      ∃ ms ob2,
        Orderbook.placeMarketOrder { ob with heap := hupd ob.heap next o } next now
          = .ok ms ob2 ∧
        (ms.map Matched.price).Pairwise (· ≤ ·) ∧
        (∀ m ∈ ms, m.price ∈ ob.asks.map Limit.price) ∧
        (ob2.heap next).size = 0 ∧
        (∀ l ∈ ob2.asks, l.orders ≠ []) ∧
        ob2.bids = ob.bids) ∧
    (∀ (ob : Orderbook) (next : Ref) (o : Order) (now : Int),
      BookInv ob next →
      (∀ l ∈ ob.bids, ∀ x ∈ l.orders, 0 ≤ (ob.heap x).size) →
      o.bid = false → 0 < o.size → o.size ≤ ob.bidTotalVolume →
      ∃ ms ob2,
        Orderbook.placeMarketOrder { ob with heap := hupd ob.heap next o } next now
          = .ok ms ob2 ∧
        (ms.map Matched.price).Pairwise (· ≥ ·) ∧
        (∀ m ∈ ms, m.price ∈ ob.bids.map Limit.price) ∧
        (ob2.heap next).size = 0 ∧
        (∀ l ∈ ob2.bids, l.orders ≠ []) ∧
        ob2.asks = ob.asks) ∧
    (mresC4.isOk = true ∧
      mresC4.msOf.map (fun m => (m.price, m.sizeFilled)) = [(10000, 5), (9000, 5)] ∧
      mresC4.stateOf.bidTotalVolume = 5 ∧
      mresC4.stateOf.bids.map (fun l => (l.price, levelSum mresC4.stateOf.heap l))
        = [(9000, 3), (5000, 2)]) :=
  ⟨market_buy_ok, market_sell_ok, by decide, by decide, by decide, by decide⟩

def opsC4w : List Op := [ .limitOp false 4 500 1 0 1 ]

def sC4w : ExchState := (runOps opsC4w).getD initState

theorem claim_C4_witness :
    ((∀ l ∈ sC4w.ob.asks, ∀ x ∈ l.orders, 0 ≤ (sC4w.ob.heap x).size) ∧
      (newOrderAt true 3 2 0 2).bid = true ∧ 0 < (newOrderAt true 3 2 0 2).size ∧
      (newOrderAt true 3 2 0 2).size ≤ sC4w.ob.askTotalVolume) ∧
    (∃ ms ob2,
      Orderbook.placeMarketOrder
        { sC4w.ob with heap := hupd sC4w.ob.heap sC4w.nextRef (newOrderAt true 3 2 0 2) }
        sC4w.nextRef 9 = .ok ms ob2 ∧
      (ms.map Matched.price).Pairwise (· ≤ ·) ∧
      (∀ m ∈ ms, m.price ∈ sC4w.ob.asks.map Limit.price) ∧
      (ob2.heap sC4w.nextRef).size = 0 ∧
      (∀ l ∈ ob2.asks, l.orders ≠ []) ∧
      ob2.bids = sC4w.ob.bids) :=
  ⟨⟨by decide, by decide, by decide, by decide⟩,
   claim_C4_best_price_sweep.1 sC4w.ob sC4w.nextRef (newOrderAt true 3 2 0 2) 9
     (runOps_inv opsC4w sC4w rfl) (by decide) (by decide) (by decide) (by decide)⟩

end CryptoExchange
